import Mathlib

/-!
# Verification of the llama-zip arithmetic coder and codecs

Shallow embedding of `src/llama_zip.py` (classes `ArithmeticCoderBase`,
`Encoder`, `Decoder`, `Utf8Chunks`, functions `bytes_to_utf8`,
`utf8_to_bytes`, `LlamaZip.compute_cdf`, `robust_b64decode`), together with
proofs about the embedded definitions.

Python's unbounded integers are embedded as `ℕ` (all quantities handled by the
coder are non-negative in every execution considered here; where Python could
produce a negative intermediate the `ℕ` truncation is noted at the definition).
Bit manipulations on 64-bit state are rendered with explicit arithmetic:
`x & STATE_MASK = x % 2^64`, `x << 1 = 2 * x`, `x >> 63 = x / 2^63`, and
single-bit tests via `Nat.testBit`; each definition notes the Python line it
mirrors.
-/

namespace LlamaZip

/-- `NUM_STATE_BITS = 64` (llama_zip.py line 15). -/
def NUM_STATE_BITS : ℕ := 64

/-- `FREQ_SCALE_FACTOR = 1 << 32` (line 16). -/
def FREQ_SCALE_FACTOR : ℕ := 2 ^ 32

/-- `full_range = 1 << NUM_STATE_BITS` (line 24). -/
def FULL_RANGE : ℕ := 2 ^ NUM_STATE_BITS

/-- `self.half_range = full_range >> 1` (line 25). -/
def HALF_RANGE : ℕ := FULL_RANGE / 2

/-- `self.quarter_range = self.half_range >> 1` (line 26). -/
def QUARTER_RANGE : ℕ := HALF_RANGE / 2

/-- `self.state_mask = full_range - 1` (line 27). -/
def STATE_MASK : ℕ := FULL_RANGE - 1

/-- The `low`/`high` pair shared by encoder and decoder
(`ArithmeticCoderBase.__init__`, lines 28-29 set `low = 0`,
`high = state_mask`). -/
structure CoderState where
  low : ℕ
  high : ℕ
deriving DecidableEq

/-- Initial coder state: `low = 0`, `high = state_mask`. -/
def initState : CoderState := ⟨0, STATE_MASK⟩

/-- `int(cum_freqs[-1])`: the last entry of the cumulative frequency vector. -/
def cdfTotal (c : List ℕ) : ℕ := c.getLastD 0

/-- `int(cum_freqs[symbol])`. -/
def cdfHigh (c : List ℕ) (s : ℕ) : ℕ := c.getD s 0

/-- `int(cum_freqs[symbol - 1]) if symbol > 0 else 0` (line 36). -/
def cdfLow (c : List ℕ) (s : ℕ) : ℕ := if 0 < s then c.getD (s - 1) 0 else 0

/-- Lines 32-37 of `update`: the interval subdivision
`high = low + symhigh * range // total - 1`,
`low  = low + symlow * range // total`.
`//` is Python floor division = `Nat.div` here; the `- 1` is `ℕ`-truncated
(it underflows only when `symhigh * range // total = 0`, which cannot happen
in the runs analysed below whenever the encoded traces stay non-negative in
Python as well). -/
def scaleState (st : CoderState) (c : List ℕ) (s : ℕ) : CoderState :=
  let total := cdfTotal c
  let range := st.high - st.low + 1
  ⟨st.low + cdfLow c s * range / total,
   st.low + cdfHigh c s * range / total - 1⟩

/-- One renormalization event recorded during `update`: either an E1/E2 shift
(the common top bit that `Encoder.shift` emits / `Decoder.shift` consumes one
input bit for), or an E3 underflow step. -/
inductive RenormOp where
  | shift (bit : ℕ)
  | underflow
deriving DecidableEq

/-- The guard of the first `while` loop (line 38):
`((low ^ high) & half_range) == 0`, i.e. bit 63 of `low` equals bit 63 of
`high`. -/
def e12Guard (st : CoderState) : Prop :=
  st.low.testBit 63 = st.high.testBit 63

instance : DecidablePred e12Guard := fun st => by
  unfold e12Guard; infer_instance

/-- The bit emitted by `Encoder.shift`: `low >> (NUM_STATE_BITS - 1)`
(line 71), read before `low` is shifted. -/
def shiftBit (st : CoderState) : ℕ := st.low / HALF_RANGE

/-- The state change of one E1/E2 iteration (lines 40-41):
`low = (low << 1) & state_mask`, `high = ((high << 1) & state_mask) | 1`
(the masked doubled value is even, so `| 1` is `+ 1`). -/
def e12Step (st : CoderState) : CoderState :=
  ⟨2 * st.low % FULL_RANGE, 2 * st.high % FULL_RANGE + 1⟩

/-- The first renormalization loop (lines 38-41), run with explicit fuel;
128 units of fuel are never exhausted in any execution analysed below (each
iteration at least doubles `high - low + 1`, so at most 64 iterations can
satisfy the guard when `low ≤ high`, and the concrete degenerate traces
examined use at most 63).  Returns the final state together with the `shift`
events in order, each recording the emitted top bit `low >> 63`. -/
def e12Loop : ℕ → CoderState → CoderState × List RenormOp
  | 0, st => (st, [])
  | fuel + 1, st =>
    if st.low.testBit 63 = st.high.testBit 63 then
      let r := e12Loop fuel (e12Step st)
      (r.1, RenormOp.shift (shiftBit st) :: r.2)
    else (st, [])

/-- The guard of the second `while` loop (line 42):
`(low & ~high & quarter_range) != 0`, i.e. bit 62 of `low` is set and bit 62
of `high` is clear. -/
def e3Cond (st : CoderState) : Prop :=
  st.low.testBit 62 = true ∧ st.high.testBit 62 = false

instance : DecidablePred e3Cond := fun st => by
  unfold e3Cond; infer_instance

/-- The state change of one E3 iteration (lines 44-45):
`low = (low << 1) ^ half_range`,
`high = ((high ^ half_range) << 1) | half_range | 1`
(rendered with `Nat.xor`/`Nat.lor`, exactly as in the source). -/
def e3Step (st : CoderState) : CoderState :=
  ⟨(2 * st.low) ^^^ HALF_RANGE, (((st.high ^^^ HALF_RANGE) * 2) ||| HALF_RANGE) ||| 1⟩

/-- The second renormalization loop (lines 42-45), with fuel as in `e12Loop`;
returns the final state and the number of `underflow()` calls. -/
def e3Loop : ℕ → CoderState → CoderState × ℕ
  | 0, st => (st, 0)
  | fuel + 1, st =>
    if st.low.testBit 62 = true ∧ st.high.testBit 62 = false then
      let r := e3Loop fuel (e3Step st)
      (r.1, r.2 + 1)
    else (st, 0)

/-- Fuel bound for both renormalization loops; see `e12Loop`. -/
def RENORM_FUEL : ℕ := 128

/-- `ArithmeticCoderBase.update(cum_freqs, symbol)` (lines 31-45), with the
`shift()` / `underflow()` callbacks reified as the returned `RenormOp` list
(in call order: all E1/E2 shifts, then all E3 underflows, exactly as the two
sequential `while` loops run them).  The encoder and decoder below interpret
the events; neither callback reads or writes `low`/`high`, so this
factorisation is observationally identical to the Python control flow. -/
def update (st : CoderState) (c : List ℕ) (s : ℕ) : CoderState × List RenormOp :=
  let st1 := scaleState st c s
  let r12 := e12Loop RENORM_FUEL st1
  let r3 := e3Loop RENORM_FUEL r12.1
  (r3.1, r12.2 ++ List.replicate r3.2 RenormOp.underflow)

/-! ## Encoder (lines 54-85) -/

/-- `Encoder` state: `encoded_data` (a bytearray), `bit_index` (8 initially),
`num_underflow`, on top of the shared `low`/`high`. -/
structure Encoder where
  st : CoderState
  encodedData : List ℕ
  bitIndex : ℕ
  numUnderflow : ℕ
deriving DecidableEq

/-- `Encoder.__init__` (lines 55-59). -/
def Encoder.init : Encoder := ⟨initState, [], 8, 0⟩

/-- `Encoder.append_bit(bit)` (lines 80-85): when the current byte is full
(`bit_index == 8`) a fresh zero byte is appended and `bit_index` reset; then
`encoded_data[-1] |= bit << (7 - bit_index)` — the target bit of the last
byte is still zero at that point, so `|=` adds `bit * 2^(7 - bit_index)` —
and `bit_index += 1`. -/
def appendBit (e : Encoder) (bit : ℕ) : Encoder :=
  let d := if e.bitIndex = 8 then e.encodedData ++ [0] else e.encodedData
  let bi := if e.bitIndex = 8 then 0 else e.bitIndex
  { e with
    encodedData := d.dropLast ++ [d.getLastD 0 + bit * 2 ^ (7 - bi)]
    bitIndex := bi + 1 }

/-- Append `n` copies of the same bit (the `for _ in range(self.num_underflow)`
loop of `Encoder.shift`, lines 73-74). -/
def appendCopies : ℕ → Encoder → ℕ → Encoder
  | 0, e, _ => e
  | n + 1, e, bit => appendCopies n (appendBit e bit) bit

/-- `Encoder.shift` (lines 70-75): emit the top bit, then `num_underflow`
copies of the complemented bit (`bit ^ 1`), then reset the counter.  The
emitted top bit is supplied by the recorded `RenormOp`. -/
def encShift (e : Encoder) (bit : ℕ) : Encoder :=
  let e1 := appendBit e bit
  { appendCopies e1.numUnderflow e1 (bit ^^^ 1) with numUnderflow := 0 }

/-- Interpret one recorded renormalization event on the encoder:
`shift` runs `Encoder.shift`, `underflow` runs `Encoder.underflow`
(line 77-78: `num_underflow += 1`). -/
def encApplyOp (e : Encoder) : RenormOp → Encoder
  | RenormOp.shift b => encShift e b
  | RenormOp.underflow => { e with numUnderflow := e.numUnderflow + 1 }

/-- `Encoder.encode_symbol(cum_freqs, symbol)` (lines 64-65): run the shared
`update`, interpreting its `shift`/`underflow` events on the bit buffer. -/
def encodeSymbol (e : Encoder) (c : List ℕ) (s : ℕ) : Encoder :=
  let r := update e.st c s
  { r.2.foldl encApplyOp e with st := r.1 }

/-- `Encoder.finish` (lines 67-68): `append_bit(1)`. -/
def Encoder.finish (e : Encoder) : Encoder := appendBit e 1

/-- Encode a whole sequence of (CDF, symbol) pairs from a fresh encoder and
finish: the compressed byte string (`get_encoded`, lines 61-62). -/
def encodeData (pairs : List (List ℕ × ℕ)) : List ℕ :=
  (Encoder.finish (pairs.foldl (fun e p => encodeSymbol e p.1 p.2) Encoder.init)).encodedData

/-! ## Decoder (lines 88-124) -/

/-- `Decoder` state: the input byte string with its byte/bit cursor and the
64-bit `code` register, on top of the shared `low`/`high`. -/
structure Decoder where
  input : List ℕ
  byteIndex : ℕ
  bitIndex : ℕ
  st : CoderState
  code : ℕ
deriving DecidableEq

/-- `Decoder.read_code_bit` (lines 117-124): past the end of the input return
0 without advancing; otherwise extract bit `7 - bit_index` of the current
byte and advance the cursor. -/
def readCodeBit (d : Decoder) : ℕ × Decoder :=
  if d.input.length ≤ d.byteIndex then (0, d)
  else
    let bit := d.input.getD d.byteIndex 0 / 2 ^ (7 - d.bitIndex) % 2
    let bi := (d.bitIndex + 1) % 8
    (bit, { d with
            bitIndex := bi
            byteIndex := if bi = 0 then d.byteIndex + 1 else d.byteIndex })

/-- Read `n` bits, most significant first, into an accumulator: the
`sum(self.read_code_bit() << i for i in range(NUM_STATE_BITS - 1, -1, -1))`
of `Decoder.__init__` (lines 94-96), which reads 64 bits in order with the
first read bit weighted `2^63` — i.e. repeated `acc := 2*acc + bit`. -/
def readCode : ℕ → ℕ → Decoder → ℕ × Decoder
  | 0, acc, d => (acc, d)
  | n + 1, acc, d =>
    let r := readCodeBit d
    readCode n (2 * acc + r.1) r.2

/-- `Decoder.__init__(data)` (lines 89-96). -/
def Decoder.init (data : List ℕ) : Decoder :=
  let d0 : Decoder := ⟨data, 0, 0, initState, 0⟩
  let r := readCode 64 0 d0
  { r.2 with code := r.1 }

/-- `Decoder.shift` (lines 107-108):
`code = ((code << 1) & state_mask) | read_code_bit()` (the masked doubled
code is even, so `|` is `+`). -/
def decShift (d : Decoder) : Decoder :=
  let r := readCodeBit d
  { r.2 with code := 2 * d.code % FULL_RANGE + r.1 }

/-- `Decoder.underflow` (lines 110-115):
`code = (code & half_range) | ((code << 1) & (state_mask >> 1)) | read_code_bit()`:
keep bit 63 (`half_range * (code / half_range % 2)`), shift bits 0-61 up
(`2 * code % half_range`), and put the fresh bit in position 0 (the three
parts occupy disjoint bit ranges, so `|` is `+`). -/
def decUnderflow (d : Decoder) : Decoder :=
  let r := readCodeBit d
  { r.2 with code := HALF_RANGE * (d.code / HALF_RANGE % 2) + 2 * d.code % HALF_RANGE + r.1 }

/-- Interpret one recorded renormalization event on the decoder. -/
def decApplyOp (d : Decoder) : RenormOp → Decoder
  | RenormOp.shift _ => decShift d
  | RenormOp.underflow => decUnderflow d

/-- The binary-search loop of `np.searchsorted(a, v, side="right")`:
`while lo < hi: mid = (lo+hi)//2; if v < a[mid]: hi = mid else: lo = mid+1;
return lo`.  The loop runs at most `hi - lo` times, so the explicit fuel
(instantiated with the array length in `bisectRight`) is never exhausted. -/
def bisectRightAux (c : List ℕ) (v : ℕ) : ℕ → ℕ → ℕ → ℕ
  | 0, lo, _ => lo
  | fuel + 1, lo, hi =>
    if lo < hi then
      let mid := (lo + hi) / 2
      if v < c.getD mid 0 then
        bisectRightAux c v fuel lo mid
      else
        bisectRightAux c v fuel (mid + 1) hi
    else lo

/-- `np.searchsorted(cum_freqs, value, side="right")` (line 103). -/
def bisectRight (c : List ℕ) (v : ℕ) : ℕ :=
  bisectRightAux c v c.length 0 c.length

/-- `Decoder.decode_symbol(cum_freqs)` (lines 98-105):
`value = ((code - low + 1) * total - 1) // range`,
`symbol = np.searchsorted(cum_freqs, value, side="right")`, then the shared
`update`, whose `shift`/`underflow` events feed bits into `code`. -/
def decodeSymbol (d : Decoder) (c : List ℕ) : ℕ × Decoder :=
  let total := cdfTotal c
  let range := d.st.high - d.st.low + 1
  let offset := d.code - d.st.low
  let value := ((offset + 1) * total - 1) / range
  let symbol := bisectRight c value
  let r := update d.st c symbol
  (symbol, { r.2.foldl decApplyOp d with st := r.1 })

/-- Decode one symbol per CDF in sequence. -/
def decodeSymbols : Decoder → List (List ℕ) → List ℕ
  | _, [] => []
  | d, c :: cs =>
    let r := decodeSymbol d c
    r.1 :: decodeSymbols r.2 cs

/-! ## Well-formedness predicates and proof-level views of the coder -/

/-- A well-formed cumulative frequency vector in the sense of spec §3: a
non-empty, non-decreasing sequence of naturals whose last entry is positive. -/
def Cdf.Wf (c : List ℕ) : Prop :=
  c ≠ [] ∧ List.Chain' (· ≤ ·) c ∧ 0 < cdfTotal c

/-- Symbol `s` lies in the support of `c`: a valid index whose coding
interval `[c[s-1], c[s])` is non-empty. -/
def InSupport (c : List ℕ) (s : ℕ) : Prop :=
  s < c.length ∧ cdfLow c s < cdfHigh c s

/-- A strictly increasing CDF with positive first entry, as `compute_cdf`
produces (every `freq` is at least 1). -/
def StrictCdf (c : List ℕ) : Prop :=
  c ≠ [] ∧ List.Chain' (· < ·) c ∧ 0 < c.getD 0 0

/-- The stable-state invariant holding between updates: bit 63 of `low` and
`high` differ (with `low ≤ high` this reads `low < 2^63 ≤ high`), `high`
fits in 64 bits, and the E3 condition fails (`low < 2^62` or
`high ≥ 3·2^62`). -/
def Stable (st : CoderState) : Prop :=
  st.low < HALF_RANGE ∧ HALF_RANGE ≤ st.high ∧ st.high < FULL_RANGE ∧
    (st.low < QUARTER_RANGE ∨ 3 * QUARTER_RANGE ≤ st.high)

/-- All entries of the list are bits. -/
def IsBits (L : List ℕ) : Prop := ∀ b ∈ L, b ≤ 1

/-- The dyadic value of a bit list read most-significant-first:
`bitsVal [b₀, b₁, …] = b₀/2 + b₁/4 + …`. -/
def bitsVal (L : List ℕ) : ℚ := L.foldr (fun b acc => ((b : ℚ) + acc) / 2) 0

/-- The affine correction relating the local stream value to the value of the
not-yet-emitted bits when `u` underflow bits are pending:
`hmap u x = 2^u · (x - 1/2) + 1/2`. -/
def hmap (u : ℕ) (x : ℚ) : ℚ := 2 ^ u * (x - 1 / 2) + 1 / 2

/-- The bits the encoder appends while interpreting a run of recorded
renormalization events, starting with `u` pending underflow bits; also
returns the pending count afterwards.  A `shift b` appends `b` followed by
`u` copies of `b ^ 1`; an `underflow` just increments the counter. -/
def emitOps : ℕ → List RenormOp → List ℕ × ℕ
  | u, [] => ([], u)
  | u, RenormOp.shift b :: rest =>
    let r := emitOps 0 rest
    (b :: (List.replicate u (b ^^^ 1) ++ r.1), r.2)
  | u, RenormOp.underflow :: rest => emitOps (u + 1) rest

/-- All bits the encoder will append from a given coder state with `u`
pending underflow bits while encoding `pairs` and then finishing: the
per-update emissions followed by the single final `1` bit (pending underflow
bits at `finish` time are dropped, as in the source). -/
def futureBits : CoderState → ℕ → List (List ℕ × ℕ) → List ℕ
  | _, _, [] => [1]
  | st, u, p :: rest =>
    let r := update st p.1 p.2
    let em := emitOps u r.2
    em.1 ++ futureBits r.1 em.2 rest

/-- A certified run of renormalization events: `OpsRel st ops st'` says the
event list `ops` transforms `st` into `st'` with every event's loop guard
satisfied at its point of execution (for `underflow`, also the fact —
available wherever the E3 loop runs with `low ≤ high` — that bit 63 of `low`
is clear and bit 63 of `high` is set). -/
inductive OpsRel : CoderState → List RenormOp → CoderState → Prop
  | nil (st : CoderState) : OpsRel st [] st
  | shift (st st' : CoderState) (ops : List RenormOp)
      (hg : st.low.testBit 63 = st.high.testBit 63)
      (h : OpsRel (e12Step st) ops st') :
      OpsRel st (RenormOp.shift (shiftBit st) :: ops) st'
  | underflow (st st' : CoderState) (ops : List RenormOp)
      (hl : st.low.testBit 63 = false) (hh : st.high.testBit 63 = true)
      (hl2 : st.low.testBit 62 = true) (hh2 : st.high.testBit 62 = false)
      (h : OpsRel (e3Step st) ops st') :
      OpsRel st (RenormOp.underflow :: ops) st'

/-- Byte `k` of the MSB-first packing of a bit list: bits `8k .. 8k+7`,
most significant first, reading 0 past the end (so the final byte is
zero-padded in its low bits). -/
def packedByte (bits : List ℕ) (k : ℕ) : ℕ :=
  (List.range 8).foldl (fun a i => 2 * a + bits.getD (8 * k + i) 0) 0

/-- Pack a bit list into `⌈n/8⌉` bytes, MSB first within each byte, the
final partial byte zero-padded in its low bits. -/
def packBits (bits : List ℕ) : List ℕ :=
  (List.range ((bits.length + 7) / 8)).map (packedByte bits)

/-- Append a list of bits to the encoder's byte buffer in order. -/
def appendBits (e : Encoder) (bs : List ℕ) : Encoder := bs.foldl appendBit e

/-- The correspondence between an encoder byte buffer and the list of all
bits appended so far: the buffer is the MSB-first packing, and `bit_index`
records the fill level of the final byte. -/
def PackInv (bits : List ℕ) (e : Encoder) : Prop :=
  e.encodedData = packBits bits ∧
    e.bitIndex = (if bits.length % 8 = 0 then 8 else bits.length % 8)

/-- The coder state reached from a starting state by running the shared
`update` over a sequence of (CDF, symbol) pairs. -/
def updFold (st : CoderState) (pairs : List (List ℕ × ℕ)) : CoderState :=
  pairs.foldl (fun s p => (update s p.1 p.2).1) st

/-- Bit `n` of a byte string, counting MSB-first within bytes and zero past
the end. -/
def byteBitAt (bytes : List ℕ) (n : ℕ) : ℕ :=
  bytes.getD (n / 8) 0 / 2 ^ (7 - n % 8) % 2

/-- The `j`-th bit the decoder's cursor will deliver (reads past the end of
the input yield 0). -/
def readStream (d : Decoder) : ℕ → ℕ
  | 0 => (readCodeBit d).1
  | j + 1 => readStream (readCodeBit d).2 j

/-! ## Byte↔text codec (`Utf8Chunks`, `bytes_to_utf8`, `utf8_to_bytes`,
lines 13, 128-235) -/

/-- `PUA_START = 0xE000` (line 13). -/
def PUA_START : ℕ := 0xE000

/-- Standard UTF-8 encoding of a Unicode scalar value, as produced by
Python's `chr(cp).encode("utf-8")`. -/
def utf8EncodeChar (cp : ℕ) : List ℕ :=
  if cp < 0x80 then [cp]
  else if cp < 0x800 then [0xC0 + cp / 64, 0x80 + cp % 64]
  else if cp < 0x10000 then [0xE0 + cp / 4096, 0x80 + cp / 64 % 64, 0x80 + cp % 64]
  else [0xF0 + cp / 262144, 0x80 + cp / 4096 % 64, 0x80 + cp / 64 % 64, 0x80 + cp % 64]

/-- A Unicode scalar value (encodable code point): below `0x110000` and not a
surrogate. -/
def ScalarCp (cp : ℕ) : Prop := cp < 0x110000 ∧ ¬(0xD800 ≤ cp ∧ cp < 0xE000)

/-- The continuation-byte test of `Utf8Chunks.__next__`:
`x & 192 == TAG_CONT_U8` with `TAG_CONT_U8 = 128` (lines 139, 158 etc.). -/
def isCont (x : ℕ) : Bool := x &&& 192 == 128

/-- One iteration of the scanning `while` loop in `Utf8Chunks.__next__`
(lines 149-197), applied to the first byte `b` and the bytes `rest` after
it: returns whether a complete valid sequence starts here and how many bytes
the loop consumed (`i` advanced past the lead and any continuation bytes it
examined before a `break`; `safe_get` past the end yields 0, matching
`getD _ 0`). -/
def stepScan (b : ℕ) (rest : List ℕ) : Bool × ℕ :=
  if b < 0x80 then (true, 1)
  else if 0xC2 ≤ b ∧ b ≤ 0xDF then
    if isCont (rest.getD 0 0) then (true, 2) else (false, 1)
  else if 0xE0 ≤ b ∧ b ≤ 0xEF then
    let n1 := rest.getD 0 0
    if (b = 0xE0 ∧ 0xA0 ≤ n1 ∧ n1 ≤ 0xBF) ∨ (0xE1 ≤ b ∧ b ≤ 0xEC ∧ 0x80 ≤ n1 ∧ n1 ≤ 0xBF)
        ∨ (b = 0xED ∧ 0x80 ≤ n1 ∧ n1 ≤ 0x9F) ∨ (0xEE ≤ b ∧ 0x80 ≤ n1 ∧ n1 ≤ 0xBF) then
      if isCont (rest.getD 1 0) then (true, 3) else (false, 2)
    else (false, 1)
  else if 0xF0 ≤ b ∧ b ≤ 0xF4 then
    let n1 := rest.getD 0 0
    if (b = 0xF0 ∧ 0x90 ≤ n1 ∧ n1 ≤ 0xBF) ∨ (0xF1 ≤ b ∧ b ≤ 0xF3 ∧ 0x80 ≤ n1 ∧ n1 ≤ 0xBF)
        ∨ (b = 0xF4 ∧ 0x80 ≤ n1 ∧ n1 ≤ 0x8F) then
      if isCont (rest.getD 1 0) then
        if isCont (rest.getD 2 0) then (true, 4) else (false, 3)
      else (false, 2)
    else (false, 1)
  else (false, 1)

/-- The scanning loop of `Utf8Chunks.__next__`: returns
`(valid_up_to, i)` — the length of the maximal leading run of valid UTF-8
sequences, and the total number of bytes inspected (which additionally
covers the first invalid run, if the scan stopped on one).  The fuel (one
unit per sequence, so the list length suffices) makes the recursion
structural. -/
def scanChunkAux : ℕ → List ℕ → ℕ × ℕ
  | 0, _ => (0, 0)
  | _, [] => (0, 0)
  | fuel + 1, b :: rest =>
    let r := stepScan b rest
    if r.1 then
      let r2 := scanChunkAux fuel (rest.drop (r.2 - 1))
      (r.2 + r2.1, r.2 + r2.2)
    else (0, r.2)

/-- See `scanChunkAux`. -/
def scanChunk (bs : List ℕ) : ℕ × ℕ := scanChunkAux bs.length bs

/-- Iterating `Utf8Chunks.__next__` (lines 128-205): the decomposition of a
byte string into `(valid, invalid)` chunks; each step consumes at least one
byte, so the list length is enough fuel. -/
def utf8ChunksAux : ℕ → List ℕ → List (List ℕ × List ℕ)
  | 0, _ => []
  | _, [] => []
  | fuel + 1, b :: tl =>
    let r := scanChunk (b :: tl)
    ((b :: tl).take r.1, ((b :: tl).take r.2).drop r.1) :: utf8ChunksAux fuel ((b :: tl).drop r.2)

/-- See `utf8ChunksAux`. -/
def utf8Chunks (bs : List ℕ) : List (List ℕ × List ℕ) := utf8ChunksAux bs.length bs

/-- Decoding of a valid-UTF-8 byte string into code points, as performed by
Python's `bytes.decode("utf-8")` on the `valid` field of a chunk (the
scanner guarantees validity; the function is total, with unspecified output
on invalid input). -/
def utf8DecodeAux : ℕ → List ℕ → List ℕ
  | 0, _ => []
  | _, [] => []
  | fuel + 1, b :: rest =>
    if b < 0x80 then b :: utf8DecodeAux fuel rest
    else if b < 0xE0 then
      ((b - 0xC0) * 64 + (rest.getD 0 0 - 0x80)) :: utf8DecodeAux fuel (rest.drop 1)
    else if b < 0xF0 then
      ((b - 0xE0) * 4096 + (rest.getD 0 0 - 0x80) * 64 + (rest.getD 1 0 - 0x80)) ::
        utf8DecodeAux fuel (rest.drop 2)
    else
      ((b - 0xF0) * 262144 + (rest.getD 0 0 - 0x80) * 4096 + (rest.getD 1 0 - 0x80) * 64
          + (rest.getD 2 0 - 0x80)) :: utf8DecodeAux fuel (rest.drop 3)

/-- See `utf8DecodeAux`. -/
def utf8DecodeValid (bs : List ℕ) : List ℕ := utf8DecodeAux bs.length bs

/-- Strict UTF-8 decoding of an arbitrary byte string, as Python's
`bytes.decode("utf-8")`: succeeds exactly when the whole string is valid
(the scanner accepts everything). -/
def utf8Decode (bs : List ℕ) : Option (List ℕ) :=
  if (scanChunk bs).1 = bs.length then some (utf8DecodeValid bs) else none

/-- The bytes `bytes_to_utf8` emits for one code point of a valid chunk
(lines 217-222): a code point in `U+E000..U+E0FF` is re-escaped by encoding
`U+E000 + x` for each byte `x` of its own UTF-8 encoding; anything else
passes through. -/
def escapeCpBytes (cp : ℕ) : List ℕ :=
  if PUA_START ≤ cp ∧ cp ≤ PUA_START + 0xFF then
    (utf8EncodeChar cp).flatMap (fun byte => utf8EncodeChar (PUA_START + byte))
  else utf8EncodeChar cp

/-- `bytes_to_utf8(data)` (lines 214-225). -/
def bytes_to_utf8 (data : List ℕ) : List ℕ :=
  (utf8Chunks data).flatMap (fun ch =>
    (utf8DecodeValid ch.1).flatMap escapeCpBytes
      ++ ch.2.flatMap (fun byte => utf8EncodeChar (PUA_START + byte)))

/-- `utf8_to_bytes(data)` (lines 228-235); its input, a Python `str`, is a
sequence of code points. -/
def utf8_to_bytes (data : List ℕ) : List ℕ :=
  data.flatMap (fun ch =>
    if PUA_START ≤ ch ∧ ch ≤ PUA_START + 0xFF then [ch - PUA_START]
    else utf8EncodeChar ch)

/-- Modelled from the spec (§4.4 Forward): the code-point sequence the
forward mapping should produce — per valid chunk, decode and re-escape
`U+E000..U+E0FF` (emitting `U+E000 + x` for each UTF-8 byte `x`), pass
others through; per invalid byte `x`, emit `U+E000 + x`.  Used to compare
`bytes_to_utf8` against the spec's description. -/
def specForwardCps (data : List ℕ) : List ℕ :=
  (utf8Chunks data).flatMap (fun ch =>
    (utf8DecodeValid ch.1).flatMap (fun cp =>
      if PUA_START ≤ cp ∧ cp ≤ PUA_START + 0xFF then
        (utf8EncodeChar cp).map (fun b => PUA_START + b)
      else [cp])
      ++ ch.2.map (fun b => PUA_START + b))

/-! ## CDF construction (`LlamaZip.compute_cdf`, lines 268-274) -/

/-- `np.round`: round half to even, on exact rationals (the source computes
with float64; every quantity involved here is treated as an exact rational,
which is faithful whenever the float computation is exact). -/
def npRound (q : ℚ) : ℤ :=
  if q - ⌊q⌋ < 1 / 2 then ⌊q⌋
  else if 1 / 2 < q - ⌊q⌋ then ⌊q⌋ + 1
  else if ⌊q⌋ % 2 = 0 then ⌊q⌋ else ⌊q⌋ + 1

/-- `np.cumsum`: inclusive prefix sums. -/
def cumsum (l : List ℤ) : List ℤ := (l.scanl (· + ·) 0).tail

/-- `compute_cdf` (lines 268-274) from the probability vector:
`freqs = np.maximum(1, np.round(FREQ_SCALE_FACTOR * probs))` followed by
`np.cumsum(freqs)`.  The upstream softmax is the model-oracle boundary; the
float arithmetic is modelled as exact rational arithmetic. -/
def compute_cdf (probs : List ℚ) : List ℤ :=
  cumsum (probs.map (fun p => max 1 (npRound ((FREQ_SCALE_FACTOR : ℚ) * p))))

/-! ## End-marker lookup (`LlamaZip.__init__`, `compress`, `decompress`) -/

/-- The tokenizer attributes consulted for the end marker. -/
structure Tokenizer where
  eosTokenId : Option ℕ
  sepTokenId : Option ℕ
deriving DecidableEq

/-- The compressor object as far as end-marker handling is concerned. -/
structure LlamaZipState where
  tokenizer : Tokenizer
deriving DecidableEq

/-- `LlamaZip.__init__` / `load_model` (lines 239-266): stores configuration
and loads the tokenizer and model (the loading itself is the model-oracle
boundary).  No EOS/SEP validation is performed: construction succeeds for
every tokenizer. -/
def llamaZipInit (tok : Tokenizer) : Except String LlamaZipState :=
  Except.ok ⟨tok⟩

/-- The end-marker resolution performed inside `compress` (lines 288-292)
and identically inside `decompress` (lines 359-363):
`eos_token_id`, falling back to `sep_token_id`, else
`raise ValueError("No EOS token found in tokenizer.")`. -/
def resolveEndToken (tok : Tokenizer) : Except String ℕ :=
  match tok.eosTokenId with
  | some e => Except.ok e
  | none =>
    match tok.sepTokenId with
    | some e => Except.ok e
    | none => Except.error "No EOS token found in tokenizer."

/-! ## Robust base64 (`robust_b64decode`, lines 18-19, 486-489) -/

/-- `BASE64 = b"ABCDEFGHIJKLMNOPQRSTUVWXYZabcdefghijklmnopqrstuvwxyz0123456789+/"`
(line 18), as byte values. -/
def BASE64 : List ℕ :=
  (List.range 26).map (fun i => 65 + i) ++ (List.range 26).map (fun i => 97 + i)
    ++ (List.range 10).map (fun i => 48 + i) ++ [43, 47]

/-- The base64 character (byte value) for a 6-bit group. -/
def b64Char (n : ℕ) : ℕ := BASE64.getD n 0

/-- Standard `base64.b64encode` on bytes: groups of 3 bytes become 4
alphabet characters, with `=` (byte 61) padding for a trailing group of 1 or
2 bytes. -/
def b64encode : List ℕ → List ℕ
  | [] => []
  | [a] => [b64Char (a / 4), b64Char (a % 4 * 16), 61, 61]
  | [a, b] => [b64Char (a / 4), b64Char (a % 4 * 16 + b / 16), b64Char (b % 16 * 4), 61]
  | a :: b :: c :: rest =>
    b64Char (a / 4) :: b64Char (a % 4 * 16 + b / 16) :: b64Char (b % 16 * 4 + c / 64)
      :: b64Char (c % 64) :: b64encode rest

/-- The 6-bit value of an alphabet character. -/
def b64CharVal (ch : ℕ) : ℕ := BASE64.indexOf ch

/-- Standard `base64.b64decode` on an input consisting solely of alphabet
characters with length a multiple of 4 (the only way `robust_b64decode`
calls it): each 4-character group yields 3 bytes. -/
def b64decodeQuads : List ℕ → List ℕ
  | c1 :: c2 :: c3 :: c4 :: rest =>
    (b64CharVal c1 * 4 + b64CharVal c2 / 16)
      :: (b64CharVal c2 % 16 * 16 + b64CharVal c3 / 4)
      :: (b64CharVal c3 % 4 * 64 + b64CharVal c4)
      :: b64decodeQuads rest
  | _ => []

/-- `robust_b64decode(input_bytes)` (lines 486-489): keep only alphabet
bytes, pad with `b"A"` (byte 65) to a multiple of 4 (`-len % 4` copies),
and base64-decode. -/
def robust_b64decode (input : List ℕ) : List ℕ :=
  let filtered := input.filter (fun b => BASE64.contains b)
  b64decodeQuads (filtered ++ List.replicate ((4 - filtered.length % 4) % 4) 65)

/-! # Theorems

First the shared helper lemmas, then one theorem (with witness or
counterexample where required) per claim. -/

/-! ## Constants -/

theorem FULL_RANGE_eq : FULL_RANGE = 2 ^ 64 := rfl

theorem HALF_RANGE_eq : HALF_RANGE = 2 ^ 63 := by norm_num [HALF_RANGE, FULL_RANGE_eq]

theorem QUARTER_RANGE_eq : QUARTER_RANGE = 2 ^ 62 := by
  norm_num [QUARTER_RANGE, HALF_RANGE_eq]

theorem STATE_MASK_eq : STATE_MASK = 2 ^ 64 - 1 := rfl

/-! ## C5 helpers: prefix sums of positive integers -/

theorem scanl_add_head (b : ℤ) (l : List ℤ) :
    (List.scanl (· + ·) b l).head? = some b := by
  cases l <;> simp [List.scanl]

theorem scanl_add_chain (l : List ℤ) (h : ∀ x ∈ l, 1 ≤ x) :
    ∀ b : ℤ, List.Chain' (· < ·) (List.scanl (· + ·) b l) := by
  induction l with
  | nil => intro b; simp [List.scanl]
  | cons a l ih =>
    intro b
    simp only [List.scanl]
    have hrest := ih (fun x hx => h x (List.mem_cons_of_mem _ hx)) (b + a)
    refine List.Chain'.cons' hrest ?_
    intro y hy
    rw [scanl_add_head] at hy
    simp only [Option.mem_def, Option.some_inj] at hy
    have ha : (1 : ℤ) ≤ a := h a (List.mem_cons_self _ _)
    omega

theorem scanl_add_lb (l : List ℤ) (h : ∀ x ∈ l, 1 ≤ x) :
    ∀ b : ℤ, ∀ x ∈ List.scanl (· + ·) b l, b ≤ x := by
  induction l with
  | nil => intro b x hx; simp [List.scanl] at hx; omega
  | cons a l ih =>
    intro b x hx
    simp only [List.scanl, List.mem_cons] at hx
    rcases hx with rfl | hx
    · exact le_refl _
    · have ha : (1 : ℤ) ≤ a := h a (List.mem_cons_self _ _)
      have := ih (fun y hy => h y (List.mem_cons_of_mem _ hy)) (b + a) x hx
      omega

theorem cumsum_cons (a : ℤ) (l : List ℤ) :
    cumsum (a :: l) = List.scanl (· + ·) a l := by
  simp [cumsum, List.scanl]

theorem cumsum_chain_lt (l : List ℤ) (h : ∀ x ∈ l, 1 ≤ x) :
    List.Chain' (· < ·) (cumsum l) := by
  cases l with
  | nil => simp [cumsum, List.scanl]
  | cons a l =>
    rw [cumsum_cons]
    exact scanl_add_chain l (fun x hx => h x (List.mem_cons_of_mem _ hx)) a

theorem cumsum_all_pos (l : List ℤ) (h : ∀ x ∈ l, 1 ≤ x) :
    ∀ x ∈ cumsum l, 1 ≤ x := by
  cases l with
  | nil => simp [cumsum, List.scanl]
  | cons a l =>
    rw [cumsum_cons]
    intro x hx
    have ha : (1 : ℤ) ≤ a := h a (List.mem_cons_self _ _)
    have := scanl_add_lb l (fun y hy => h y (List.mem_cons_of_mem _ hy)) a x hx
    omega

theorem chain'_lt_getD (l : List ℤ) (h : List.Chain' (· < ·) l) (s : ℕ)
    (h1 : 0 < s) (h2 : s < l.length) : l.getD (s - 1) 0 < l.getD s 0 := by
  rw [List.getD_eq_getElem l 0 (by omega), List.getD_eq_getElem l 0 h2]
  have := List.chain'_iff_get.mp h (s - 1) (by omega)
  simpa [List.get_eq_getElem, Nat.sub_add_cancel h1] using this

/-- **C5.** `compute_cdf` returns the prefix sums of
`freq[s] = max(1, round(2^32 · prob[s]))`; consequently every cumulative
entry strictly exceeds its predecessor (with `c[-1] = 0`), the vector is
non-decreasing, and the last entry is positive — no symbol has a zero-width
coding interval. -/
theorem compute_cdf_spec (probs : List ℚ) :
    compute_cdf probs
        = cumsum (probs.map (fun p => max 1 (npRound ((FREQ_SCALE_FACTOR : ℚ) * p)))) ∧
      List.Chain' (· ≤ ·) (compute_cdf probs) ∧
      (∀ s < (compute_cdf probs).length,
        (if s = 0 then 0 else (compute_cdf probs).getD (s - 1) 0)
          < (compute_cdf probs).getD s 0) ∧
      (probs ≠ [] → 0 < (compute_cdf probs).getLastD 0) := by
  have hfreq : ∀ x ∈ probs.map (fun p => max 1 (npRound ((FREQ_SCALE_FACTOR : ℚ) * p))),
      (1 : ℤ) ≤ x := by
    intro x hx
    rcases List.mem_map.mp hx with ⟨p, _, rfl⟩
    exact le_max_left _ _
  have hchain := cumsum_chain_lt _ hfreq
  have hpos := cumsum_all_pos _ hfreq
  refine ⟨rfl, hchain.imp (fun h1 h2 => le_of_lt), ?_, ?_⟩
  · intro s hs
    by_cases h0 : s = 0
    · subst h0
      rw [if_pos rfl]
      have hmem : (compute_cdf probs).getD 0 0 ∈ compute_cdf probs := by
        rw [List.getD_eq_getElem _ _ hs]
        exact List.getElem_mem _
      have := hpos _ hmem
      omega
    · rw [if_neg h0]
      exact chain'_lt_getD _ hchain s (by omega) hs
  · intro hne
    have hlen : 0 < (compute_cdf probs).length := by
      cases probs with
      | nil => exact absurd rfl hne
      | cons p ps =>
        simp only [compute_cdf, List.map_cons, cumsum_cons]
        simp [List.length_scanl]
    have hmem : (compute_cdf probs).getLastD 0 ∈ compute_cdf probs := by
      cases hcc : compute_cdf probs with
      | nil => rw [hcc] at hlen; simp at hlen
      | cons a l =>
        rw [List.getLastD_eq_getLast?, List.getLast?_eq_getLast _ (by simp),
          Option.getD_some]
        exact List.getLast_mem _
    have := hpos _ hmem
    omega

/-- Witness for `compute_cdf_spec` at the probability vector
`[1/2, 0, 1/2]` (the internal bound and non-emptiness hypotheses are
discharged concretely). -/
theorem compute_cdf_spec_witness :
    List.Chain' (· ≤ ·) (compute_cdf [1 / 2, 0, 1 / 2]) ∧
      (if 1 = 0 then 0 else (compute_cdf [1 / 2, 0, 1 / 2]).getD 0 0)
        < (compute_cdf [1 / 2, 0, 1 / 2]).getD 1 0 ∧
      0 < (compute_cdf [1 / 2, 0, 1 / 2]).getLastD 0 :=
  ⟨(compute_cdf_spec [1 / 2, 0, 1 / 2]).2.1,
   (compute_cdf_spec [1 / 2, 0, 1 / 2]).2.2.1 1
     (by simp [compute_cdf, cumsum, List.scanl]),
   (compute_cdf_spec [1 / 2, 0, 1 / 2]).2.2.2 (by simp)⟩

/-! ## C8: end-marker failure is at compress/decompress time, not at
construction -/

/-- **C8 counterexample.** Constructing the compressor with a tokenizer that
declares neither an EOS nor a SEP token id succeeds: `LlamaZip.__init__`
performs no end-marker validation, so the system does not fail at
initialization as the claim states. -/
theorem init_no_eos_ok :
    llamaZipInit ⟨none, none⟩ = Except.ok ⟨⟨none, none⟩⟩ := rfl

/-- **C8 (amended).** If the tokenizer declares neither an EOS nor a SEP
token id, construction of the compressor object succeeds; the fatal
`ValueError("No EOS token found in tokenizer.")` is raised by the
end-marker resolution that `compress` (and `decompress`) perform when they
are called. -/
theorem no_eos_fails_at_compress (tok : Tokenizer)
    (heos : tok.eosTokenId = none) (hsep : tok.sepTokenId = none) :
    llamaZipInit tok = Except.ok ⟨tok⟩ ∧
      resolveEndToken tok = Except.error "No EOS token found in tokenizer." := by
  refine ⟨rfl, ?_⟩
  simp [resolveEndToken, heos, hsep]

/-- Witness for `no_eos_fails_at_compress` at the tokenizer with no EOS and
no SEP. -/
theorem no_eos_fails_at_compress_witness :
    llamaZipInit ⟨none, none⟩ = Except.ok ⟨⟨none, none⟩⟩ ∧
      resolveEndToken ⟨none, none⟩
        = Except.error "No EOS token found in tokenizer." :=
  no_eos_fails_at_compress ⟨none, none⟩ rfl rfl

/-! ## C9: robust base64 -/

theorem b64Char_contains {n : ℕ} (h : n < 64) : BASE64.contains (b64Char n) = true := by
  revert n h
  decide

theorem b64CharVal_b64Char {n : ℕ} (h : n < 64) : b64CharVal (b64Char n) = n := by
  revert n h
  decide

theorem eq_contains_false : BASE64.contains 61 = false := by decide

/-- **C9 counterexample.** The standard base64 encoding of the single byte
`0x01` is `"AQ=="`; after dropping the trailing `=` padding (bytes 61),
`robust_b64decode` returns three bytes `[1, 0, 0]`, not the original
`[1]`: the `A`-padding decodes to trailing zero bytes. -/
theorem robust_b64decode_not_exact :
    b64encode [1] = [65, 81, 61, 61] ∧ robust_b64decode [65, 81] = [1, 0, 0] := by
  constructor <;> decide

theorem b64_strip_decode (c : List ℕ) (hc : ∀ b ∈ c, b < 256) :
    b64decodeQuads ((b64encode c).filter (fun b => BASE64.contains b)
        ++ List.replicate
            ((4 - ((b64encode c).filter (fun b => BASE64.contains b)).length % 4) % 4) 65)
      = c ++ List.replicate ((3 - c.length % 3) % 3) 0 := by
  induction c using b64encode.induct with
  | case1 => decide
  | case2 a =>
    have ha : a < 256 := hc a (by simp)
    have h1 : BASE64.contains (b64Char (a / 4)) = true := b64Char_contains (by omega)
    have h2 : BASE64.contains (b64Char (a % 4 * 16)) = true := b64Char_contains (by omega)
    have v1 : b64CharVal (b64Char (a / 4)) = a / 4 := b64CharVal_b64Char (by omega)
    have v2 : b64CharVal (b64Char (a % 4 * 16)) = a % 4 * 16 := b64CharVal_b64Char (by omega)
    simp only [b64encode, List.filter_cons, h1, h2, eq_contains_false, if_true, if_false,
      List.filter_nil, List.length_cons, List.length_nil]
    have hv : b64CharVal 65 = 0 := by decide
    norm_num [b64decodeQuads, v1, v2, hv, List.replicate]
    omega
  | case3 a b =>
    have ha : a < 256 := hc a (by simp)
    have hb : b < 256 := hc b (by simp)
    have h1 : BASE64.contains (b64Char (a / 4)) = true := b64Char_contains (by omega)
    have h2 : BASE64.contains (b64Char (a % 4 * 16 + b / 16)) = true :=
      b64Char_contains (by omega)
    have h3 : BASE64.contains (b64Char (b % 16 * 4)) = true := b64Char_contains (by omega)
    have v1 : b64CharVal (b64Char (a / 4)) = a / 4 := b64CharVal_b64Char (by omega)
    have v2 : b64CharVal (b64Char (a % 4 * 16 + b / 16)) = a % 4 * 16 + b / 16 :=
      b64CharVal_b64Char (by omega)
    have v3 : b64CharVal (b64Char (b % 16 * 4)) = b % 16 * 4 := b64CharVal_b64Char (by omega)
    simp only [b64encode, List.filter_cons, h1, h2, h3, eq_contains_false, if_true, if_false,
      List.filter_nil, List.length_cons, List.length_nil]
    have hv : b64CharVal 65 = 0 := by decide
    norm_num [b64decodeQuads, v1, v2, v3, hv, List.replicate]
    omega
  | case4 a b c rest ih =>
    have ha : a < 256 := hc a (by simp)
    have hb : b < 256 := hc b (by simp)
    have hc' : c < 256 := hc c (by simp)
    have hrest : ∀ x ∈ rest, x < 256 := fun x hx => hc x (by simp [hx])
    have h1 : BASE64.contains (b64Char (a / 4)) = true := b64Char_contains (by omega)
    have h2 : BASE64.contains (b64Char (a % 4 * 16 + b / 16)) = true :=
      b64Char_contains (by omega)
    have h3 : BASE64.contains (b64Char (b % 16 * 4 + c / 64)) = true :=
      b64Char_contains (by omega)
    have h4 : BASE64.contains (b64Char (c % 64)) = true := b64Char_contains (by omega)
    have v1 : b64CharVal (b64Char (a / 4)) = a / 4 := b64CharVal_b64Char (by omega)
    have v2 : b64CharVal (b64Char (a % 4 * 16 + b / 16)) = a % 4 * 16 + b / 16 :=
      b64CharVal_b64Char (by omega)
    have v3 : b64CharVal (b64Char (b % 16 * 4 + c / 64)) = b % 16 * 4 + c / 64 :=
      b64CharVal_b64Char (by omega)
    have v4 : b64CharVal (b64Char (c % 64)) = c % 64 := b64CharVal_b64Char (by omega)
    simp only [b64encode, List.filter_cons, h1, h2, h3, h4, if_true, List.length_cons,
      List.cons_append, b64decodeQuads, v1, v2, v3, v4]
    have hmod : (4 - (((b64encode rest).filter (fun x => BASE64.contains x)).length + 1 + 1
        + 1 + 1) % 4) % 4
        = (4 - ((b64encode rest).filter (fun x => BASE64.contains x)).length % 4) % 4 := by
      omega
    rw [hmod]
    have hmod2 : (3 - (rest.length + 1 + 1 + 1) % 3) % 3 = (3 - rest.length % 3) % 3 := by
      omega
    have hbytes1 : a / 4 * 4 + (a % 4 * 16 + b / 16) / 16 = a := by omega
    have hbytes2 : (a % 4 * 16 + b / 16) % 16 * 16 + (b % 16 * 4 + c / 64) / 4 = b := by
      omega
    have hbytes3 : (b % 16 * 4 + c / 64) % 4 * 64 + c % 64 = c := by omega
    simp only [hbytes1, hbytes2, hbytes3, ih hrest, List.length_cons, hmod2]

/-- **C9 (amended).** Feeding `robust_b64decode` any byte string whose
base64-alphabet characters are exactly those of the standard base64
encoding of `c` (arbitrary non-alphabet bytes inserted, `=` padding
removed — `=` is itself outside the alphabet) recovers `c` followed by
`(3 - |c| % 3) % 3` zero bytes: the `A`-padding decodes to trailing zeros,
so the raw bytes are recovered exactly only when `|c|` is a multiple of 3. -/
theorem robust_b64decode_recovers (c noisy : List ℕ) (hc : ∀ b ∈ c, b < 256)
    (hfil : noisy.filter (fun b => BASE64.contains b)
      = (b64encode c).filter (fun b => BASE64.contains b)) :
    robust_b64decode noisy = c ++ List.replicate ((3 - c.length % 3) % 3) 0 := by
  unfold robust_b64decode
  rw [hfil]
  exact b64_strip_decode c hc

/-- Witness for `robust_b64decode_recovers`: the encoding of
`[77, 97, 110, 1]` is `"TWFuAQ=="`; with a newline and carriage return
inserted and the `=` padding dropped, decoding yields the original bytes
plus two zero bytes. -/
theorem robust_b64decode_recovers_witness :
    robust_b64decode [84, 87, 70, 117, 10, 65, 81, 13]
      = [77, 97, 110, 1] ++ List.replicate ((3 - [77, 97, 110, 1].length % 3) % 3) 0 :=
  robust_b64decode_recovers [77, 97, 110, 1] [84, 87, 70, 117, 10, 65, 81, 13]
    (by decide) (by decide)

/-! ## C6: decoder symbol selection -/

theorem chain_le_getD_mono (c : List ℕ) (hs : List.Chain' (· ≤ ·) c) :
    ∀ i j, i ≤ j → j < c.length → c.getD i 0 ≤ c.getD j 0 := by
  intro i j hij hj
  rcases Nat.eq_or_lt_of_le hij with rfl | hlt
  · exact le_refl _
  · rw [List.getD_eq_getElem c 0 (by omega), List.getD_eq_getElem c 0 hj]
    have hp := List.chain'_iff_pairwise.mp hs
    have := List.pairwise_iff_get.mp hp ⟨i, by omega⟩ ⟨j, hj⟩ hlt
    simpa using this

theorem bisectRightAux_spec (c : List ℕ) (v : ℕ) (hs : List.Chain' (· ≤ ·) c) :
    ∀ fuel lo hi, hi - lo ≤ fuel → lo ≤ hi → hi ≤ c.length →
      (∀ i < lo, c.getD i 0 ≤ v) → (∀ i, hi ≤ i → i < c.length → v < c.getD i 0) →
      lo ≤ bisectRightAux c v fuel lo hi ∧ bisectRightAux c v fuel lo hi ≤ hi ∧
        (∀ i < bisectRightAux c v fuel lo hi, c.getD i 0 ≤ v) ∧
        (∀ i, bisectRightAux c v fuel lo hi ≤ i → i < c.length → v < c.getD i 0) := by
  intro fuel
  induction fuel with
  | zero =>
    intro lo hi hf hlh hhl hlo hhi
    have heq : lo = hi := by omega
    subst heq
    exact ⟨le_refl _, le_refl _, hlo, hhi⟩
  | succ fuel ih =>
    intro lo hi hf hlh hhl hlo hhi
    by_cases h : lo < hi
    · have hm1 : lo ≤ (lo + hi) / 2 := by omega
      have hm2 : (lo + hi) / 2 < hi := by omega
      by_cases hv : v < c.getD ((lo + hi) / 2) 0
      · have hrec := ih lo ((lo + hi) / 2) (by omega) (by omega) (by omega) hlo
          (fun i hi1 hi2 => lt_of_lt_of_le hv (chain_le_getD_mono c hs _ i hi1 hi2))
        simpa only [bisectRightAux, if_pos h, if_pos hv] using
          ⟨hrec.1, le_trans hrec.2.1 (le_of_lt hm2), hrec.2.2⟩
      · have hrec := ih ((lo + hi) / 2 + 1) hi (by omega) (by omega) hhl
          (fun i hi1 => by
            have hle : c.getD i 0 ≤ c.getD ((lo + hi) / 2) 0 :=
              chain_le_getD_mono c hs i _ (by omega) (by omega)
            omega) hhi
        simpa only [bisectRightAux, if_pos h, if_neg hv] using
          ⟨le_trans hm1 (by omega), hrec.2.1, hrec.2.2⟩
    · have heq : lo = hi := by omega
      subst heq
      simpa only [bisectRightAux, if_neg h] using ⟨le_refl _, le_refl _, hlo, hhi⟩

theorem bisectRight_spec (c : List ℕ) (v : ℕ) (hs : List.Chain' (· ≤ ·) c) :
    bisectRight c v ≤ c.length ∧
      (∀ i < bisectRight c v, c.getD i 0 ≤ v) ∧
      (∀ i, bisectRight c v ≤ i → i < c.length → v < c.getD i 0) := by
  have := bisectRightAux_spec c v hs c.length 0 c.length (by omega) (by omega)
    (le_refl _) (by omega) (by omega)
  exact ⟨this.2.1, this.2.2.1, this.2.2.2⟩

theorem cdfTotal_eq_getD (c : List ℕ) (h : c ≠ []) :
    cdfTotal c = c.getD (c.length - 1) 0 := by
  unfold cdfTotal
  rw [List.getLastD_eq_getLast?, List.getLast?_eq_getLast c h, Option.getD_some,
    List.getLast_eq_getElem, List.getD_eq_getElem c 0 (by
      cases c with
      | nil => exact absurd rfl h
      | cons a l => simp)]

/-- **C6.** With a sorted CDF and `low ≤ code ≤ high`, `decode_symbol`
computes `value = ((code - low + 1) * total - 1) / range` with truncating
division and returns the smallest index `s` with `c[s] > value` (in
particular `s < V`; ties between equal consecutive CDF entries resolve to
the first index whose entry strictly exceeds `value`). -/
theorem decode_symbol_least_upper (d : Decoder) (c : List ℕ)
    (hs : List.Chain' (· ≤ ·) c) (hne : c ≠ []) (htot : 0 < cdfTotal c)
    (h1 : d.st.low ≤ d.code) (h2 : d.code ≤ d.st.high) :
    (decodeSymbol d c).1 < c.length ∧
      ((d.code - d.st.low + 1) * cdfTotal c - 1) / (d.st.high - d.st.low + 1)
          < c.getD (decodeSymbol d c).1 0 ∧
      ∀ t < (decodeSymbol d c).1,
        c.getD t 0
          ≤ ((d.code - d.st.low + 1) * cdfTotal c - 1) / (d.st.high - d.st.low + 1) := by
  have hsym : (decodeSymbol d c).1
      = bisectRight c (((d.code - d.st.low + 1) * cdfTotal c - 1)
          / (d.st.high - d.st.low + 1)) := rfl
  set value := ((d.code - d.st.low + 1) * cdfTotal c - 1) / (d.st.high - d.st.low + 1)
    with hvalue
  have hrange : 0 < d.st.high - d.st.low + 1 := by omega
  have hvlt : value < cdfTotal c := by
    rw [hvalue]
    rw [Nat.div_lt_iff_lt_mul hrange]
    have hoff : d.code - d.st.low + 1 ≤ d.st.high - d.st.low + 1 := by omega
    have := Nat.mul_le_mul_right (cdfTotal c) hoff
    have hpos : 0 < (d.st.high - d.st.low + 1) * cdfTotal c :=
      Nat.mul_pos hrange htot
    calc (d.code - d.st.low + 1) * cdfTotal c - 1
        < (d.code - d.st.low + 1) * cdfTotal c := by
          have : 0 < (d.code - d.st.low + 1) * cdfTotal c :=
            Nat.mul_pos (by omega) htot
          omega
      _ ≤ (d.st.high - d.st.low + 1) * cdfTotal c := this
      _ = cdfTotal c * (d.st.high - d.st.low + 1) := Nat.mul_comm _ _
  have hbs := bisectRight_spec c value hs
  have hslt : bisectRight c value < c.length := by
    rcases Nat.lt_or_ge (bisectRight c value) c.length with h | h
    · exact h
    · exfalso
      have hlenpos : 0 < c.length := by
        cases c with
        | nil => exact absurd rfl hne
        | cons a l => simp
      have hlast := hbs.2.1 (c.length - 1) (by omega)
      rw [← cdfTotal_eq_getD c hne] at hlast
      omega
  rw [hsym]
  exact ⟨hslt, hbs.2.2 _ (le_refl _) hslt, hbs.2.1⟩

/-- Witness for `decode_symbol_least_upper` at a concrete decoder state and
CDF with a tie (`[1, 1, 2]`): `value = 1`, and the returned symbol is the
first index whose entry exceeds 1. -/
theorem decode_symbol_least_upper_witness :
    (decodeSymbol ⟨[], 0, 0, ⟨0, 3⟩, 2⟩ [1, 1, 2]).1 < 3 ∧
      ((2 - 0 + 1) * cdfTotal [1, 1, 2] - 1) / (3 - 0 + 1)
          < [1, 1, 2].getD (decodeSymbol ⟨[], 0, 0, ⟨0, 3⟩, 2⟩ [1, 1, 2]).1 0 ∧
      ∀ t < (decodeSymbol ⟨[], 0, 0, ⟨0, 3⟩, 2⟩ [1, 1, 2]).1,
        [1, 1, 2].getD t 0 ≤ ((2 - 0 + 1) * cdfTotal [1, 1, 2] - 1) / (3 - 0 + 1) :=
  decode_symbol_least_upper ⟨[], 0, 0, ⟨0, 3⟩, 2⟩ [1, 1, 2]
    (by simp [List.chain'_cons]) (by decide) (by decide) (by decide) (by decide)

/-! ## Bitwise and numeral helpers for the coder core -/

theorem FULL_RANGE_num : FULL_RANGE = 18446744073709551616 := by
  norm_num [FULL_RANGE_eq]

theorem HALF_RANGE_num : HALF_RANGE = 9223372036854775808 := by
  norm_num [HALF_RANGE_eq]

theorem QUARTER_RANGE_num : QUARTER_RANGE = 4611686018427387904 := by
  norm_num [QUARTER_RANGE_eq]

theorem STATE_MASK_num : STATE_MASK = 18446744073709551615 := by
  norm_num [STATE_MASK_eq]

theorem testBit_iff_div_mod {x i : ℕ} : x.testBit i = true ↔ x / 2 ^ i % 2 = 1 := by
  rw [Nat.testBit_to_div_mod, decide_eq_true_iff]

theorem testBit_false_iff_div_mod {x i : ℕ} : x.testBit i = false ↔ x / 2 ^ i % 2 = 0 := by
  rw [← Bool.not_eq_true, testBit_iff_div_mod]
  omega

theorem bit_eq (b : Bool) (n : ℕ) : Nat.bit b n = 2 * n + b.toNat := by
  cases b <;> simp [Nat.bit]

theorem xor_two_pow_of_lt : ∀ k r : ℕ, r < 2 ^ k → 2 ^ k ^^^ r = 2 ^ k + r := by
  intro k
  induction k with
  | zero =>
    intro r hr
    interval_cases r
    decide
  | succ k ih =>
    intro r hr
    have hb : (2 : ℕ) ^ (k + 1) = Nat.bit false (2 ^ k) := by
      rw [bit_eq]; simp [Nat.pow_succ, Nat.mul_comm]
    conv_lhs => rw [hb, ← Nat.bit_testBit_zero_shiftRight_one r, Nat.xor_bit]
    have hd : r >>> 1 < 2 ^ k := by
      rw [Nat.shiftRight_one]
      omega
    rw [ih _ hd, bit_eq]
    have hbne : (false != r.testBit 0) = r.testBit 0 := by cases r.testBit 0 <;> rfl
    have hr2 : r >>> 1 = r / 2 := Nat.shiftRight_one r
    have hb0 : (r.testBit 0).toNat = r % 2 := by
      rw [Nat.testBit_zero]
      rcases Nat.mod_two_eq_zero_or_one r with h | h <;> simp [h]
    rw [hbne, hr2, hb0]
    have : (2 : ℕ) ^ (k + 1) = 2 * 2 ^ k := by ring
    omega

theorem lor_two_pow_of_lt : ∀ k r : ℕ, r < 2 ^ k → 2 ^ k ||| r = 2 ^ k + r := by
  intro k
  induction k with
  | zero =>
    intro r hr
    interval_cases r
    decide
  | succ k ih =>
    intro r hr
    have hb : (2 : ℕ) ^ (k + 1) = Nat.bit false (2 ^ k) := by
      rw [bit_eq]; simp [Nat.pow_succ, Nat.mul_comm]
    conv_lhs => rw [hb, ← Nat.bit_testBit_zero_shiftRight_one r, Nat.lor_bit]
    have hd : r >>> 1 < 2 ^ k := by
      rw [Nat.shiftRight_one]
      omega
    rw [ih _ hd, bit_eq]
    have hbne : (false || r.testBit 0) = r.testBit 0 := Bool.false_or _
    have hr2 : r >>> 1 = r / 2 := Nat.shiftRight_one r
    have hb0 : (r.testBit 0).toNat = r % 2 := by
      rw [Nat.testBit_zero]
      rcases Nat.mod_two_eq_zero_or_one r with h | h <;> simp [h]
    rw [hbne, hr2, hb0]
    have : (2 : ℕ) ^ (k + 1) = 2 * 2 ^ k := by ring
    omega

theorem add_two_pow_xor {k r : ℕ} (h : r < 2 ^ k) : (2 ^ k + r) ^^^ 2 ^ k = r := by
  rw [← xor_two_pow_of_lt k r h, Nat.xor_comm (2 ^ k) r, Nat.xor_cancel_right]

theorem lor_one_of_even {x : ℕ} (h : x % 2 = 0) : x ||| 1 = x + 1 := by
  have hx : x = Nat.bit false (x / 2) := by
    rw [bit_eq]
    simp only [Bool.toNat_false]
    omega
  have h1 : (1 : ℕ) = Nat.bit true 0 := by rw [bit_eq]; rfl
  conv_lhs => rw [hx, h1]
  rw [Nat.lor_bit, bit_eq]
  simp only [Bool.false_or, Bool.toNat_true]
  rw [show x / 2 ||| 0 = x / 2 by simp]
  omega

/-! ## Arithmetic characterizations of the renormalization steps -/

theorem shift_op_facts (st : CoderState) (hl : st.low < FULL_RANGE) (hh : st.high < FULL_RANGE)
    (hg : st.low.testBit 63 = st.high.testBit 63) :
    shiftBit st ≤ 1 ∧
      (e12Step st).low = 2 * st.low - shiftBit st * FULL_RANGE ∧
      (e12Step st).high = 2 * st.high - shiftBit st * FULL_RANGE + 1 ∧
      (shiftBit st = 1 ↔ HALF_RANGE ≤ st.low) ∧
      (shiftBit st = 1 ↔ HALF_RANGE ≤ st.high) := by
  rw [FULL_RANGE_eq] at hl hh
  rcases Bool.eq_false_or_eq_true (st.low.testBit 63) with hb | hb
  · have hbh : st.high.testBit 63 = true := by rw [← hg]; exact hb
    rw [testBit_iff_div_mod] at hb hbh
    simp only [shiftBit, e12Step, FULL_RANGE_eq, HALF_RANGE_eq]
    refine ⟨by omega, by omega, by omega, by omega, by omega⟩
  · have hbh : st.high.testBit 63 = false := by rw [← hg]; exact hb
    rw [testBit_false_iff_div_mod] at hb hbh
    simp only [shiftBit, e12Step, FULL_RANGE_eq, HALF_RANGE_eq]
    refine ⟨by omega, by omega, by omega, by omega, by omega⟩

theorem underflow_op_facts (st : CoderState) (hl : st.low < FULL_RANGE)
    (hh : st.high < FULL_RANGE)
    (hl63 : st.low.testBit 63 = false) (hh63 : st.high.testBit 63 = true)
    (hl62 : st.low.testBit 62 = true) (hh62 : st.high.testBit 62 = false) :
    QUARTER_RANGE ≤ st.low ∧ st.low < HALF_RANGE ∧ HALF_RANGE ≤ st.high ∧
      st.high < 3 * QUARTER_RANGE ∧
      (e3Step st).low = 2 * st.low - HALF_RANGE ∧
      (e3Step st).high = 2 * st.high - HALF_RANGE + 1 := by
  rw [FULL_RANGE_eq] at hl hh
  rw [testBit_false_iff_div_mod] at hl63 hh62
  rw [testBit_iff_div_mod] at hh63 hl62
  have hlQ : 2 ^ 62 ≤ st.low := by omega
  have hlH : st.low < 2 ^ 63 := by omega
  have hhH : 2 ^ 63 ≤ st.high := by omega
  have hh3Q : st.high < 3 * 2 ^ 62 := by omega
  have hlow : (e3Step st).low = 2 * st.low - HALF_RANGE := by
    show 2 * st.low ^^^ HALF_RANGE = 2 * st.low - HALF_RANGE
    rw [HALF_RANGE_eq]
    have h2l : 2 * st.low = 2 ^ 63 + (2 * st.low - 2 ^ 63) := by omega
    rw [h2l, add_two_pow_xor (by omega)]
    omega
  have hhigh : (e3Step st).high = 2 * st.high - HALF_RANGE + 1 := by
    show ((st.high ^^^ HALF_RANGE) * 2 ||| HALF_RANGE) ||| 1
        = 2 * st.high - HALF_RANGE + 1
    rw [HALF_RANGE_eq]
    have hxh : st.high = 2 ^ 63 + (st.high - 2 ^ 63) := by omega
    rw [show st.high ^^^ 2 ^ 63 = st.high - 2 ^ 63 by
      conv_lhs => rw [hxh]
      rw [add_two_pow_xor (by omega)]]
    rw [Nat.lor_comm ((st.high - 2 ^ 63) * 2) (2 ^ 63),
      lor_two_pow_of_lt 63 _ (by omega), lor_one_of_even (by omega)]
    omega
  rw [QUARTER_RANGE_eq, HALF_RANGE_eq] at *
  exact ⟨by omega, by omega, by omega, by omega, hlow, hhigh⟩

theorem readCodeBit_le_one (d : Decoder) : (readCodeBit d).1 ≤ 1 := by
  unfold readCodeBit
  by_cases h : d.input.length ≤ d.byteIndex
  · rw [if_pos h]
    exact Nat.zero_le 1
  · rw [if_neg h]
    simp only
    omega

theorem opsRel_append {st1 st2 st3 : CoderState} {ops1 ops2 : List RenormOp}
    (h1 : OpsRel st1 ops1 st2) (h2 : OpsRel st2 ops2 st3) :
    OpsRel st1 (ops1 ++ ops2) st3 := by
  induction h1 with
  | nil => exact h2
  | shift st st' ops hg h ih => exact OpsRel.shift st st3 _ hg (ih h2)
  | underflow st st' ops hl hh hl2 hh2 h ih =>
    exact OpsRel.underflow st st3 _ hl hh hl2 hh2 (ih h2)

theorem msb_split (st : CoderState) (hlh : st.low ≤ st.high) (hh : st.high < FULL_RANGE)
    (hne : ¬(st.low.testBit 63 = st.high.testBit 63)) :
    st.low.testBit 63 = false ∧ st.high.testBit 63 = true ∧
      st.low < HALF_RANGE ∧ HALF_RANGE ≤ st.high := by
  rw [FULL_RANGE_eq] at hh
  rcases Bool.eq_false_or_eq_true (st.low.testBit 63) with hb | hb
  · exfalso
    have hbh : st.high.testBit 63 = false := by
      rcases Bool.eq_false_or_eq_true (st.high.testBit 63) with hb2 | hb2
      · exfalso; exact hne (hb.trans hb2.symm)
      · exact hb2
    rw [testBit_iff_div_mod] at hb
    rw [testBit_false_iff_div_mod] at hbh
    omega
  · have hbh : st.high.testBit 63 = true := by
      rcases Bool.eq_false_or_eq_true (st.high.testBit 63) with hb2 | hb2
      · exact hb2
      · exfalso; exact hne (hb.trans hb2.symm)
    refine ⟨hb, hbh, ?_, ?_⟩ <;>
      [(rw [testBit_false_iff_div_mod] at hb; rw [testBit_iff_div_mod] at hbh;
        rw [HALF_RANGE_eq]; omega);
       (rw [testBit_false_iff_div_mod] at hb; rw [testBit_iff_div_mod] at hbh;
        rw [HALF_RANGE_eq]; omega)]

theorem testBit63_false_of_lt {x : ℕ} (h : x < HALF_RANGE) : x.testBit 63 = false := by
  rw [testBit_false_iff_div_mod]
  rw [HALF_RANGE_eq] at h
  omega

theorem testBit63_true_of_ge {x : ℕ} (h1 : HALF_RANGE ≤ x) (h2 : x < FULL_RANGE) :
    x.testBit 63 = true := by
  rw [testBit_iff_div_mod]
  rw [HALF_RANGE_eq] at h1
  rw [FULL_RANGE_eq] at h2
  omega

theorem e12Loop_facts :
    ∀ (fuel : ℕ) (st : CoderState), st.low ≤ st.high → st.high < FULL_RANGE →
      FULL_RANGE ≤ 2 ^ fuel * (st.high - st.low + 1) →
      OpsRel st (e12Loop fuel st).2 (e12Loop fuel st).1 ∧
        (e12Loop fuel st).1.low ≤ (e12Loop fuel st).1.high ∧
        (e12Loop fuel st).1.high < FULL_RANGE ∧
        ¬((e12Loop fuel st).1.low.testBit 63 = (e12Loop fuel st).1.high.testBit 63) := by
  intro fuel
  induction fuel with
  | zero =>
    intro st hlh hh hf
    have h1 : (2 : ℕ) ^ 0 * (st.high - st.low + 1) = st.high - st.low + 1 := by ring
    rw [h1] at hf
    rw [FULL_RANGE_eq] at hf hh
    have hlow0 : st.low = 0 := by omega
    have hhighm : st.high = 2 ^ 64 - 1 := by omega
    simp only [e12Loop]
    refine ⟨OpsRel.nil st, hlh, by rw [FULL_RANGE_eq]; omega, ?_⟩
    rw [hlow0, hhighm]
    rw [Nat.zero_testBit, testBit63_true_of_ge (by rw [HALF_RANGE_eq]; omega)
      (by rw [FULL_RANGE_eq]; omega)]
    simp
  | succ fuel ih =>
    intro st hlh hh hf
    by_cases hg : st.low.testBit 63 = st.high.testBit 63
    · have hfacts := shift_op_facts st (lt_of_le_of_lt hlh hh) hh hg
      obtain ⟨hb1, hlow, hhigh, hiff1, hiff2⟩ := hfacts
      have hlow' : (e12Step st).low ≤ (e12Step st).high := by
        rcases Nat.le_one_iff_eq_zero_or_eq_one.mp hb1 with h0 | h1
        · rw [hlow, hhigh, h0]; omega
        · rw [hlow, hhigh, h1]
          have := hiff1.mp h1
          have := hiff2.mp h1
          rw [FULL_RANGE_eq] at *
          rw [HALF_RANGE_eq] at *
          omega
      have hhigh' : (e12Step st).high < FULL_RANGE := by
        rcases Nat.le_one_iff_eq_zero_or_eq_one.mp hb1 with h0 | h1
        · have hnot : ¬ HALF_RANGE ≤ st.high := fun hc => by
            have := hiff2.mpr hc; omega
          rw [hhigh, h0, FULL_RANGE_eq]
          rw [HALF_RANGE_eq] at hnot
          omega
        · have := hiff2.mp h1
          rw [hhigh, h1]
          rw [FULL_RANGE_eq] at *
          rw [HALF_RANGE_eq] at *
          omega
      have hd : (e12Step st).high - (e12Step st).low + 1 = 2 * (st.high - st.low + 1) := by
        rcases Nat.le_one_iff_eq_zero_or_eq_one.mp hb1 with h0 | h1
        · rw [hlow, hhigh, h0]; omega
        · have := hiff1.mp h1
          have := hiff2.mp h1
          rw [hlow, hhigh, h1]
          rw [FULL_RANGE_eq] at *
          rw [HALF_RANGE_eq] at *
          omega
      have hf' : FULL_RANGE ≤ 2 ^ fuel * ((e12Step st).high - (e12Step st).low + 1) := by
        rw [hd]
        calc FULL_RANGE ≤ 2 ^ (fuel + 1) * (st.high - st.low + 1) := hf
          _ = 2 ^ fuel * (2 * (st.high - st.low + 1)) := by ring
      have hrec := ih (e12Step st) hlow' hhigh' hf'
      have hloop : e12Loop (fuel + 1) st
          = ((e12Loop fuel (e12Step st)).1,
             RenormOp.shift (shiftBit st) :: (e12Loop fuel (e12Step st)).2) := by
        simp only [e12Loop, if_pos hg]
      rw [hloop]
      exact ⟨OpsRel.shift st _ _ hg hrec.1, hrec.2.1, hrec.2.2.1, hrec.2.2.2⟩
    · have hloop : e12Loop (fuel + 1) st = (st, []) := by
        simp only [e12Loop, if_neg hg]
      rw [hloop]
      exact ⟨OpsRel.nil st, hlh, hh, hg⟩

theorem e3Loop_facts :
    ∀ (fuel : ℕ) (st : CoderState), st.low ≤ st.high → st.high < FULL_RANGE →
      ¬(st.low.testBit 63 = st.high.testBit 63) →
      FULL_RANGE ≤ 2 ^ fuel * (st.high - st.low + 1) →
      OpsRel st (List.replicate (e3Loop fuel st).2 RenormOp.underflow) (e3Loop fuel st).1 ∧
        (e3Loop fuel st).1.low ≤ (e3Loop fuel st).1.high ∧
        (e3Loop fuel st).1.high < FULL_RANGE ∧
        ¬((e3Loop fuel st).1.low.testBit 63 = (e3Loop fuel st).1.high.testBit 63) ∧
        ¬((e3Loop fuel st).1.low.testBit 62 = true ∧
          (e3Loop fuel st).1.high.testBit 62 = false) := by
  intro fuel
  induction fuel with
  | zero =>
    intro st hlh hh hne hf
    have h1 : (2 : ℕ) ^ 0 * (st.high - st.low + 1) = st.high - st.low + 1 := by ring
    rw [h1] at hf
    rw [FULL_RANGE_eq] at hf hh
    have hlow0 : st.low = 0 := by omega
    simp only [e3Loop, List.replicate]
    refine ⟨OpsRel.nil st, hlh, by rw [FULL_RANGE_eq]; omega, hne, ?_⟩
    rw [hlow0, Nat.zero_testBit]
    simp
  | succ fuel ih =>
    intro st hlh hh hne hf
    by_cases hg : st.low.testBit 62 = true ∧ st.high.testBit 62 = false
    · obtain ⟨hsp1, hsp2, _, _⟩ := msb_split st hlh hh hne
      have hfacts := underflow_op_facts st (lt_of_le_of_lt hlh hh) hh hsp1 hsp2 hg.1 hg.2
      obtain ⟨hQ, hlH, hhH, hh3Q, hlow, hhigh⟩ := hfacts
      rw [QUARTER_RANGE_eq] at hQ hh3Q
      rw [HALF_RANGE_eq] at hlH hhH hlow hhigh
      have hlh' : (e3Step st).low ≤ (e3Step st).high := by
        rw [hlow, hhigh]
        omega
      have hh' : (e3Step st).high < FULL_RANGE := by
        rw [hhigh, FULL_RANGE_eq]
        omega
      have hne' : ¬((e3Step st).low.testBit 63 = (e3Step st).high.testBit 63) := by
        have hl' : (e3Step st).low.testBit 63 = false := by
          apply testBit63_false_of_lt
          rw [hlow, HALF_RANGE_eq]
          omega
        have hh63 : (e3Step st).high.testBit 63 = true := by
          apply testBit63_true_of_ge
          · rw [hhigh, HALF_RANGE_eq]
            omega
          · exact hh'
        rw [hl', hh63]
        simp
      have hd : (e3Step st).high - (e3Step st).low + 1 = 2 * (st.high - st.low + 1) := by
        rw [hlow, hhigh]
        omega
      have hf' : FULL_RANGE ≤ 2 ^ fuel * ((e3Step st).high - (e3Step st).low + 1) := by
        rw [hd]
        calc FULL_RANGE ≤ 2 ^ (fuel + 1) * (st.high - st.low + 1) := hf
          _ = 2 ^ fuel * (2 * (st.high - st.low + 1)) := by ring
      have hrec := ih (e3Step st) hlh' hh' hne' hf'
      have hloop : e3Loop (fuel + 1) st
          = ((e3Loop fuel (e3Step st)).1, (e3Loop fuel (e3Step st)).2 + 1) := by
        simp only [e3Loop, if_pos hg]
      rw [hloop]
      simp only [List.replicate_succ]
      exact ⟨OpsRel.underflow st _ _ hsp1 hsp2 hg.1 hg.2 hrec.1, hrec.2.1, hrec.2.2.1,
        hrec.2.2.2.1, hrec.2.2.2.2⟩
    · have hloop : e3Loop (fuel + 1) st = (st, 0) := by
        simp only [e3Loop, if_neg hg]
      rw [hloop]
      simp only [List.replicate]
      exact ⟨OpsRel.nil st, hlh, hh, hne, hg⟩

/-- `update` from any subdivided state with `low ≤ high < 2^64` yields a
certified op run ending in a stable state. -/
theorem update_facts (st : CoderState) (c : List ℕ) (s : ℕ)
    (h1 : (scaleState st c s).low ≤ (scaleState st c s).high)
    (h2 : (scaleState st c s).high < FULL_RANGE) :
    OpsRel (scaleState st c s) (update st c s).2 (update st c s).1 ∧
      Stable (update st c s).1 := by
  have hfuel : ∀ st' : CoderState,
      FULL_RANGE ≤ 2 ^ RENORM_FUEL * (st'.high - st'.low + 1) := by
    intro st'
    calc FULL_RANGE = 2 ^ 64 := FULL_RANGE_eq
      _ ≤ 2 ^ RENORM_FUEL := by norm_num [RENORM_FUEL]
      _ = 2 ^ RENORM_FUEL * 1 := by ring
      _ ≤ 2 ^ RENORM_FUEL * (st'.high - st'.low + 1) :=
          Nat.mul_le_mul_left _ (by omega)
  have h12 := e12Loop_facts RENORM_FUEL (scaleState st c s) h1 h2 (hfuel _)
  have h3 := e3Loop_facts RENORM_FUEL (e12Loop RENORM_FUEL (scaleState st c s)).1
    h12.2.1 h12.2.2.1 h12.2.2.2 (hfuel _)
  have hupd1 : (update st c s).1 = (e3Loop RENORM_FUEL
      (e12Loop RENORM_FUEL (scaleState st c s)).1).1 := rfl
  have hupd2 : (update st c s).2 = (e12Loop RENORM_FUEL (scaleState st c s)).2
      ++ List.replicate (e3Loop RENORM_FUEL
        (e12Loop RENORM_FUEL (scaleState st c s)).1).2 RenormOp.underflow := rfl
  rw [hupd1, hupd2]
  refine ⟨opsRel_append h12.1 h3.1, ?_⟩
  obtain ⟨hrel, hlh, hhF, hne, hnc⟩ := h3
  obtain ⟨hb1, hb2, hbl, hbh⟩ := msb_split _ hlh hhF hne
  refine ⟨hbl, hbh, hhF, ?_⟩
  rcases Bool.eq_false_or_eq_true ((e3Loop RENORM_FUEL
      (e12Loop RENORM_FUEL (scaleState st c s)).1).1.low.testBit 62) with h62 | h62
  · right
    have h62h : (e3Loop RENORM_FUEL
        (e12Loop RENORM_FUEL (scaleState st c s)).1).1.high.testBit 62 = true := by
      rcases Bool.eq_false_or_eq_true ((e3Loop RENORM_FUEL
          (e12Loop RENORM_FUEL (scaleState st c s)).1).1.high.testBit 62) with hx | hx
      · exact hx
      · exact absurd ⟨h62, hx⟩ hnc
    rw [testBit_iff_div_mod] at h62h
    rw [HALF_RANGE_eq] at hbh
    rw [FULL_RANGE_eq] at hhF
    rw [QUARTER_RANGE_eq]
    omega
  · left
    rw [testBit_false_iff_div_mod] at h62
    rw [HALF_RANGE_eq] at hbl
    rw [QUARTER_RANGE_eq]
    omega

theorem cdfHigh_le_total (c : List ℕ) (hchain : List.Chain' (· ≤ ·) c) (hne : c ≠ [])
    {s : ℕ} (hs : s < c.length) : cdfHigh c s ≤ cdfTotal c := by
  rw [cdfTotal_eq_getD c hne]
  exact chain_le_getD_mono c hchain s (c.length - 1) (by omega)
    (by cases c with
        | nil => exact absurd rfl hne
        | cons a l => simp)

theorem scaleState_facts (st : CoderState) (c : List ℕ) (s : ℕ)
    (hwf : Cdf.Wf c) (hsup : InSupport c s)
    (hrange : cdfTotal c ≤ st.high - st.low + 1) (hst : st.low ≤ st.high) :
    st.low ≤ (scaleState st c s).low ∧
      (scaleState st c s).low ≤ (scaleState st c s).high ∧
      (scaleState st c s).high ≤ st.high ∧
      (scaleState st c s).low
        = st.low + cdfLow c s * (st.high - st.low + 1) / cdfTotal c ∧
      (scaleState st c s).high
        = st.low + cdfHigh c s * (st.high - st.low + 1) / cdfTotal c - 1 ∧
      1 ≤ cdfHigh c s * (st.high - st.low + 1) / cdfTotal c ∧
      cdfLow c s * (st.high - st.low + 1) / cdfTotal c
        < cdfHigh c s * (st.high - st.low + 1) / cdfTotal c := by
  obtain ⟨hne, hchain, htot⟩ := hwf
  obtain ⟨hslt, hlow_lt⟩ := hsup
  have hhigh_le : cdfHigh c s ≤ cdfTotal c := cdfHigh_le_total c hchain hne hslt
  have hhigh1 : 1 ≤ cdfHigh c s := by omega
  set range := st.high - st.low + 1 with hr
  have hm1 : cdfHigh c s * range / cdfTotal c ≤ range := by
    calc cdfHigh c s * range / cdfTotal c
        ≤ cdfTotal c * range / cdfTotal c :=
          Nat.div_le_div_right (Nat.mul_le_mul_right _ hhigh_le)
      _ = range := Nat.mul_div_cancel_left _ htot
  have hm2 : 1 ≤ cdfHigh c s * range / cdfTotal c := by
    rw [Nat.le_div_iff_mul_le htot]
    calc 1 * cdfTotal c = cdfTotal c := one_mul _
      _ ≤ range := hrange
      _ ≤ cdfHigh c s * range := Nat.le_mul_of_pos_left _ hhigh1
  have hm3 : cdfLow c s * range / cdfTotal c < cdfHigh c s * range / cdfTotal c := by
    have hstep : cdfLow c s * range + cdfTotal c ≤ cdfHigh c s * range := by
      have h1 : cdfLow c s + 1 ≤ cdfHigh c s := hlow_lt
      calc cdfLow c s * range + cdfTotal c
          ≤ cdfLow c s * range + range := by omega
        _ = (cdfLow c s + 1) * range := by ring
        _ ≤ cdfHigh c s * range := Nat.mul_le_mul_right _ h1
    have := Nat.div_le_div_right (c := cdfTotal c) hstep
    rw [Nat.add_div_right _ htot] at this
    omega
  refine ⟨?_, ?_, ?_, rfl, rfl, hm2, hm3⟩
  · exact Nat.le_add_right _ _
  · show st.low + cdfLow c s * range / cdfTotal c
      ≤ st.low + cdfHigh c s * range / cdfTotal c - 1
    omega
  · show st.low + cdfHigh c s * range / cdfTotal c - 1 ≤ st.high
    omega

/-- One encoder-side update step from a stable state with a well-formed,
supported, total-bounded CDF preserves stability and certifies the op run
from the subdivided state. -/
theorem update_stable (st : CoderState) (c : List ℕ) (s : ℕ)
    (hst : Stable st) (hwf : Cdf.Wf c) (hsup : InSupport c s)
    (htot : cdfTotal c ≤ QUARTER_RANGE) :
    OpsRel (scaleState st c s) (update st c s).2 (update st c s).1 ∧
      Stable (update st c s).1 ∧
      st.low ≤ (scaleState st c s).low ∧
      (scaleState st c s).low ≤ (scaleState st c s).high ∧
      (scaleState st c s).high ≤ st.high := by
  obtain ⟨hl, hh, hhF, hq⟩ := hst
  have hrange : cdfTotal c ≤ st.high - st.low + 1 := by
    rw [HALF_RANGE_eq] at hl hh
    rw [QUARTER_RANGE_eq] at *
    rw [FULL_RANGE_eq] at hhF
    omega
  have hsf := scaleState_facts st c s hwf hsup hrange (by
    rw [HALF_RANGE_eq] at hl hh
    omega)
  have huf := update_facts st c s hsf.2.1 (lt_of_le_of_lt hsf.2.2.1 hhF)
  exact ⟨huf.1, huf.2, hsf.1, hsf.2.1, hsf.2.2.1⟩

theorem stable_initState : Stable initState := by
  refine ⟨?_, ?_, ?_, Or.inl ?_⟩ <;>
    simp [initState, STATE_MASK_eq, HALF_RANGE_eq, QUARTER_RANGE_eq, FULL_RANGE_eq]

theorem stable_guards (st : CoderState) (hst : Stable st) :
    st.low ≤ st.high ∧ ¬ e12Guard st ∧ ¬ e3Cond st := by
  obtain ⟨hl, hh, hhF, hq⟩ := hst
  have hle : st.low ≤ st.high := le_trans (le_of_lt hl) hh
  refine ⟨hle, ?_, ?_⟩
  · unfold e12Guard
    rw [testBit63_false_of_lt hl, testBit63_true_of_ge hh hhF]
    simp
  · unfold e3Cond
    rcases hq with hq | hq
    · intro hc
      have := hc.1
      rw [testBit_iff_div_mod] at this
      rw [QUARTER_RANGE_eq] at hq
      omega
    · intro hc
      have := hc.2
      rw [testBit_false_iff_div_mod] at this
      rw [QUARTER_RANGE_eq] at hq
      rw [FULL_RANGE_eq] at hhF
      omega

theorem updFold_stable :
    ∀ (pre : List (List ℕ × ℕ)) (st : CoderState), Stable st →
      (∀ q ∈ pre, Cdf.Wf q.1 ∧ InSupport q.1 q.2 ∧ cdfTotal q.1 ≤ QUARTER_RANGE) →
      Stable (updFold st pre) := by
  intro pre
  induction pre with
  | nil => intro st hst _; exact hst
  | cons q rest ih =>
    intro st hst hwf
    have hq := hwf q (List.mem_cons_self _ _)
    have hstep := update_stable st q.1 q.2 hst hq.1 hq.2.1 hq.2.2
    exact ih _ hstep.2.1 (fun r hr => hwf r (List.mem_cons_of_mem _ hr))

/-- **C4 counterexample.** The CDF `[2, 3, 4, 2^65]` is non-decreasing with
positive last entry and symbol 1 is in its support, yet a single `update`
from the initial state `low = 0`, `high = 2^64 - 1` produces
`low = 2^63 > high = 2^63 - 1`: without a bound on the CDF total the
invariant `low ≤ high` fails. -/
theorem update_violates_low_le_high :
    Cdf.Wf [2, 3, 4, 2 ^ 65] ∧ InSupport [2, 3, 4, 2 ^ 65] 1 ∧
      initState.low ≤ initState.high ∧
      ¬((update initState [2, 3, 4, 2 ^ 65] 1).1.low
          ≤ (update initState [2, 3, 4, 2 ^ 65] 1).1.high) := by
  refine ⟨⟨by simp, by norm_num [List.chain'_cons], by decide⟩, ⟨by decide, by decide⟩,
    by decide, by decide⟩

/-- **C4 (amended).** Starting from `low = 0`, `high = 2^64 - 1`, for every
update with a well-formed CDF whose total is at most `2^62` and an
in-support symbol, `low ≤ high` holds before and after the update, and when
`update` returns either the top bits of `low` and `high` differ or the E3
condition no longer holds (in fact both hold). -/
theorem update_invariant (pairs pre post : List (List ℕ × ℕ)) (p : List ℕ × ℕ)
    (hsplit : pairs = pre ++ p :: post)
    (hwf : ∀ q ∈ pairs, Cdf.Wf q.1 ∧ InSupport q.1 q.2 ∧ cdfTotal q.1 ≤ QUARTER_RANGE) :
    (updFold initState pre).low ≤ (updFold initState pre).high ∧
      (update (updFold initState pre) p.1 p.2).1.low
        ≤ (update (updFold initState pre) p.1 p.2).1.high ∧
      (¬ e12Guard (update (updFold initState pre) p.1 p.2).1 ∨
        ¬ e3Cond (update (updFold initState pre) p.1 p.2).1) := by
  have hwfpre : ∀ q ∈ pre, Cdf.Wf q.1 ∧ InSupport q.1 q.2 ∧ cdfTotal q.1 ≤ QUARTER_RANGE :=
    fun q hq => hwf q (by rw [hsplit]; exact List.mem_append_left _ hq)
  have hp := hwf p (by rw [hsplit]; exact List.mem_append_right _ (List.mem_cons_self _ _))
  have hst := updFold_stable pre initState stable_initState hwfpre
  have hstep := update_stable (updFold initState pre) p.1 p.2 hst hp.1 hp.2.1 hp.2.2
  have hg1 := stable_guards _ hst
  have hg2 := stable_guards _ hstep.2.1
  exact ⟨hg1.1, hg2.1, Or.inl hg2.2.1⟩

/-- Witness for `update_invariant` at the single pair `([1, 2], 1)`. -/
theorem update_invariant_witness :
    (updFold initState []).low ≤ (updFold initState []).high ∧
      (update (updFold initState []) [1, 2] 1).1.low
        ≤ (update (updFold initState []) [1, 2] 1).1.high ∧
      (¬ e12Guard (update (updFold initState []) [1, 2] 1).1 ∨
        ¬ e3Cond (update (updFold initState []) [1, 2] 1).1) :=
  update_invariant [([1, 2], 1)] [] [] ([1, 2], 1) rfl
    (by
      intro q hq
      simp only [List.mem_singleton] at hq
      subst hq
      exact ⟨⟨by simp, by norm_num [List.chain'_cons], by decide⟩, ⟨by decide, by decide⟩,
        by rw [QUARTER_RANGE_eq]; norm_num [cdfTotal]⟩)

/-! ## C10: the decoder sandwich `low ≤ code ≤ high` -/

theorem strictCdf_wf (c : List ℕ) (hc : StrictCdf c) :
    Cdf.Wf c ∧ ∀ s < c.length, InSupport c s := by
  obtain ⟨hne, hchain, hpos⟩ := hc
  have hle : List.Chain' (· ≤ ·) c := hchain.imp (fun h1 h2 => le_of_lt)
  have hmono : ∀ i j, i < j → j < c.length → c.getD i 0 < c.getD j 0 := by
    intro i j hij hj
    rw [List.getD_eq_getElem c 0 (by omega), List.getD_eq_getElem c 0 hj]
    have hp := List.chain'_iff_pairwise.mp hchain
    have := List.pairwise_iff_get.mp hp ⟨i, by omega⟩ ⟨j, hj⟩ hij
    simpa using this
  have hlen : 0 < c.length := by
    cases c with
    | nil => exact absurd rfl hne
    | cons a l => simp
  have htot : 0 < cdfTotal c := by
    rw [cdfTotal_eq_getD c hne]
    rcases Nat.eq_zero_or_pos (c.length - 1) with h0 | hp
    · rw [h0]; exact hpos
    · calc 0 < c.getD 0 0 := hpos
        _ ≤ c.getD (c.length - 1) 0 := le_of_lt (hmono 0 _ hp (by omega))
  refine ⟨⟨hne, hle, htot⟩, ?_⟩
  intro s hs
  refine ⟨hs, ?_⟩
  unfold cdfLow cdfHigh
  by_cases h0 : 0 < s
  · rw [if_pos h0]
    exact hmono (s - 1) s (by omega) hs
  · rw [if_neg h0]
    have : s = 0 := by omega
    subst this
    exact hpos

/-- With `low ≤ code ≤ high` the decoded symbol's subdivided interval
contains `code` (so in particular the subdivision is non-degenerate). -/
theorem decode_subdiv_sandwich (d : Decoder) (c : List ℕ)
    (hchain : List.Chain' (· ≤ ·) c) (hne : c ≠ []) (htot : 0 < cdfTotal c)
    (h1 : d.st.low ≤ d.code) (h2 : d.code ≤ d.st.high) :
    (scaleState d.st c (decodeSymbol d c).1).low ≤ d.code ∧
      d.code ≤ (scaleState d.st c (decodeSymbol d c).1).high := by
  have hmain := decode_symbol_least_upper d c hchain hne htot h1 h2
  obtain ⟨hslt, hvlt, hvle⟩ := hmain
  set s := (decodeSymbol d c).1 with hsdef
  set T := cdfTotal c with hT
  set R := d.st.high - d.st.low + 1 with hR
  set o := d.code - d.st.low with ho
  have hRpos : 0 < R := by omega
  have hscale_high : (scaleState d.st c s).high = d.st.low + cdfHigh c s * R / T - 1 := rfl
  have hscale_low : (scaleState d.st c s).low = d.st.low + cdfLow c s * R / T := rfl
  -- `value < cdfHigh c s` gives `code ≤ scale.high`
  have hhi : d.code ≤ (scaleState d.st c s).high := by
    have hlt : (o + 1) * T - 1 < cdfHigh c s * R := by
      have hx := hvlt
      rw [Nat.div_lt_iff_lt_mul hRpos] at hx
      exact hx
    have hle2 : (o + 1) * T ≤ cdfHigh c s * R := by
      have hTpos : 0 < (o + 1) * T := Nat.mul_pos (by omega) htot
      omega
    have hq : o + 1 ≤ cdfHigh c s * R / T := by
      rw [Nat.le_div_iff_mul_le htot]
      exact hle2
    rw [hscale_high]
    have hfin : d.code + 1 ≤ d.st.low + cdfHigh c s * R / T := by
      have h3 : d.code + 1 = d.st.low + (o + 1) := by omega
      rw [h3]
      exact Nat.add_le_add_left hq _
    exact Nat.le_sub_one_of_lt hfin
  -- `cdfLow c s ≤ value` gives `scale.low ≤ code`
  have hlo : (scaleState d.st c s).low ≤ d.code := by
    have hcl : cdfLow c s ≤ ((o + 1) * T - 1) / R := by
      unfold cdfLow
      by_cases h0 : 0 < s
      · rw [if_pos h0]
        exact hvle (s - 1) (by omega)
      · rw [if_neg h0]
        exact Nat.zero_le _
    have hclR : cdfLow c s * R ≤ (o + 1) * T - 1 := by
      rw [Nat.le_div_iff_mul_le hRpos] at hcl
      exact hcl
    have hq : cdfLow c s * R / T ≤ o := by
      by_contra hcon
      push_neg at hcon
      have hstep : (o + 1) * T ≤ cdfLow c s * R / T * T := Nat.mul_le_mul_right _ hcon
      have hfloor : cdfLow c s * R / T * T ≤ cdfLow c s * R := Nat.div_mul_le_self _ _
      have hTpos : 0 < (o + 1) * T := Nat.mul_pos (by omega) htot
      have hcontra := le_trans hstep hfloor
      omega
    rw [hscale_low]
    have hfin : d.st.low + cdfLow c s * R / T ≤ d.st.low + o := Nat.add_le_add_left hq _
    have hoeq : d.st.low + o = d.code := by omega
    exact le_trans hfin (le_of_eq hoeq)
  exact ⟨hlo, hhi⟩

theorem opsRel_code_sandwich :
    ∀ {st st' : CoderState} {ops : List RenormOp}, OpsRel st ops st' →
      st.high < FULL_RANGE →
      ∀ d : Decoder, st.low ≤ d.code → d.code ≤ st.high →
        st'.low ≤ (ops.foldl decApplyOp d).code ∧
          (ops.foldl decApplyOp d).code ≤ st'.high ∧ st'.high < FULL_RANGE := by
  intro st st' ops h
  induction h with
  | nil => intro hF d h1 h2; exact ⟨h1, h2, hF⟩
  | shift st0 st1 ops hg h ih =>
    intro hF d h1 h2
    have hlF : st0.low < FULL_RANGE := lt_of_le_of_lt (le_trans h1 h2) hF
    obtain ⟨hb1, hlow, hhigh, hiff1, hiff2⟩ := shift_op_facts st0 hlF hF hg
    have hbit := readCodeBit_le_one d
    have hbF : shiftBit st0 * FULL_RANGE ≤ 2 * st0.low := by
      rcases Nat.le_one_iff_eq_zero_or_eq_one.mp hb1 with h0 | hone
      · rw [h0]; omega
      · have hlge := hiff1.mp hone
        rw [hone, one_mul, FULL_RANGE_eq]
        rw [HALF_RANGE_eq] at hlge
        omega
    have hcode : (decShift d).code
        = 2 * d.code - shiftBit st0 * FULL_RANGE + (readCodeBit d).1 := by
      show 2 * d.code % FULL_RANGE + (readCodeBit d).1 = _
      rcases Nat.le_one_iff_eq_zero_or_eq_one.mp hb1 with h0 | hone
      · have hnh : st0.high < HALF_RANGE := by
          by_contra hcon
          push_neg at hcon
          have := hiff2.mpr hcon
          omega
        have h2c : 2 * d.code < FULL_RANGE := by
          rw [HALF_RANGE_eq] at hnh
          rw [FULL_RANGE_eq]
          omega
        rw [h0, Nat.mod_eq_of_lt h2c]
        omega
      · have hlge := hiff1.mp hone
        have h2c : FULL_RANGE ≤ 2 * d.code := by
          rw [HALF_RANGE_eq] at hlge
          rw [FULL_RANGE_eq]
          omega
        have h2c2 : 2 * d.code < 2 * FULL_RANGE := by
          have hcF : d.code < FULL_RANGE := lt_of_le_of_lt h2 hF
          omega
        rw [hone, one_mul]
        rw [FULL_RANGE_eq] at h2c h2c2 ⊢
        omega
    have hbF2 : shiftBit st0 * FULL_RANGE ≤ 2 * d.code :=
      le_trans hbF (by omega)
    have hstep1 : (e12Step st0).low ≤ (decShift d).code := by
      rw [hcode, hlow]
      omega
    have hstep2 : (decShift d).code ≤ (e12Step st0).high := by
      rw [hcode, hhigh]
      omega
    have hF' : (e12Step st0).high < FULL_RANGE := by
      rcases Nat.le_one_iff_eq_zero_or_eq_one.mp hb1 with h0 | hone
      · have hnh : st0.high < HALF_RANGE := by
          by_contra hcon
          push_neg at hcon
          have := hiff2.mpr hcon
          omega
        rw [hhigh, h0]
        rw [HALF_RANGE_eq] at hnh
        rw [FULL_RANGE_eq]
        omega
      · rw [hhigh, hone, one_mul]
        rw [FULL_RANGE_eq] at hF ⊢
        omega
    have hfold : (RenormOp.shift (shiftBit st0) :: ops).foldl decApplyOp d
        = ops.foldl decApplyOp (decShift d) := rfl
    rw [hfold]
    exact ih hF' (decShift d) hstep1 hstep2
  | underflow st0 st1 ops hl63 hh63 hl62 hh62 h ih =>
    intro hF d h1 h2
    have hlF : st0.low < FULL_RANGE := lt_of_le_of_lt (le_trans h1 h2) hF
    obtain ⟨hQ, hlH, hhH, hh3Q, hlow, hhigh⟩ :=
      underflow_op_facts st0 hlF hF hl63 hh63 hl62 hh62
    have hbit := readCodeBit_le_one d
    rw [QUARTER_RANGE_eq] at hQ hh3Q
    rw [HALF_RANGE_eq] at hlH hhH
    have hcode : (decUnderflow d).code
        = 2 * d.code - HALF_RANGE + (readCodeBit d).1 := by
      show HALF_RANGE * (d.code / HALF_RANGE % 2) + 2 * d.code % HALF_RANGE
          + (readCodeBit d).1 = _
      rw [HALF_RANGE_eq]
      omega
    have hstep1 : (e3Step st0).low ≤ (decUnderflow d).code := by
      rw [hcode, hlow]
      rw [HALF_RANGE_eq]
      omega
    have hstep2 : (decUnderflow d).code ≤ (e3Step st0).high := by
      rw [hcode, hhigh]
      rw [HALF_RANGE_eq]
      omega
    have hF' : (e3Step st0).high < FULL_RANGE := by
      rw [hhigh]
      rw [HALF_RANGE_eq]
      rw [FULL_RANGE_eq]
      omega
    have hfold : (RenormOp.underflow :: ops).foldl decApplyOp d
        = ops.foldl decApplyOp (decUnderflow d) := rfl
    rw [hfold]
    exact ih hF' (decUnderflow d) hstep1 hstep2
theorem scale_high_le (st : CoderState) (c : List ℕ) (s : ℕ)
    (hchain : List.Chain' (· ≤ ·) c) (hne : c ≠ []) (htot : 0 < cdfTotal c)
    (hs : s < c.length) (hst : st.low ≤ st.high) :
    (scaleState st c s).high ≤ st.high := by
  have hm1 : cdfHigh c s * (st.high - st.low + 1) / cdfTotal c ≤ st.high - st.low + 1 := by
    calc cdfHigh c s * (st.high - st.low + 1) / cdfTotal c
        ≤ cdfTotal c * (st.high - st.low + 1) / cdfTotal c :=
          Nat.div_le_div_right (Nat.mul_le_mul_right _ (cdfHigh_le_total c hchain hne hs))
      _ = st.high - st.low + 1 := Nat.mul_div_cancel_left _ htot
  have hscale : (scaleState st c s).high
      = st.low + cdfHigh c s * (st.high - st.low + 1) / cdfTotal c - 1 := rfl
  rw [hscale]
  omega

/-- One `decode_symbol` step from a state with `low ≤ code ≤ high` and a
strictly increasing positive CDF returns a symbol inside `[0, V)` and
re-establishes `low ≤ code ≤ high` (with `high < 2^64`). -/
theorem decodeSymbol_inv (d : Decoder) (c : List ℕ) (hc : StrictCdf c)
    (h1 : d.st.low ≤ d.code) (h2 : d.code ≤ d.st.high) (hF : d.st.high < FULL_RANGE) :
    (decodeSymbol d c).1 < c.length ∧
      (decodeSymbol d c).2.st.low ≤ (decodeSymbol d c).2.code ∧
      (decodeSymbol d c).2.code ≤ (decodeSymbol d c).2.st.high ∧
      (decodeSymbol d c).2.st.high < FULL_RANGE := by
  obtain ⟨hwf, hsupall⟩ := strictCdf_wf c hc
  obtain ⟨hne, hchain, htot⟩ := hwf
  have hsym := decode_symbol_least_upper d c hchain hne htot h1 h2
  have hsand := decode_subdiv_sandwich d c hchain hne htot h1 h2
  have hscaleF : (scaleState d.st c (decodeSymbol d c).1).high < FULL_RANGE :=
    lt_of_le_of_lt (scale_high_le d.st c _ hchain hne htot hsym.1 (le_trans h1 h2)) hF
  have hscale_le : (scaleState d.st c (decodeSymbol d c).1).low
      ≤ (scaleState d.st c (decodeSymbol d c).1).high :=
    le_trans hsand.1 hsand.2
  have hupd := update_facts d.st c (decodeSymbol d c).1 hscale_le hscaleF
  have hops := opsRel_code_sandwich hupd.1 hscaleF d hsand.1 hsand.2
  have hst2 : (decodeSymbol d c).2.st = (update d.st c (decodeSymbol d c).1).1 := rfl
  have hcode2 : (decodeSymbol d c).2.code
      = ((update d.st c (decodeSymbol d c).1).2.foldl decApplyOp d).code := rfl
  rw [hst2, hcode2]
  exact ⟨hsym.1, hops.1, hops.2.1, hops.2.2⟩

/-- The decode-fold version: every returned symbol is in range and the
sandwich invariant holds at the end. -/
theorem decodeSymbols_facts :
    ∀ (cdfs : List (List ℕ)) (d : Decoder), (∀ c ∈ cdfs, StrictCdf c) →
      d.st.low ≤ d.code → d.code ≤ d.st.high → d.st.high < FULL_RANGE →
      List.Forall₂ (fun s c => s < c.length) (decodeSymbols d cdfs) cdfs ∧
        (cdfs.foldl (fun x c => (decodeSymbol x c).2) d).st.low
          ≤ (cdfs.foldl (fun x c => (decodeSymbol x c).2) d).code ∧
        (cdfs.foldl (fun x c => (decodeSymbol x c).2) d).code
          ≤ (cdfs.foldl (fun x c => (decodeSymbol x c).2) d).st.high := by
  intro cdfs
  induction cdfs with
  | nil => intro d _ h1 h2 _; exact ⟨List.Forall₂.nil, h1, h2⟩
  | cons c rest ih =>
    intro d hall h1 h2 hF
    have hc := hall c (List.mem_cons_self _ _)
    have hstep := decodeSymbol_inv d c hc h1 h2 hF
    have hrec := ih (decodeSymbol d c).2 (fun x hx => hall x (List.mem_cons_of_mem _ hx))
      hstep.2.1 hstep.2.2.1 hstep.2.2.2
    refine ⟨?_, hrec.2.1, hrec.2.2⟩
    exact List.Forall₂.cons hstep.1 hrec.1

theorem readCodeBit_st (d : Decoder) : (readCodeBit d).2.st = d.st := by
  unfold readCodeBit
  by_cases h : d.input.length ≤ d.byteIndex
  · rw [if_pos h]
  · rw [if_neg h]

theorem readCode_st : ∀ (n acc : ℕ) (d : Decoder), (readCode n acc d).2.st = d.st := by
  intro n
  induction n with
  | zero => intro acc d; rfl
  | succ n ih =>
    intro acc d
    show (readCode n (2 * acc + (readCodeBit d).1) (readCodeBit d).2).2.st = d.st
    rw [ih, readCodeBit_st]

theorem readCode_lt : ∀ (n acc : ℕ) (d : Decoder),
    (readCode n acc d).1 < 2 ^ n * (acc + 1) := by
  intro n
  induction n with
  | zero => intro acc d; simp [readCode]
  | succ n ih =>
    intro acc d
    have hbit := readCodeBit_le_one d
    have := ih (2 * acc + (readCodeBit d).1) (readCodeBit d).2
    show (readCode n (2 * acc + (readCodeBit d).1) (readCodeBit d).2).1 < _
    calc (readCode n (2 * acc + (readCodeBit d).1) (readCodeBit d).2).1
        < 2 ^ n * (2 * acc + (readCodeBit d).1 + 1) := this
      _ ≤ 2 ^ n * (2 * acc + 2) := Nat.mul_le_mul_left _ (by omega)
      _ = 2 ^ (n + 1) * (acc + 1) := by ring

theorem decoder_init_inv (data : List ℕ) :
    (Decoder.init data).st.low ≤ (Decoder.init data).code ∧
      (Decoder.init data).code ≤ (Decoder.init data).st.high ∧
      (Decoder.init data).st.high < FULL_RANGE := by
  have hst : (Decoder.init data).st = initState := by
    simp only [Decoder.init]
    rw [readCode_st]
  have hcode : (Decoder.init data).code < FULL_RANGE := by
    simp only [Decoder.init]
    have := readCode_lt 64 0 ⟨data, 0, 0, initState, 0⟩
    rw [FULL_RANGE_eq]
    omega
  rw [hst]
  refine ⟨Nat.zero_le _, ?_, ?_⟩
  · show (Decoder.init data).code ≤ STATE_MASK
    rw [STATE_MASK_eq]
    rw [FULL_RANGE_eq] at hcode
    omega
  · show STATE_MASK < FULL_RANGE
    rw [STATE_MASK_eq, FULL_RANGE_eq]
    omega

/-- **C10.** For every input byte string (empty, truncated or corrupted) and
every sequence of strictly increasing, positive CDFs, the decoder maintains
`low ≤ code ≤ high` from initialization through every `decode_symbol`, and
every returned symbol index is strictly below the CDF length — so the
accesses `cum_freqs[symbol]` and `cum_freqs[symbol - 1]` are in bounds and
`decode_symbol` never fails. -/
theorem decoder_totality (data : List ℕ) (cdfs : List (List ℕ))
    (hcdfs : ∀ c ∈ cdfs, StrictCdf c) :
    ((Decoder.init data).st.low ≤ (Decoder.init data).code ∧
      (Decoder.init data).code ≤ (Decoder.init data).st.high) ∧
      List.Forall₂ (fun s c => s < c.length)
        (decodeSymbols (Decoder.init data) cdfs) cdfs ∧
      (cdfs.foldl (fun x c => (decodeSymbol x c).2) (Decoder.init data)).st.low
        ≤ (cdfs.foldl (fun x c => (decodeSymbol x c).2) (Decoder.init data)).code ∧
      (cdfs.foldl (fun x c => (decodeSymbol x c).2) (Decoder.init data)).code
        ≤ (cdfs.foldl (fun x c => (decodeSymbol x c).2) (Decoder.init data)).st.high := by
  have hinit := decoder_init_inv data
  have := decodeSymbols_facts cdfs (Decoder.init data) hcdfs hinit.1 hinit.2.1 hinit.2.2
  exact ⟨⟨hinit.1, hinit.2.1⟩, this.1, this.2.1, this.2.2⟩

/-- Witness for `decoder_totality`: a corrupt two-byte input and two CDFs. -/
theorem decoder_totality_witness :
    ((Decoder.init [255, 7]).st.low ≤ (Decoder.init [255, 7]).code ∧
      (Decoder.init [255, 7]).code ≤ (Decoder.init [255, 7]).st.high) ∧
      List.Forall₂ (fun s c => s < c.length)
        (decodeSymbols (Decoder.init [255, 7]) [[1, 3], [2, 3, 9]]) [[1, 3], [2, 3, 9]] ∧
      ([[1, 3], [2, 3, 9]].foldl (fun x c => (decodeSymbol x c).2)
          (Decoder.init [255, 7])).st.low
        ≤ ([[1, 3], [2, 3, 9]].foldl (fun x c => (decodeSymbol x c).2)
            (Decoder.init [255, 7])).code ∧
      ([[1, 3], [2, 3, 9]].foldl (fun x c => (decodeSymbol x c).2)
          (Decoder.init [255, 7])).code
        ≤ ([[1, 3], [2, 3, 9]].foldl (fun x c => (decodeSymbol x c).2)
            (Decoder.init [255, 7])).st.high :=
  decoder_totality [255, 7] [[1, 3], [2, 3, 9]] (by
    intro c hc
    simp only [List.mem_cons, List.not_mem_nil, or_false] at hc
    rcases hc with rfl | rfl
    · exact ⟨by simp, by norm_num [List.chain'_cons], by decide⟩
    · exact ⟨by simp, by norm_num [List.chain'_cons], by decide⟩)

/-! ## C7: bit packing -/

theorem packedByte_eq (bits : List ℕ) (k : ℕ) :
    packedByte bits k
      = 128 * bits.getD (8 * k) 0 + 64 * bits.getD (8 * k + 1) 0
        + 32 * bits.getD (8 * k + 2) 0 + 16 * bits.getD (8 * k + 3) 0
        + 8 * bits.getD (8 * k + 4) 0 + 4 * bits.getD (8 * k + 5) 0
        + 2 * bits.getD (8 * k + 6) 0 + bits.getD (8 * k + 7) 0 := by
  show (List.range 8).foldl _ 0 = _
  norm_num [List.range_succ]
  ring

theorem packedByte_sum (bits : List ℕ) (k : ℕ) :
    packedByte bits k = ∑ i ∈ Finset.range 8, bits.getD (8 * k + i) 0 * 2 ^ (7 - i) := by
  rw [packedByte_eq]
  rw [show (8 : ℕ) = 7 + 1 by rfl]
  repeat rw [Finset.sum_range_succ]
  rw [Finset.sum_range_zero]
  norm_num
  ring

theorem getD_concat (bits : List ℕ) (b m : ℕ) :
    (bits ++ [b]).getD m 0 = bits.getD m 0 + if m = bits.length then b else 0 := by
  rcases Nat.lt_trichotomy m bits.length with h | h | h
  · rw [List.getD_append _ _ _ _ h, if_neg (by omega)]
    omega
  · subst h
    rw [List.getD_eq_default _ _ (le_refl _), if_pos rfl,
      List.getD_eq_getElem _ _ (by simp)]
    simp
  · rw [List.getD_eq_default _ _ (by simp; omega),
      List.getD_eq_default _ _ (by omega), if_neg (by omega)]

theorem packedByte_concat (bits : List ℕ) (b k : ℕ) :
    packedByte (bits ++ [b]) k
      = packedByte bits k
        + (if 8 * k ≤ bits.length ∧ bits.length < 8 * k + 8 then
            b * 2 ^ (7 - (bits.length - 8 * k)) else 0) := by
  rw [packedByte_sum, packedByte_sum]
  have hsplit : ∀ i ∈ Finset.range 8,
      (bits ++ [b]).getD (8 * k + i) 0 * 2 ^ (7 - i)
        = bits.getD (8 * k + i) 0 * 2 ^ (7 - i)
          + (if 8 * k + i = bits.length then b else 0) * 2 ^ (7 - i) := by
    intro i _
    rw [getD_concat]
    ring
  rw [Finset.sum_congr rfl hsplit, Finset.sum_add_distrib]
  congr 1
  by_cases hc : 8 * k ≤ bits.length ∧ bits.length < 8 * k + 8
  · rw [if_pos hc]
    have hcond : ∀ i ∈ Finset.range 8,
        (if 8 * k + i = bits.length then b else 0) * 2 ^ (7 - i)
          = if i = bits.length - 8 * k then b * 2 ^ (7 - i) else 0 := by
      intro i hi
      have hi8 := Finset.mem_range.mp hi
      by_cases h : i = bits.length - 8 * k
      · rw [if_pos h, if_pos (by omega)]
      · rw [if_neg h, if_neg (by omega), zero_mul]
    rw [Finset.sum_congr rfl hcond, Finset.sum_ite_eq']
    rw [if_pos (Finset.mem_range.mpr (by omega))]
  · rw [if_neg hc]
    apply Finset.sum_eq_zero
    intro i hi
    have hi8 := Finset.mem_range.mp hi
    rw [if_neg (by omega), zero_mul]

theorem packBits_length (bits : List ℕ) :
    (packBits bits).length = (bits.length + 7) / 8 := by
  simp [packBits]

theorem packBits_getD (bits : List ℕ) (k : ℕ) (hk : k < (bits.length + 7) / 8) :
    (packBits bits).getD k 0 = packedByte bits k := by
  rw [List.getD_eq_getElem _ _ (by rw [packBits_length]; exact hk)]
  simp [packBits]

theorem packBits_getD_beyond (bits : List ℕ) (k : ℕ) (hk : (bits.length + 7) / 8 ≤ k) :
    (packBits bits).getD k 0 = 0 := by
  rw [List.getD_eq_default _ _ (by rw [packBits_length]; exact hk)]

theorem IsBits_getD {L : List ℕ} (h : IsBits L) (n : ℕ) : L.getD n 0 ≤ 1 := by
  rcases Nat.lt_or_ge n L.length with hn | hn
  · rw [List.getD_eq_getElem _ _ hn]
    exact h _ (List.getElem_mem _)
  · rw [List.getD_eq_default _ _ hn]
    omega

theorem byteBitAt_packBits (bits : List ℕ) (h : IsBits bits) (n : ℕ) :
    byteBitAt (packBits bits) n = bits.getD n 0 := by
  unfold byteBitAt
  rcases Nat.lt_or_ge (n / 8) ((bits.length + 7) / 8) with hk | hk
  · rw [packBits_getD bits _ hk, packedByte_eq]
    have hb0 := IsBits_getD h (8 * (n / 8))
    have hb1 := IsBits_getD h (8 * (n / 8) + 1)
    have hb2 := IsBits_getD h (8 * (n / 8) + 2)
    have hb3 := IsBits_getD h (8 * (n / 8) + 3)
    have hb4 := IsBits_getD h (8 * (n / 8) + 4)
    have hb5 := IsBits_getD h (8 * (n / 8) + 5)
    have hb6 := IsBits_getD h (8 * (n / 8) + 6)
    have hb7 := IsBits_getD h (8 * (n / 8) + 7)
    have hmod : n % 8 < 8 := Nat.mod_lt _ (by omega)
    have hn8 : 8 * (n / 8) + n % 8 = n := by omega
    have h8 : n % 8 = 0 ∨ n % 8 = 1 ∨ n % 8 = 2 ∨ n % 8 = 3 ∨ n % 8 = 4 ∨ n % 8 = 5
        ∨ n % 8 = 6 ∨ n % 8 = 7 := by omega
    rcases h8 with h8 | h8 | h8 | h8 | h8 | h8 | h8 | h8 <;>
      (rw [h8] at hn8 ⊢; (conv_rhs => rw [← hn8]); (try simp only [Nat.add_zero]); omega)
  · rw [packBits_getD_beyond bits _ hk]
    have hlen : bits.length ≤ n := by omega
    rw [List.getD_eq_default _ _ hlen]
    simp

theorem packedByte_beyond (bits : List ℕ) (k : ℕ) (h : bits.length ≤ 8 * k) :
    packedByte bits k = 0 := by
  rw [packedByte_eq]
  rw [List.getD_eq_default _ _ (by omega), List.getD_eq_default _ _ (by omega),
    List.getD_eq_default _ _ (by omega), List.getD_eq_default _ _ (by omega),
    List.getD_eq_default _ _ (by omega), List.getD_eq_default _ _ (by omega),
    List.getD_eq_default _ _ (by omega), List.getD_eq_default _ _ (by omega)]

theorem appendBit_packInv {bits : List ℕ} {e : Encoder} (h : PackInv bits e) (b : ℕ) :
    PackInv (bits ++ [b]) (appendBit e b) := by
  obtain ⟨hdata, hbi⟩ := h
  by_cases hr : bits.length % 8 = 0
  · rw [if_pos hr] at hbi
    have happ : appendBit e b = { e with
        encodedData := (e.encodedData ++ [0]).dropLast
          ++ [(e.encodedData ++ [0]).getLastD 0 + b * 2 ^ (7 - 0)]
        bitIndex := 0 + 1 } := by
      simp only [appendBit, hbi, eq_self_iff_true, if_true]
    rw [happ]
    constructor
    · show (e.encodedData ++ [0]).dropLast
          ++ [(e.encodedData ++ [0]).getLastD 0 + b * 2 ^ (7 - 0)]
        = packBits (bits ++ [b])
      rw [List.dropLast_concat, List.getLastD_concat, hdata]
      have hlen1 : (bits.length + 1 + 7) / 8 = bits.length / 8 + 1 := by omega
      have hlen0 : (bits.length + 7) / 8 = bits.length / 8 := by omega
      unfold packBits
      rw [List.length_append, List.length_cons, List.length_nil]
      rw [show bits.length + (0 + 1) + 7 = bits.length + 1 + 7 by omega, hlen1,
        List.range_succ, List.map_append, hlen0]
      congr 1
      · apply List.map_congr_left
        intro k hk
        have hk8 := List.mem_range.mp hk
        rw [packedByte_concat, if_neg (by omega), Nat.add_zero]
      · rw [List.map_cons, List.map_nil]
        congr 1
        rw [packedByte_concat, if_pos (by constructor <;> omega),
          packedByte_beyond bits _ (by omega)]
        have : bits.length - 8 * (bits.length / 8) = 0 := by omega
        rw [this]
    · show 0 + 1 = _
      have : (bits ++ [b]).length % 8 = 1 := by
        rw [List.length_append, List.length_cons, List.length_nil]
        omega
      rw [this, if_neg (by omega)]
  · rw [if_neg hr] at hbi
    have hbi8 : e.bitIndex ≠ 8 := by
      rw [hbi]
      have : bits.length % 8 < 8 := Nat.mod_lt _ (by omega)
      omega
    have happ : appendBit e b = { e with
        encodedData := e.encodedData.dropLast
          ++ [e.encodedData.getLastD 0 + b * 2 ^ (7 - e.bitIndex)]
        bitIndex := e.bitIndex + 1 } := by
      simp only [appendBit, if_neg hbi8]
    rw [happ]
    have hq : (bits.length + 7) / 8 = bits.length / 8 + 1 := by omega
    have hdata2 : e.encodedData
        = (List.range (bits.length / 8)).map (packedByte bits)
          ++ [packedByte bits (bits.length / 8)] := by
      rw [hdata]
      unfold packBits
      rw [hq, List.range_succ, List.map_append, List.map_cons, List.map_nil]
    constructor
    · show e.encodedData.dropLast
          ++ [e.encodedData.getLastD 0 + b * 2 ^ (7 - e.bitIndex)]
        = packBits (bits ++ [b])
      rw [hdata2, List.dropLast_concat, List.getLastD_concat, hbi]
      unfold packBits
      rw [List.length_append, List.length_cons, List.length_nil]
      rw [show bits.length + (0 + 1) + 7 = bits.length + 8 by omega,
        show (bits.length + 8) / 8 = bits.length / 8 + 1 by omega,
        List.range_succ, List.map_append, List.map_cons, List.map_nil]
      congr 1
      · apply List.map_congr_left
        intro k hk
        have hk8 := List.mem_range.mp hk
        rw [packedByte_concat, if_neg (by omega), Nat.add_zero]
      · congr 1
        rw [packedByte_concat, if_pos (by constructor <;> omega)]
        have hmod : bits.length - 8 * (bits.length / 8) = bits.length % 8 := by omega
        rw [hmod]
    · show e.bitIndex + 1 = _
      rw [hbi]
      rw [List.length_append, List.length_cons, List.length_nil]
      have h8 : bits.length % 8 < 8 := Nat.mod_lt _ (by omega)
      by_cases h7 : bits.length % 8 = 7
      · rw [h7, if_pos (by omega)]
      · rw [if_neg (by omega)]
        omega

theorem appendBits_packInv :
    ∀ (bs bits : List ℕ) (e : Encoder), PackInv bits e →
      PackInv (bits ++ bs) (appendBits e bs) := by
  intro bs
  induction bs with
  | nil => intro bits e h; simpa [appendBits] using h
  | cons b rest ih =>
    intro bits e h
    have hstep := appendBit_packInv h b
    have := ih (bits ++ [b]) (appendBit e b) hstep
    rw [List.append_assoc] at this
    simpa [appendBits] using this

theorem encoder_init_packInv : PackInv [] Encoder.init := by
  constructor
  · rfl
  · rfl

/-- **C7.** After any sequence of appended bits, `Encoder.finish` appends
exactly one `1` bit; the byte buffer is then exactly the MSB-first packing
of the appended bits followed by that single `1` — `⌈(n+1)/8⌉` bytes with
the final byte's unused low bits zero, and nothing else (no header, length
prefix, checksum or magic bytes). -/
theorem encoder_finish_format (bs : List ℕ) :
    (Encoder.finish (appendBits Encoder.init bs)).encodedData = packBits (bs ++ [1]) ∧
      (packBits (bs ++ [1])).length = (bs.length + 1 + 7) / 8 ∧
      (IsBits bs → ∀ n, byteBitAt (packBits (bs ++ [1])) n = (bs ++ [1]).getD n 0) := by
  have hrun := appendBits_packInv bs [] Encoder.init encoder_init_packInv
  rw [List.nil_append] at hrun
  have hfin := appendBit_packInv hrun 1
  refine ⟨hfin.1, ?_, ?_⟩
  · rw [packBits_length]
    rw [List.length_append, List.length_cons, List.length_nil]
  · intro hbits n
    apply byteBitAt_packBits
    intro x hx
    rw [List.mem_append] at hx
    rcases hx with hx | hx
    · exact hbits x hx
    · rw [List.mem_singleton] at hx
      omega

/-- Witness for `encoder_finish_format` at the bit list `[1, 0, 1]`. -/
theorem encoder_finish_format_witness :
    (Encoder.finish (appendBits Encoder.init [1, 0, 1])).encodedData
        = packBits ([1, 0, 1] ++ [1]) ∧
      (packBits ([1, 0, 1] ++ [1])).length = ([1, 0, 1].length + 1 + 7) / 8 ∧
      byteBitAt (packBits ([1, 0, 1] ++ [1])) 2 = ([1, 0, 1] ++ [1]).getD 2 0 :=
  ⟨(encoder_finish_format [1, 0, 1]).1, (encoder_finish_format [1, 0, 1]).2.1,
    (encoder_finish_format [1, 0, 1]).2.2 (by intro b hb; fin_cases hb <;> decide) 2⟩

set_option maxRecDepth 4000 in
theorem isCont_iff : ∀ x, x < 256 → (isCont x = true ↔ (0x80 ≤ x ∧ x ≤ 0xBF)) := by decide

theorem isCont_add (m : ℕ) (hm : m < 64) : isCont (0x80 + m) = true :=
  (isCont_iff (0x80 + m) (by omega)).mpr ⟨by omega, by omega⟩

theorem utf8EncodeChar_ascii {cp : ℕ} (h : cp < 0x80) : utf8EncodeChar cp = [cp] := by
  unfold utf8EncodeChar
  rw [if_pos h]

theorem utf8EncodeChar_two {cp : ℕ} (h1 : 0x80 ≤ cp) (h2 : cp < 0x800) :
    utf8EncodeChar cp = [0xC0 + cp / 64, 0x80 + cp % 64] := by
  unfold utf8EncodeChar
  rw [if_neg (by omega), if_pos h2]

theorem utf8EncodeChar_three {cp : ℕ} (h1 : 0x800 ≤ cp) (h2 : cp < 0x10000) :
    utf8EncodeChar cp = [0xE0 + cp / 4096, 0x80 + cp / 64 % 64, 0x80 + cp % 64] := by
  unfold utf8EncodeChar
  rw [if_neg (by omega), if_neg (by omega), if_pos h2]

theorem utf8EncodeChar_four {cp : ℕ} (h1 : 0x10000 ≤ cp) :
    utf8EncodeChar cp
      = [0xF0 + cp / 262144, 0x80 + cp / 4096 % 64, 0x80 + cp / 64 % 64, 0x80 + cp % 64] := by
  unfold utf8EncodeChar
  rw [if_neg (by omega), if_neg (by omega), if_neg (by omega)]

theorem utf8EncodeChar_lt {cp : ℕ} (h : cp < 0x110000) : ∀ x ∈ utf8EncodeChar cp, x < 256 := by
  intro x hx
  unfold utf8EncodeChar at hx
  split_ifs at hx with h1 h2 h3
  · simp only [List.mem_singleton] at hx
    omega
  · simp only [List.mem_cons, List.mem_singleton, List.not_mem_nil, or_false] at hx
    rcases hx with hx | hx <;> omega
  · simp only [List.mem_cons, List.mem_singleton, List.not_mem_nil, or_false] at hx
    rcases hx with hx | hx | hx <;> omega
  · simp only [List.mem_cons, List.mem_singleton, List.not_mem_nil, or_false] at hx
    rcases hx with hx | hx | hx | hx <;> omega

theorem utf8EncodeChar_length_pos (cp : ℕ) : 1 ≤ (utf8EncodeChar cp).length := by
  unfold utf8EncodeChar
  split_ifs <;> simp

theorem codec_step (cp : ℕ) (h : ScalarCp cp) (rest : List ℕ) (fuel : ℕ) :
    scanChunkAux (fuel + 1) (utf8EncodeChar cp ++ rest)
      = ((utf8EncodeChar cp).length + (scanChunkAux fuel rest).1,
         (utf8EncodeChar cp).length + (scanChunkAux fuel rest).2)
    ∧ utf8DecodeAux (fuel + 1) (utf8EncodeChar cp ++ rest) = cp :: utf8DecodeAux fuel rest := by
  obtain ⟨h1, h2⟩ := h
  by_cases hA : cp < 0x80
  · rw [utf8EncodeChar_ascii hA]
    have hss : stepScan cp rest = (true, 1) := by
      simp only [stepScan]
      rw [if_pos hA]
    constructor
    · show scanChunkAux (fuel + 1) (cp :: rest) = _
      simp only [scanChunkAux]
      rw [hss]
      simp
    · show utf8DecodeAux (fuel + 1) (cp :: rest) = _
      simp only [utf8DecodeAux]
      rw [if_pos hA]
  · by_cases hB : cp < 0x800
    · rw [utf8EncodeChar_two (by omega) hB]
      have hss : stepScan (0xC0 + cp / 64) ((0x80 + cp % 64) :: rest) = (true, 2) := by
        simp only [stepScan, List.getD_cons_zero]
        rw [if_neg (by omega), if_pos (by omega), if_pos (isCont_add _ (by omega))]
      constructor
      · show scanChunkAux (fuel + 1) ((0xC0 + cp / 64) :: (0x80 + cp % 64) :: rest) = _
        simp only [scanChunkAux]
        rw [hss]
        simp
      · show utf8DecodeAux (fuel + 1) ((0xC0 + cp / 64) :: (0x80 + cp % 64) :: rest) = _
        simp only [utf8DecodeAux]
        rw [if_neg (by omega), if_pos (by omega)]
        have hd : (((0x80 + cp % 64) :: rest).drop 1) = rest := rfl
        have hg : ((0x80 + cp % 64) :: rest).getD 0 0 = 0x80 + cp % 64 := rfl
        rw [hd, hg]
        simp only [List.cons.injEq]
        exact ⟨by omega, trivial⟩
    · by_cases hC : cp < 0x10000
      · rw [utf8EncodeChar_three (by omega) hC]
        have hss : stepScan (0xE0 + cp / 4096)
            ((0x80 + cp / 64 % 64) :: (0x80 + cp % 64) :: rest) = (true, 3) := by
          simp only [stepScan]
          have hg0 : ((0x80 + cp / 64 % 64) :: (0x80 + cp % 64) :: rest).getD 0 0
              = 0x80 + cp / 64 % 64 := rfl
          have hg1 : ((0x80 + cp / 64 % 64) :: (0x80 + cp % 64) :: rest).getD 1 0
              = 0x80 + cp % 64 := rfl
          rw [hg0, hg1]
          rw [if_neg (by omega), if_neg (by omega), if_pos (by omega), if_pos (by omega),
            if_pos (isCont_add _ (by omega))]
        constructor
        · show scanChunkAux (fuel + 1)
              ((0xE0 + cp / 4096) :: (0x80 + cp / 64 % 64) :: (0x80 + cp % 64) :: rest) = _
          simp only [scanChunkAux]
          rw [hss]
          simp
        · show utf8DecodeAux (fuel + 1)
              ((0xE0 + cp / 4096) :: (0x80 + cp / 64 % 64) :: (0x80 + cp % 64) :: rest) = _
          simp only [utf8DecodeAux]
          rw [if_neg (by omega), if_neg (by omega), if_pos (by omega)]
          have hd : (((0x80 + cp / 64 % 64) :: (0x80 + cp % 64) :: rest).drop 2) = rest := rfl
          have hg0 : ((0x80 + cp / 64 % 64) :: (0x80 + cp % 64) :: rest).getD 0 0
              = 0x80 + cp / 64 % 64 := rfl
          have hg1 : ((0x80 + cp / 64 % 64) :: (0x80 + cp % 64) :: rest).getD 1 0
              = 0x80 + cp % 64 := rfl
          rw [hd, hg0, hg1]
          simp only [List.cons.injEq]
          exact ⟨by omega, trivial⟩
      · rw [utf8EncodeChar_four (by omega)]
        have hss : stepScan (0xF0 + cp / 262144)
            ((0x80 + cp / 4096 % 64) :: (0x80 + cp / 64 % 64) :: (0x80 + cp % 64) :: rest)
            = (true, 4) := by
          simp only [stepScan]
          have hg0 : ((0x80 + cp / 4096 % 64) :: (0x80 + cp / 64 % 64)
              :: (0x80 + cp % 64) :: rest).getD 0 0 = 0x80 + cp / 4096 % 64 := rfl
          have hg1 : ((0x80 + cp / 4096 % 64) :: (0x80 + cp / 64 % 64)
              :: (0x80 + cp % 64) :: rest).getD 1 0 = 0x80 + cp / 64 % 64 := rfl
          have hg2 : ((0x80 + cp / 4096 % 64) :: (0x80 + cp / 64 % 64)
              :: (0x80 + cp % 64) :: rest).getD 2 0 = 0x80 + cp % 64 := rfl
          rw [hg0, hg1, hg2]
          rw [if_neg (by omega), if_neg (by omega), if_neg (by omega), if_pos (by omega),
            if_pos (by omega), if_pos (isCont_add _ (by omega)),
            if_pos (isCont_add _ (by omega))]
        constructor
        · show scanChunkAux (fuel + 1) ((0xF0 + cp / 262144) :: (0x80 + cp / 4096 % 64)
              :: (0x80 + cp / 64 % 64) :: (0x80 + cp % 64) :: rest) = _
          simp only [scanChunkAux]
          rw [hss]
          simp
        · show utf8DecodeAux (fuel + 1) ((0xF0 + cp / 262144) :: (0x80 + cp / 4096 % 64)
              :: (0x80 + cp / 64 % 64) :: (0x80 + cp % 64) :: rest) = _
          simp only [utf8DecodeAux]
          rw [if_neg (by omega), if_neg (by omega), if_neg (by omega)]
          have hd : (((0x80 + cp / 4096 % 64) :: (0x80 + cp / 64 % 64)
              :: (0x80 + cp % 64) :: rest).drop 3) = rest := rfl
          have hg0 : ((0x80 + cp / 4096 % 64) :: (0x80 + cp / 64 % 64)
              :: (0x80 + cp % 64) :: rest).getD 0 0 = 0x80 + cp / 4096 % 64 := rfl
          have hg1 : ((0x80 + cp / 4096 % 64) :: (0x80 + cp / 64 % 64)
              :: (0x80 + cp % 64) :: rest).getD 1 0 = 0x80 + cp / 64 % 64 := rfl
          have hg2 : ((0x80 + cp / 4096 % 64) :: (0x80 + cp / 64 % 64)
              :: (0x80 + cp % 64) :: rest).getD 2 0 = 0x80 + cp % 64 := rfl
          rw [hd, hg0, hg1, hg2]
          simp only [List.cons.injEq]
          exact ⟨by omega, trivial⟩

theorem stepScan_sound (b : ℕ) (rest : List ℕ) (hb : b < 256)
    (hr : ∀ x ∈ rest, x < 256) (n : ℕ) (h : stepScan b rest = (true, n)) :
    ∃ cp, ScalarCp cp ∧ utf8EncodeChar cp = b :: rest.take (n - 1) := by
  simp only [stepScan] at h
  by_cases c1 : b < 0x80
  · rw [if_pos c1] at h
    have hn : (1 : ℕ) = n := congrArg Prod.snd h
    refine ⟨b, ⟨by omega, by omega⟩, ?_⟩
    rw [utf8EncodeChar_ascii c1, ← hn]
    rfl
  · rw [if_neg c1] at h
    by_cases c2 : 0xC2 ≤ b ∧ b ≤ 0xDF
    · rw [if_pos c2] at h
      by_cases c3 : isCont (rest.getD 0 0) = true
      · rw [if_pos c3] at h
        have hn : (2 : ℕ) = n := congrArg Prod.snd h
        match rest, hr, c3 with
        | [], _, c3 => exact absurd c3 (by decide)
        | r0 :: rest', hr, c3 =>
          have hr0 : r0 < 256 := hr r0 (by simp)
          rw [show ((r0 :: rest').getD 0 0) = r0 from rfl] at c3
          have hrange := (isCont_iff r0 hr0).mp c3
          refine ⟨(b - 0xC0) * 64 + (r0 - 0x80), ⟨by omega, by omega⟩, ?_⟩
          rw [utf8EncodeChar_two (by omega) (by omega), ← hn]
          rw [show ((r0 :: rest').take (2 - 1)) = [r0] from rfl]
          simp only [List.cons.injEq]
          exact ⟨by omega, by omega, trivial⟩
      · rw [if_neg c3] at h
        exact Bool.noConfusion (congrArg Prod.fst h)
    · rw [if_neg c2] at h
      by_cases c4 : 0xE0 ≤ b ∧ b ≤ 0xEF
      · rw [if_pos c4] at h
        by_cases c5 : (b = 0xE0 ∧ 0xA0 ≤ rest.getD 0 0 ∧ rest.getD 0 0 ≤ 0xBF)
            ∨ (0xE1 ≤ b ∧ b ≤ 0xEC ∧ 0x80 ≤ rest.getD 0 0 ∧ rest.getD 0 0 ≤ 0xBF)
            ∨ (b = 0xED ∧ 0x80 ≤ rest.getD 0 0 ∧ rest.getD 0 0 ≤ 0x9F)
            ∨ (0xEE ≤ b ∧ 0x80 ≤ rest.getD 0 0 ∧ rest.getD 0 0 ≤ 0xBF)
        · rw [if_pos c5] at h
          by_cases c6 : isCont (rest.getD 1 0) = true
          · rw [if_pos c6] at h
            have hn : (3 : ℕ) = n := congrArg Prod.snd h
            match rest, hr, c5, c6 with
            | [], _, c5, _ =>
              rw [List.getD_nil] at c5
              omega
            | [r0], _, _, c6 =>
              rw [show (([r0] : List ℕ).getD 1 0) = 0 from rfl] at c6
              exact absurd c6 (by decide)
            | r0 :: r1 :: rest', hr, c5, c6 =>
              have hr0 : r0 < 256 := hr r0 (by simp)
              have hr1 : r1 < 256 := hr r1 (by simp)
              rw [show ((r0 :: r1 :: rest').getD 0 0) = r0 from rfl] at c5
              rw [show ((r0 :: r1 :: rest').getD 1 0) = r1 from rfl] at c6
              have hrange := (isCont_iff r1 hr1).mp c6
              refine ⟨(b - 0xE0) * 4096 + (r0 - 0x80) * 64 + (r1 - 0x80),
                ⟨by omega, by omega⟩, ?_⟩
              rw [utf8EncodeChar_three (by omega) (by omega), ← hn]
              rw [show ((r0 :: r1 :: rest').take (3 - 1)) = [r0, r1] from rfl]
              simp only [List.cons.injEq]
              exact ⟨by omega, by omega, by omega, trivial⟩
          · rw [if_neg c6] at h
            exact Bool.noConfusion (congrArg Prod.fst h)
        · rw [if_neg c5] at h
          exact Bool.noConfusion (congrArg Prod.fst h)
      · rw [if_neg c4] at h
        by_cases c7 : 0xF0 ≤ b ∧ b ≤ 0xF4
        · rw [if_pos c7] at h
          by_cases c8 : (b = 0xF0 ∧ 0x90 ≤ rest.getD 0 0 ∧ rest.getD 0 0 ≤ 0xBF)
              ∨ (0xF1 ≤ b ∧ b ≤ 0xF3 ∧ 0x80 ≤ rest.getD 0 0 ∧ rest.getD 0 0 ≤ 0xBF)
              ∨ (b = 0xF4 ∧ 0x80 ≤ rest.getD 0 0 ∧ rest.getD 0 0 ≤ 0x8F)
          · rw [if_pos c8] at h
            by_cases c9 : isCont (rest.getD 1 0) = true
            · rw [if_pos c9] at h
              by_cases c10 : isCont (rest.getD 2 0) = true
              · rw [if_pos c10] at h
                have hn : (4 : ℕ) = n := congrArg Prod.snd h
                match rest, hr, c8, c9, c10 with
                | [], _, c8, _, _ =>
                  rw [List.getD_nil] at c8
                  omega
                | [r0], _, _, c9, _ =>
                  rw [show (([r0] : List ℕ).getD 1 0) = 0 from rfl] at c9
                  exact absurd c9 (by decide)
                | [r0, r1], _, _, _, c10 =>
                  rw [show (([r0, r1] : List ℕ).getD 2 0) = 0 from rfl] at c10
                  exact absurd c10 (by decide)
                | r0 :: r1 :: r2 :: rest', hr, c8, c9, c10 =>
                  have hr0 : r0 < 256 := hr r0 (by simp)
                  have hr1 : r1 < 256 := hr r1 (by simp)
                  have hr2 : r2 < 256 := hr r2 (by simp)
                  rw [show ((r0 :: r1 :: r2 :: rest').getD 0 0) = r0 from rfl] at c8
                  rw [show ((r0 :: r1 :: r2 :: rest').getD 1 0) = r1 from rfl] at c9
                  rw [show ((r0 :: r1 :: r2 :: rest').getD 2 0) = r2 from rfl] at c10
                  have hrange1 := (isCont_iff r1 hr1).mp c9
                  have hrange2 := (isCont_iff r2 hr2).mp c10
                  refine ⟨(b - 0xF0) * 262144 + (r0 - 0x80) * 4096 + (r1 - 0x80) * 64
                      + (r2 - 0x80), ⟨by omega, by omega⟩, ?_⟩
                  rw [utf8EncodeChar_four (by omega), ← hn]
                  rw [show ((r0 :: r1 :: r2 :: rest').take (4 - 1)) = [r0, r1, r2] from rfl]
                  simp only [List.cons.injEq]
                  exact ⟨by omega, by omega, by omega, by omega, trivial⟩
              · rw [if_neg c10] at h
                exact Bool.noConfusion (congrArg Prod.fst h)
            · rw [if_neg c9] at h
              exact Bool.noConfusion (congrArg Prod.fst h)
          · rw [if_neg c8] at h
            exact Bool.noConfusion (congrArg Prod.fst h)
        · rw [if_neg c7] at h
          exact Bool.noConfusion (congrArg Prod.fst h)

theorem flatMap_encode_length (L : List ℕ) :
    L.length ≤ (L.flatMap utf8EncodeChar).length := by
  induction L with
  | nil => simp
  | cons c L ih =>
    rw [List.flatMap_cons, List.length_append, List.length_cons]
    have := utf8EncodeChar_length_pos c
    omega

theorem scan_flatMap (L : List ℕ) : ∀ fuel, (∀ cp ∈ L, ScalarCp cp) → L.length ≤ fuel →
    scanChunkAux fuel (L.flatMap utf8EncodeChar)
      = ((L.flatMap utf8EncodeChar).length, (L.flatMap utf8EncodeChar).length) := by
  induction L with
  | nil => intro fuel _ _; cases fuel <;> simp [scanChunkAux]
  | cons c L ih =>
    intro fuel hsc hlen
    rw [List.length_cons] at hlen
    cases fuel with
    | zero => omega
    | succ fuel =>
      rw [List.flatMap_cons]
      rw [(codec_step c (hsc c (by simp)) (L.flatMap utf8EncodeChar) fuel).1]
      rw [ih fuel (fun cp hcp => hsc cp (by simp [hcp])) (by omega)]
      simp [List.length_append]

theorem decode_flatMap (L : List ℕ) : ∀ fuel, (∀ cp ∈ L, ScalarCp cp) → L.length ≤ fuel →
    utf8DecodeAux fuel (L.flatMap utf8EncodeChar) = L := by
  induction L with
  | nil => intro fuel _ _; cases fuel <;> simp [utf8DecodeAux]
  | cons c L ih =>
    intro fuel hsc hlen
    rw [List.length_cons] at hlen
    cases fuel with
    | zero => omega
    | succ fuel =>
      rw [List.flatMap_cons]
      rw [(codec_step c (hsc c (by simp)) (L.flatMap utf8EncodeChar) fuel).2]
      rw [ih fuel (fun cp hcp => hsc cp (by simp [hcp])) (by omega)]

theorem utf8Decode_flatMap (L : List ℕ) (h : ∀ cp ∈ L, ScalarCp cp) :
    utf8Decode (L.flatMap utf8EncodeChar) = some L := by
  unfold utf8Decode scanChunk utf8DecodeValid
  rw [scan_flatMap L _ h (flatMap_encode_length L)]
  rw [decode_flatMap L _ h (flatMap_encode_length L)]
  simp

theorem stepScan_pos (b : ℕ) (rest : List ℕ) : 1 ≤ (stepScan b rest).2 := by
  simp only [stepScan]
  split_ifs <;> simp

theorem scanChunkAux_le : ∀ (fuel : ℕ) (bs : List ℕ),
    (scanChunkAux fuel bs).1 ≤ (scanChunkAux fuel bs).2 := by
  intro fuel
  induction fuel with
  | zero => intro bs; simp [scanChunkAux]
  | succ fuel ih =>
    intro bs
    cases bs with
    | nil => simp [scanChunkAux]
    | cons b tl =>
      simp only [scanChunkAux]
      by_cases hb : (stepScan b tl).1 = true
      · rw [if_pos hb]
        dsimp only
        have := ih (tl.drop ((stepScan b tl).2 - 1))
        omega
      · rw [if_neg hb]
        dsimp only
        omega

theorem scanChunkAux_pos (fuel : ℕ) (b : ℕ) (tl : List ℕ) :
    1 ≤ (scanChunkAux (fuel + 1) (b :: tl)).2 := by
  simp only [scanChunkAux]
  have := stepScan_pos b tl
  by_cases hb : (stepScan b tl).1 = true
  · rw [if_pos hb]
    dsimp only
    omega
  · rw [if_neg hb]
    dsimp only
    omega

theorem scanChunkAux_spec : ∀ (fuel : ℕ) (bs : List ℕ), (∀ x ∈ bs, x < 256) →
    ∃ L : List ℕ, (∀ cp ∈ L, ScalarCp cp)
      ∧ bs.take (scanChunkAux fuel bs).1 = L.flatMap utf8EncodeChar := by
  intro fuel
  induction fuel with
  | zero => intro bs _; exact ⟨[], by simp, by simp [scanChunkAux]⟩
  | succ fuel ih =>
    intro bs hbs
    cases bs with
    | nil => exact ⟨[], by simp, by simp [scanChunkAux]⟩
    | cons b tl =>
      simp only [scanChunkAux]
      by_cases hb : (stepScan b tl).1 = true
      · rw [if_pos hb]
        dsimp only
        have hstep : stepScan b tl = (true, (stepScan b tl).2) := by
          rw [← hb]
        obtain ⟨cp, hcp, henc⟩ := stepScan_sound b tl (hbs b (by simp))
          (fun x hx => hbs x (by simp [hx])) _ hstep
        obtain ⟨L, hL, htake⟩ := ih (tl.drop ((stepScan b tl).2 - 1))
          (fun x hx => hbs x (List.mem_cons_of_mem _ (List.mem_of_mem_drop hx)))
        refine ⟨cp :: L, ?_, ?_⟩
        · intro c hc
          rcases List.mem_cons.mp hc with rfl | hc
          exacts [hcp, hL c hc]
        · rw [List.flatMap_cons, henc, ← htake]
          have hn := stepScan_pos b tl
          have harith : (stepScan b tl).2 + (scanChunkAux fuel
                (tl.drop ((stepScan b tl).2 - 1))).1
              = ((stepScan b tl).2 - 1 + (scanChunkAux fuel
                (tl.drop ((stepScan b tl).2 - 1))).1) + 1 := by omega
          rw [harith, List.take_succ_cons, List.take_add, List.cons_append]
      · rw [if_neg hb]
        dsimp only
        exact ⟨[], by simp, by simp⟩

theorem take_take_drop (l : List ℕ) (m n : ℕ) (hmn : m ≤ n) :
    l.take m ++ (l.take n).drop m = l.take n := by
  conv_lhs => rw [show l.take m = (l.take n).take m by rw [List.take_take, min_eq_left hmn]]
  exact List.take_append_drop m (l.take n)

theorem utf8ChunksAux_join : ∀ (fuel : ℕ) (bs : List ℕ), bs.length ≤ fuel →
    (utf8ChunksAux fuel bs).flatMap (fun ch => ch.1 ++ ch.2) = bs := by
  intro fuel
  induction fuel with
  | zero =>
    intro bs h
    have : bs = [] := List.eq_nil_of_length_eq_zero (by omega)
    rw [this]
    rfl
  | succ fuel ih =>
    intro bs h
    cases bs with
    | nil => rfl
    | cons b tl =>
      simp only [utf8ChunksAux, List.flatMap_cons]
      have hle : (scanChunk (b :: tl)).1 ≤ (scanChunk (b :: tl)).2 :=
        scanChunkAux_le (b :: tl).length (b :: tl)
      rw [take_take_drop (b :: tl) _ _ hle]
      have hpos : 1 ≤ (scanChunk (b :: tl)).2 := by
        show 1 ≤ (scanChunkAux (b :: tl).length (b :: tl)).2
        rw [List.length_cons]
        exact scanChunkAux_pos tl.length b tl
      rw [ih ((b :: tl).drop (scanChunk (b :: tl)).2)
        (by rw [List.length_drop, List.length_cons]; rw [List.length_cons] at h; omega)]
      exact List.take_append_drop _ (b :: tl)

theorem utf8ChunksAux_parts : ∀ (fuel : ℕ) (bs : List ℕ), (∀ x ∈ bs, x < 256) →
    ∀ ch ∈ utf8ChunksAux fuel bs,
      (∃ L : List ℕ, (∀ cp ∈ L, ScalarCp cp) ∧ ch.1 = L.flatMap utf8EncodeChar)
      ∧ (∀ x ∈ ch.2, x < 256) := by
  intro fuel
  induction fuel with
  | zero => intro bs _ ch hch; exact absurd hch (by simp [utf8ChunksAux])
  | succ fuel ih =>
    intro bs hbs ch hch
    cases bs with
    | nil => exact absurd hch (by simp [utf8ChunksAux])
    | cons b tl =>
      simp only [utf8ChunksAux] at hch
      rcases List.mem_cons.mp hch with rfl | hch
      · constructor
        · obtain ⟨L, hL, htake⟩ := scanChunkAux_spec (b :: tl).length (b :: tl) hbs
          exact ⟨L, hL, htake⟩
        · intro x hx
          exact hbs x (List.mem_of_mem_take (List.mem_of_mem_drop hx))
      · exact ih ((b :: tl).drop (scanChunk (b :: tl)).2)
          (fun x hx => hbs x (List.mem_of_mem_drop hx)) ch hch

theorem flatMap_map_eq {α β γ : Type} (f : α → β) (g : β → List γ) :
    ∀ l : List α, (l.map f).flatMap g = l.flatMap (fun x => g (f x)) := by
  intro l
  induction l with
  | nil => rfl
  | cons a l ih => rw [List.map_cons, List.flatMap_cons, List.flatMap_cons, ih]

theorem flatMap_id_eq {α : Type} : ∀ l : List α, l.flatMap (fun x => [x]) = l := by
  intro l
  induction l with
  | nil => rfl
  | cons a l ih => rw [List.flatMap_cons, ih]; rfl

theorem flatMap_congr_mem {α β : Type} {l : List α} {f g : α → List β}
    (h : ∀ a ∈ l, f a = g a) : l.flatMap f = l.flatMap g := by
  induction l with
  | nil => rfl
  | cons a l ih =>
    rw [List.flatMap_cons, List.flatMap_cons, h a (by simp),
      ih (fun x hx => h x (by simp [hx]))]

theorem flatMap_append_eq {α β : Type} (l1 l2 : List α) (f : α → List β) :
    (l1 ++ l2).flatMap f = l1.flatMap f ++ l2.flatMap f := by
  induction l1 with
  | nil => rfl
  | cons a l ih =>
    rw [List.cons_append, List.flatMap_cons, List.flatMap_cons, ih, List.append_assoc]

theorem flatMap_flatMap {α β γ : Type} (l : List α) (f : α → List β) (g : β → List γ) :
    (l.flatMap f).flatMap g = l.flatMap (fun x => (f x).flatMap g) := by
  induction l with
  | nil => rfl
  | cons a l ih =>
    rw [List.flatMap_cons, List.flatMap_cons, flatMap_append_eq, ih]

theorem utf8DecodeValid_of_parts {ch1 : List ℕ} {L : List ℕ} (hL : ∀ cp ∈ L, ScalarCp cp)
    (hch1 : ch1 = L.flatMap utf8EncodeChar) : utf8DecodeValid ch1 = L := by
  unfold utf8DecodeValid
  rw [hch1]
  exact decode_flatMap L _ hL (flatMap_encode_length L)

theorem codec_chunks_spec (bs : List ℕ) (h : ∀ x ∈ bs, x < 256) :
    bytes_to_utf8 bs = (specForwardCps bs).flatMap utf8EncodeChar
      ∧ (∀ cp ∈ specForwardCps bs, ScalarCp cp)
      ∧ utf8_to_bytes (specForwardCps bs) = bs := by
  have hparts := utf8ChunksAux_parts bs.length bs h
  refine ⟨?_, ?_, ?_⟩
  · unfold bytes_to_utf8 specForwardCps utf8Chunks
    rw [flatMap_flatMap]
    apply flatMap_congr_mem
    intro ch hch
    obtain ⟨⟨L, hL, hch1⟩, hch2⟩ := hparts ch hch
    rw [utf8DecodeValid_of_parts hL hch1]
    rw [flatMap_append_eq, flatMap_flatMap, flatMap_map_eq]
    congr 1
    apply flatMap_congr_mem
    intro cp hcp
    unfold escapeCpBytes
    by_cases hp : PUA_START ≤ cp ∧ cp ≤ PUA_START + 0xFF
    · rw [if_pos hp, if_pos hp, flatMap_map_eq]
    · rw [if_neg hp, if_neg hp]
      simp only [List.flatMap_cons, List.flatMap_nil, List.append_nil]
  · intro cp hcp
    unfold specForwardCps utf8Chunks at hcp
    rw [List.mem_flatMap] at hcp
    obtain ⟨ch, hch, hcpch⟩ := hcp
    obtain ⟨⟨L, hL, hch1⟩, hch2⟩ := hparts ch hch
    rw [utf8DecodeValid_of_parts hL hch1] at hcpch
    rw [List.mem_append] at hcpch
    have hP : PUA_START = 0xE000 := rfl
    rcases hcpch with hcp1 | hcp2
    · rw [List.mem_flatMap] at hcp1
      obtain ⟨c, hc, hcpc⟩ := hcp1
      have hscc := hL c hc
      by_cases hp : PUA_START ≤ c ∧ c ≤ PUA_START + 0xFF
      · rw [if_pos hp, List.mem_map] at hcpc
        obtain ⟨x, hx, rfl⟩ := hcpc
        have hx256 := utf8EncodeChar_lt hscc.1 x hx
        exact ⟨by omega, by omega⟩
      · rw [if_neg hp, List.mem_singleton] at hcpc
        rw [hcpc]
        exact hscc
    · rw [List.mem_map] at hcp2
      obtain ⟨x, hx, rfl⟩ := hcp2
      have hx256 := hch2 x hx
      exact ⟨by omega, by omega⟩
  · unfold specForwardCps utf8Chunks utf8_to_bytes
    rw [flatMap_flatMap]
    refine Eq.trans ?_ (utf8ChunksAux_join bs.length bs le_rfl)
    apply flatMap_congr_mem
    intro ch hch
    obtain ⟨⟨L, hL, hch1⟩, hch2⟩ := hparts ch hch
    rw [utf8DecodeValid_of_parts hL hch1]
    rw [flatMap_append_eq, flatMap_flatMap, flatMap_map_eq]
    congr 1
    · rw [hch1]
      apply flatMap_congr_mem
      intro cp hcp
      have hscc := hL cp hcp
      by_cases hp : PUA_START ≤ cp ∧ cp ≤ PUA_START + 0xFF
      · rw [if_pos hp, flatMap_map_eq]
        refine Eq.trans (flatMap_congr_mem ?_) (flatMap_id_eq _)
        intro x hx
        have hx256 := utf8EncodeChar_lt hscc.1 x hx
        rw [if_pos ⟨by omega, by omega⟩, Nat.add_sub_cancel_left]
      · rw [if_neg hp]
        simp only [List.flatMap_cons, List.flatMap_nil, List.append_nil, if_neg hp]
    · refine Eq.trans (flatMap_congr_mem ?_) (flatMap_id_eq _)
      intro x hx
      have hx256 := hch2 x hx
      rw [if_pos ⟨by omega, by omega⟩, Nat.add_sub_cancel_left]

/-- **C3.** For every byte sequence, `bytes_to_utf8` produces exactly the UTF-8
encoding of the code-point sequence described by the spec (`specForwardCps`:
per valid chunk, code points in `U+E000..U+E0FF` are re-escaped byte-wise as
`U+E000 + x`, all others pass through; per invalid byte `x`, `U+E000 + x` is
emitted), and the output is valid UTF-8 (strict decoding succeeds, yielding
those code points). -/
theorem bytes_to_utf8_spec (bs : List ℕ) (h : ∀ x ∈ bs, x < 256) :
    bytes_to_utf8 bs = (specForwardCps bs).flatMap utf8EncodeChar
      ∧ utf8Decode (bytes_to_utf8 bs) = some (specForwardCps bs) := by
  obtain ⟨h1, h2, h3⟩ := codec_chunks_spec bs h
  refine ⟨h1, ?_⟩
  rw [h1]
  exact utf8Decode_flatMap _ h2

/-- Witness for `bytes_to_utf8_spec`: the input `[72, 255, 238, 128, 128]`
(an ASCII byte, an invalid byte, and the UTF-8 encoding of the escape-range
code point U+E000). -/
theorem bytes_to_utf8_spec_witness :
    bytes_to_utf8 [72, 255, 238, 128, 128]
        = (specForwardCps [72, 255, 238, 128, 128]).flatMap utf8EncodeChar
      ∧ utf8Decode (bytes_to_utf8 [72, 255, 238, 128, 128])
        = some (specForwardCps [72, 255, 238, 128, 128]) :=
  bytes_to_utf8_spec [72, 255, 238, 128, 128] (by decide)

/-- **C2.** Byte-to-text codec round-trip: for every byte sequence `bs`
(elements `< 256`, including empty input, invalid UTF-8 runs, and valid
encodings of `U+E000..U+E0FF`), strict UTF-8 decoding of `bytes_to_utf8 bs`
succeeds and `utf8_to_bytes` of the decoded code points returns exactly
`bs`. -/
theorem codec_round_trip (bs : List ℕ) (h : ∀ x ∈ bs, x < 256) :
    Option.map utf8_to_bytes (utf8Decode (bytes_to_utf8 bs)) = some bs := by
  obtain ⟨h1, h2, h3⟩ := codec_chunks_spec bs h
  rw [h1, utf8Decode_flatMap _ h2]
  rw [Option.map_some']
  rw [h3]

/-- Witness for `codec_round_trip`: a byte string mixing ASCII, an invalid
continuation byte, and a valid encoding of the escape-range code point
U+E000 round-trips. -/
theorem codec_round_trip_witness :
    Option.map utf8_to_bytes (utf8Decode (bytes_to_utf8 [65, 128, 238, 128, 128, 196, 165]))
      = some [65, 128, 238, 128, 128, 196, 165] :=
  codec_round_trip [65, 128, 238, 128, 128, 196, 165] (by decide)

/-! ## C1: round-trip of the arithmetic coder.  Rational-valued views of the
bit stream and the pending-underflow correction. -/

theorem hmap_zero (x : ℚ) : hmap 0 x = x := by
  unfold hmap
  ring

theorem hmap_succ (u : ℕ) (x : ℚ) : hmap (u + 1) x = 2 * hmap u x - 1 / 2 := by
  unfold hmap
  rw [pow_succ]
  ring

theorem bitsVal_nil : bitsVal [] = 0 := rfl

theorem bitsVal_cons (b : ℕ) (T : List ℕ) :
    bitsVal (b :: T) = ((b : ℚ) + bitsVal T) / 2 := rfl

theorem bitsVal_nonneg (L : List ℕ) : 0 ≤ bitsVal L := by
  induction L with
  | nil => exact le_refl 0
  | cons b T ih =>
    rw [bitsVal_cons]
    have hb : (0 : ℚ) ≤ (b : ℚ) := Nat.cast_nonneg b
    linarith

theorem bitsVal_lt_one (L : List ℕ) (h : IsBits L) : bitsVal L < 1 := by
  induction L with
  | nil => norm_num [bitsVal_nil]
  | cons b T ih =>
    rw [bitsVal_cons]
    have hb : (b : ℚ) ≤ 1 := by
      have := h b (by simp)
      exact_mod_cast this
    have hT : bitsVal T < 1 := ih (fun x hx => h x (by simp [hx]))
    linarith

theorem bitsVal_replicate_append (u : ℕ) (x : ℕ) (R : List ℕ) :
    bitsVal (List.replicate u x ++ R)
      = (x : ℚ) * (1 - 1 / 2 ^ u) + bitsVal R / 2 ^ u := by
  induction u with
  | zero => simp [List.replicate]
  | succ u ih =>
    rw [List.replicate_succ, List.cons_append, bitsVal_cons, ih]
    have h2 : (2 : ℚ) ^ u ≠ 0 := pow_ne_zero _ two_ne_zero
    field_simp
    ring

theorem hmap_shift_stream (u : ℕ) (b : ℕ) (G : List ℕ) (hb : b ≤ 1) :
    hmap u (bitsVal (b :: (List.replicate u (b ^^^ 1) ++ G)))
      = ((b : ℚ) + bitsVal G) / 2 := by
  have h2 : (2 : ℚ) ^ u ≠ 0 := pow_ne_zero _ two_ne_zero
  rcases Nat.le_one_iff_eq_zero_or_eq_one.mp hb with rfl | rfl
  · rw [show (0 ^^^ 1 : ℕ) = 1 from rfl]
    rw [bitsVal_cons, bitsVal_replicate_append]
    unfold hmap
    push_cast
    field_simp
    ring
  · rw [show (1 ^^^ 1 : ℕ) = 0 from rfl]
    rw [bitsVal_cons, bitsVal_replicate_append]
    unfold hmap
    push_cast
    field_simp
    ring

theorem bitsVal_drop_succ (L : List ℕ) (k : ℕ) :
    bitsVal (L.drop k) = ((L.getD k 0 : ℚ) + bitsVal (L.drop (k + 1))) / 2 := by
  rcases hL : L.drop k with _ | ⟨a, t⟩
  · have hlen : L.length ≤ k := by
      by_contra hcon
      push_neg at hcon
      have := List.length_drop k L
      rw [hL] at this
      simp at this
      omega
    rw [List.getD_eq_default _ _ hlen]
    have h1 : L.drop (k + 1) = [] := List.drop_eq_nil_of_le (by omega)
    rw [h1]
    norm_num [bitsVal_nil]
  · have hget : L.getD k 0 = a := by
      have h1 : (L.drop k).getD 0 0 = a := by rw [hL]; rfl
      rw [← h1]
      unfold List.getD
      rw [List.get?_drop, Nat.add_zero]
    have hdrop : L.drop (k + 1) = t := by
      have h1 : (L.drop k).drop 1 = t := by rw [hL]; rfl
      rw [← h1, List.drop_drop]
    rw [hget, hdrop, ← bitsVal_cons]

theorem getD_append_len (l1 l2 : List ℕ) (n : ℕ) :
    (l1 ++ l2).getD (l1.length + n) 0 = l2.getD n 0 := by
  induction l1 with
  | nil => simp
  | cons a t ih =>
    rw [List.cons_append, List.length_cons]
    rw [show t.length + 1 + n = (t.length + n) + 1 by omega]
    rw [show ((a :: (t ++ l2)).getD ((t.length + n) + 1) 0) = (t ++ l2).getD (t.length + n) 0
      from rfl]
    exact ih

theorem drop_append_len (l1 l2 : List ℕ) (n : ℕ) :
    (l1 ++ l2).drop (l1.length + n) = l2.drop n := by
  induction l1 with
  | nil => simp
  | cons a t ih =>
    rw [List.cons_append, List.length_cons]
    rw [show t.length + 1 + n = (t.length + n) + 1 by omega]
    rw [List.drop_succ_cons]
    exact ih

theorem readCodeBit_cursor (d1 d2 : Decoder) (h1 : d1.input = d2.input)
    (h2 : d1.byteIndex = d2.byteIndex) (h3 : d1.bitIndex = d2.bitIndex) :
    (readCodeBit d1).1 = (readCodeBit d2).1 ∧
      (readCodeBit d1).2.input = (readCodeBit d2).2.input ∧
      (readCodeBit d1).2.byteIndex = (readCodeBit d2).2.byteIndex ∧
      (readCodeBit d1).2.bitIndex = (readCodeBit d2).2.bitIndex := by
  unfold readCodeBit
  rw [h1, h2, h3]
  by_cases h : d2.input.length ≤ d2.byteIndex
  · rw [if_pos h, if_pos h]
    exact ⟨rfl, h1, h2, h3⟩
  · rw [if_neg h, if_neg h]
    exact ⟨rfl, rfl, rfl, rfl⟩

theorem readStream_congr : ∀ (j : ℕ) (d1 d2 : Decoder), d1.input = d2.input →
    d1.byteIndex = d2.byteIndex → d1.bitIndex = d2.bitIndex →
    readStream d1 j = readStream d2 j := by
  intro j
  induction j with
  | zero =>
    intro d1 d2 h1 h2 h3
    exact (readCodeBit_cursor d1 d2 h1 h2 h3).1
  | succ j ih =>
    intro d1 d2 h1 h2 h3
    have hc := readCodeBit_cursor d1 d2 h1 h2 h3
    show readStream (readCodeBit d1).2 j = readStream (readCodeBit d2).2 j
    exact ih (readCodeBit d1).2 (readCodeBit d2).2 hc.2.1 hc.2.2.1 hc.2.2.2

theorem readStream_decShift (d : Decoder) (j : ℕ) :
    readStream (decShift d) j = readStream d (j + 1) :=
  readStream_congr j (decShift d) (readCodeBit d).2 rfl rfl rfl

theorem readStream_decUnderflow (d : Decoder) (j : ℕ) :
    readStream (decUnderflow d) j = readStream d (j + 1) :=
  readStream_congr j (decUnderflow d) (readCodeBit d).2 rfl rfl rfl

theorem readStream_readCode : ∀ (n acc : ℕ) (d : Decoder) (j : ℕ),
    readStream (readCode n acc d).2 j = readStream d (n + j) := by
  intro n
  induction n with
  | zero =>
    intro acc d j
    rw [Nat.zero_add]
    rfl
  | succ n ih =>
    intro acc d j
    show readStream (readCode n (2 * acc + (readCodeBit d).1) (readCodeBit d).2).2 j = _
    rw [ih]
    show readStream (readCodeBit d).2 (n + j) = readStream d (n + 1 + j)
    have h1 : readStream d (n + j + 1) = readStream (readCodeBit d).2 (n + j) := rfl
    rw [← h1]
    rw [show n + j + 1 = n + 1 + j by omega]

theorem byteBitAt_zero_beyond (data : List ℕ) (n : ℕ) (h : data.length ≤ n / 8) :
    byteBitAt data n = 0 := by
  unfold byteBitAt
  rw [List.getD_eq_default _ _ h]
  simp

theorem readStream_pos : ∀ (j : ℕ) (d : Decoder), d.bitIndex < 8 →
    readStream d j = byteBitAt d.input (8 * d.byteIndex + d.bitIndex + j) := by
  intro j
  induction j with
  | zero =>
    intro d hbi
    show (readCodeBit d).1 = _
    unfold readCodeBit byteBitAt
    by_cases h : d.input.length ≤ d.byteIndex
    · rw [if_pos h]
      rw [List.getD_eq_default _ _ (by
        have : (8 * d.byteIndex + d.bitIndex + 0) / 8 = d.byteIndex := by omega
        omega)]
      simp
    · rw [if_neg h]
      have hd : (8 * d.byteIndex + d.bitIndex + 0) / 8 = d.byteIndex := by omega
      have hm : (8 * d.byteIndex + d.bitIndex + 0) % 8 = d.bitIndex := by omega
      rw [hd, hm]
  | succ j ih =>
    intro d hbi
    show readStream (readCodeBit d).2 j = _
    by_cases h : d.input.length ≤ d.byteIndex
    · have hfr : (readCodeBit d).2 = d := by
        unfold readCodeBit
        rw [if_pos h]
      rw [hfr, ih d hbi]
      rw [byteBitAt_zero_beyond _ _ (by omega), byteBitAt_zero_beyond _ _ (by omega)]
    · have h2 : (readCodeBit d).2 = { d with
          bitIndex := (d.bitIndex + 1) % 8
          byteIndex := if (d.bitIndex + 1) % 8 = 0 then d.byteIndex + 1 else d.byteIndex } := by
        unfold readCodeBit
        rw [if_neg h]
      rw [h2]
      rw [ih _ (Nat.mod_lt _ (by omega))]
      show byteBitAt d.input _ = byteBitAt d.input _
      congr 1
      by_cases h8 : d.bitIndex = 7
      · have hmod : (d.bitIndex + 1) % 8 = 0 := by omega
        show 8 * (if (d.bitIndex + 1) % 8 = 0 then d.byteIndex + 1 else d.byteIndex)
            + (d.bitIndex + 1) % 8 + j = _
        rw [hmod, if_pos rfl]
        omega
      · have hmod : (d.bitIndex + 1) % 8 = d.bitIndex + 1 := by omega
        show 8 * (if (d.bitIndex + 1) % 8 = 0 then d.byteIndex + 1 else d.byteIndex)
            + (d.bitIndex + 1) % 8 + j = _
        rw [hmod, if_neg (by omega)]
        omega

theorem readCode_bitsVal : ∀ (n acc : ℕ) (d : Decoder) (L : List ℕ) (k : ℕ),
    (∀ j, readStream d j = L.getD (k + j) 0) →
    ((readCode n acc d).1 : ℚ) + bitsVal (L.drop (k + n))
      = 2 ^ n * ((acc : ℚ) + bitsVal (L.drop k)) := by
  intro n
  induction n with
  | zero =>
    intro acc d L k h
    rw [Nat.add_zero]
    show ((acc : ℚ)) + bitsVal (L.drop k) = _
    ring
  | succ n ih =>
    intro acc d L k h
    have hr : (readCodeBit d).1 = L.getD k 0 := by
      have := h 0
      rw [Nat.add_zero] at this
      exact this
    have hstream : ∀ j, readStream (readCodeBit d).2 j = L.getD (k + 1 + j) 0 := by
      intro j
      have h1 : readStream d (j + 1) = L.getD (k + (j + 1)) 0 := h (j + 1)
      rw [show k + 1 + j = k + (j + 1) by omega]
      exact h1
    have hrec := ih (2 * acc + (readCodeBit d).1) (readCodeBit d).2 L (k + 1) hstream
    show ((readCode n (2 * acc + (readCodeBit d).1) (readCodeBit d).2).1 : ℚ)
        + bitsVal (L.drop (k + (n + 1))) = _
    rw [show k + (n + 1) = k + 1 + n by omega]
    rw [hrec, hr]
    rw [bitsVal_drop_succ L k]
    push_cast
    ring

theorem opsRel_shift_bits : ∀ {st st' : CoderState} {ops : List RenormOp},
    OpsRel st ops st' → st.low < FULL_RANGE →
    ∀ b, RenormOp.shift b ∈ ops → b ≤ 1 := by
  intro st st' ops h
  induction h with
  | nil => intro _ b hb; exact absurd hb (List.not_mem_nil _)
  | shift st0 st1 ops hg h ih =>
    intro hlF b hb
    rcases List.mem_cons.mp hb with heq | hb
    · have hbit : b = shiftBit st0 := by
        injection heq
      rw [hbit]
      show st0.low / HALF_RANGE ≤ 1
      rw [HALF_RANGE_eq]
      rw [FULL_RANGE_eq] at hlF
      omega
    · apply ih _ b hb
      show 2 * st0.low % FULL_RANGE < FULL_RANGE
      exact Nat.mod_lt _ (by rw [FULL_RANGE_eq]; positivity)
  | underflow st0 st1 ops hl63 hh63 hl62 hh62 h ih =>
    intro hlF b hb
    rcases List.mem_cons.mp hb with heq | hb
    · exact absurd heq (by simp)
    · apply ih _ b hb
      rw [testBit_false_iff_div_mod] at hl63
      rw [testBit_iff_div_mod] at hl62
      rw [FULL_RANGE_eq] at hlF ⊢
      have hlo : 2 ^ 62 ≤ st0.low ∧ st0.low < 2 ^ 63 := by omega
      show (2 * st0.low) ^^^ HALF_RANGE < 2 ^ 64
      rw [HALF_RANGE_eq]
      have h2l : 2 * st0.low = 2 ^ 63 + (2 * st0.low - 2 ^ 63) := by omega
      rw [h2l, add_two_pow_xor (by omega)]
      omega

theorem emitOps_isBits : ∀ (ops : List RenormOp) (u : ℕ),
    (∀ b, RenormOp.shift b ∈ ops → b ≤ 1) → IsBits (emitOps u ops).1 := by
  intro ops
  induction ops with
  | nil => intro u _ x hx; exact absurd hx (List.not_mem_nil _)
  | cons op rest ih =>
    intro u hall
    cases op with
    | shift b =>
      have hb : b ≤ 1 := hall b (by simp)
      have hxb : b ^^^ 1 ≤ 1 := by
        rcases Nat.le_one_iff_eq_zero_or_eq_one.mp hb with rfl | rfl <;> decide
      intro x hx
      show x ≤ 1
      have hx2 : x ∈ (b :: (List.replicate u (b ^^^ 1) ++ (emitOps 0 rest).1)) := hx
      rcases List.mem_cons.mp hx2 with rfl | hx3
      · exact hb
      · rcases List.mem_append.mp hx3 with hx4 | hx4
        · rw [List.eq_of_mem_replicate hx4]
          exact hxb
        · exact ih 0 (fun b' hb' => hall b' (by simp [hb'])) x hx4
    | underflow =>
      intro x hx
      exact ih (u + 1) (fun b' hb' => hall b' (by simp [hb'])) x hx

theorem futureBits_isBits : ∀ (pairs : List (List ℕ × ℕ)) (st : CoderState) (u : ℕ),
    Stable st →
    (∀ p ∈ pairs, Cdf.Wf p.1 ∧ InSupport p.1 p.2 ∧ cdfTotal p.1 ≤ QUARTER_RANGE) →
    IsBits (futureBits st u pairs) := by
  intro pairs
  induction pairs with
  | nil =>
    intro st u _ _ x hx
    rcases List.mem_singleton.mp hx with rfl
    exact le_refl 1
  | cons p rest ih =>
    intro st u hst hwf
    have hp := hwf p (List.mem_cons_self _ _)
    have hstep := update_stable st p.1 p.2 hst hp.1 hp.2.1 hp.2.2
    have hlF : (scaleState st p.1 p.2).low < FULL_RANGE := by
      obtain ⟨_, hhH, hhF, _⟩ := hst
      exact lt_of_le_of_lt (le_trans hstep.2.2.2.1 hstep.2.2.2.2) hhF
    have hbits := opsRel_shift_bits hstep.1 hlF
    have hem := emitOps_isBits (update st p.1 p.2).2 u hbits
    have hrest := ih (update st p.1 p.2).1 (emitOps u (update st p.1 p.2).2).2
      hstep.2.1 (fun q hq => hwf q (List.mem_cons_of_mem _ hq))
    intro x hx
    have hx2 : x ∈ (emitOps u (update st p.1 p.2).2).1
        ++ futureBits (update st p.1 p.2).1 (emitOps u (update st p.1 p.2).2).2 rest := hx
    rcases List.mem_append.mp hx2 with hx3 | hx3
    · exact hem x hx3
    · exact hrest x hx3

theorem opsRel_val : ∀ {st st' : CoderState} {ops : List RenormOp}, OpsRel st ops st' →
    st.low < FULL_RANGE → st.high < FULL_RANGE →
    ∀ (u : ℕ) (F : List ℕ),
      ((st'.low : ℚ) ≤ 2 ^ 64 * hmap (emitOps u ops).2 (bitsVal F) ∧
        2 ^ 64 * hmap (emitOps u ops).2 (bitsVal F) < (st'.high : ℚ) + 1) →
      (st.low : ℚ) ≤ 2 ^ 64 * hmap u (bitsVal ((emitOps u ops).1 ++ F)) ∧
        2 ^ 64 * hmap u (bitsVal ((emitOps u ops).1 ++ F)) < (st.high : ℚ) + 1 := by
  intro st st' ops h
  induction h with
  | nil =>
    intro _ _ u F hbound
    have h1 : (emitOps u ([] : List RenormOp)).1 ++ F = F := rfl
    have h2 : (emitOps u ([] : List RenormOp)).2 = u := rfl
    rw [h1]
    rw [h2] at hbound
    exact hbound
  | shift st0 st1 ops hg h ih =>
    intro hlF hhF u F hbound
    obtain ⟨hb1, hlow, hhigh, hiff1, hiff2⟩ := shift_op_facts st0 hlF hhF hg
    have hlF2 : (e12Step st0).low < FULL_RANGE := by
      show 2 * st0.low % FULL_RANGE < FULL_RANGE
      exact Nat.mod_lt _ (by rw [FULL_RANGE_eq]; positivity)
    have hhF2 : (e12Step st0).high < FULL_RANGE := by
      show 2 * st0.high % FULL_RANGE + 1 < FULL_RANGE
      rw [FULL_RANGE_eq]
      omega
    have hbF : shiftBit st0 * FULL_RANGE ≤ 2 * st0.low := by
      rcases Nat.le_one_iff_eq_zero_or_eq_one.mp hb1 with h0 | h1
      · rw [h0]; omega
      · have := hiff1.mp h1
        rw [h1, one_mul, FULL_RANGE_eq]
        rw [HALF_RANGE_eq] at this
        omega
    have hbFh : shiftBit st0 * FULL_RANGE ≤ 2 * st0.high := by
      rcases Nat.le_one_iff_eq_zero_or_eq_one.mp hb1 with h0 | h1
      · rw [h0]; omega
      · have := hiff2.mp h1
        rw [h1, one_mul, FULL_RANGE_eq]
        rw [HALF_RANGE_eq] at this
        omega
    have hlowN : (e12Step st0).low + shiftBit st0 * FULL_RANGE = 2 * st0.low := by
      omega
    have hhighN : (e12Step st0).high + shiftBit st0 * FULL_RANGE = 2 * st0.high + 1 := by
      omega
    rw [FULL_RANGE_eq] at hlowN hhighN
    have hlowQ : ((e12Step st0).low : ℚ) + (shiftBit st0 : ℚ) * 2 ^ 64
        = 2 * (st0.low : ℚ) := by
      exact_mod_cast hlowN
    have hhighQ : ((e12Step st0).high : ℚ) + (shiftBit st0 : ℚ) * 2 ^ 64
        = 2 * (st0.high : ℚ) + 1 := by
      exact_mod_cast hhighN
    have hrec := ih hlF2 hhF2 0 F hbound
    rw [hmap_zero] at hrec
    have hG : (emitOps u (RenormOp.shift (shiftBit st0) :: ops)).1 ++ F
        = shiftBit st0 :: (List.replicate u (shiftBit st0 ^^^ 1)
            ++ ((emitOps 0 ops).1 ++ F)) := by
      show (shiftBit st0 :: (List.replicate u (shiftBit st0 ^^^ 1) ++ (emitOps 0 ops).1)) ++ F
        = _
      rw [List.cons_append, List.append_assoc]
    have hW : 2 ^ 64 * hmap u (bitsVal ((emitOps u (RenormOp.shift (shiftBit st0) :: ops)).1 ++ F))
        = ((shiftBit st0 : ℚ) * 2 ^ 64 + 2 ^ 64 * bitsVal ((emitOps 0 ops).1 ++ F)) / 2 := by
      rw [hG, hmap_shift_stream u (shiftBit st0) ((emitOps 0 ops).1 ++ F) hb1]
      ring
    rw [hW]
    constructor
    · linarith [hrec.1]
    · linarith [hrec.2]
  | underflow st0 st1 ops hl63 hh63 hl62 hh62 h ih =>
    intro hlF hhF u F hbound
    obtain ⟨hQ, hlH, hhH, hh3Q, hlow, hhigh⟩ :=
      underflow_op_facts st0 hlF hhF hl63 hh63 hl62 hh62
    rw [QUARTER_RANGE_eq] at hQ hh3Q
    rw [HALF_RANGE_eq] at hlH hhH hlow hhigh
    have hlF2 : (e3Step st0).low < FULL_RANGE := by
      rw [hlow, FULL_RANGE_eq]
      omega
    have hhF2 : (e3Step st0).high < FULL_RANGE := by
      rw [hhigh, FULL_RANGE_eq]
      omega
    have hlowN : (e3Step st0).low + 2 ^ 63 = 2 * st0.low := by
      rw [hlow]
      omega
    have hhighN : (e3Step st0).high + 2 ^ 63 = 2 * st0.high + 1 := by
      rw [hhigh]
      omega
    have hlowQ : ((e3Step st0).low : ℚ) + 2 ^ 63 = 2 * (st0.low : ℚ) := by
      exact_mod_cast hlowN
    have hhighQ : ((e3Step st0).high : ℚ) + 2 ^ 63 = 2 * (st0.high : ℚ) + 1 := by
      exact_mod_cast hhighN
    have hrec := ih hlF2 hhF2 (u + 1) F hbound
    have hsucc : 2 ^ 64 * hmap (u + 1) (bitsVal ((emitOps (u + 1) ops).1 ++ F))
        = 2 * (2 ^ 64 * hmap u (bitsVal ((emitOps (u + 1) ops).1 ++ F))) - 2 ^ 63 := by
      rw [hmap_succ]
      ring
    rw [hsucc] at hrec
    have he1 : (emitOps u (RenormOp.underflow :: ops)).1 = (emitOps (u + 1) ops).1 := rfl
    rw [he1]
    constructor
    · linarith [hrec.1]
    · linarith [hrec.2]

theorem futureBits_val : ∀ (pairs : List (List ℕ × ℕ)) (st : CoderState) (u : ℕ),
    Stable st →
    (∀ p ∈ pairs, Cdf.Wf p.1 ∧ InSupport p.1 p.2 ∧ cdfTotal p.1 ≤ QUARTER_RANGE) →
    ((st.low : ℚ) ≤ 2 ^ 64 * hmap u (bitsVal (futureBits st u pairs)) ∧
      2 ^ 64 * hmap u (bitsVal (futureBits st u pairs)) < (st.high : ℚ) + 1) ∧
    ∀ c s rest, pairs = (c, s) :: rest →
      (((scaleState st c s).low : ℚ) ≤ 2 ^ 64 * hmap u (bitsVal (futureBits st u pairs)) ∧
        2 ^ 64 * hmap u (bitsVal (futureBits st u pairs)) < ((scaleState st c s).high : ℚ) + 1) := by
  intro pairs
  induction pairs with
  | nil =>
    intro st u hst _
    have hval : hmap u (bitsVal (futureBits st u [])) = 1 / 2 := by
      show hmap u (bitsVal [1]) = 1 / 2
      rw [bitsVal_cons, bitsVal_nil]
      unfold hmap
      push_cast
      ring
    obtain ⟨hl, hh, _, _⟩ := hst
    rw [HALF_RANGE_eq] at hl hh
    refine ⟨⟨?_, ?_⟩, ?_⟩
    · rw [hval]
      have : (st.low : ℚ) ≤ 2 ^ 63 := by
        exact_mod_cast le_of_lt hl
      linarith
    · rw [hval]
      have : (2 ^ 63 : ℚ) ≤ (st.high : ℚ) := by
        exact_mod_cast hh
      linarith
    · intro c s rest heq
      exact absurd heq (by simp)
  | cons p rest ih =>
    intro st u hst hwf
    obtain ⟨c, s⟩ := p
    have hp := hwf (c, s) (List.mem_cons_self _ _)
    have hstep := update_stable st c s hst hp.1 hp.2.1 hp.2.2
    have hhstF : st.high < FULL_RANGE := hst.2.2.1
    have hscaleLF : (scaleState st c s).low < FULL_RANGE :=
      lt_of_le_of_lt (le_trans hstep.2.2.2.1 hstep.2.2.2.2) hhstF
    have hscaleHF : (scaleState st c s).high < FULL_RANGE :=
      lt_of_le_of_lt hstep.2.2.2.2 hhstF
    have hrest := ih (update st c s).1 (emitOps u (update st c s).2).2 hstep.2.1
      (fun q hq => hwf q (List.mem_cons_of_mem _ hq))
    have hval := opsRel_val hstep.1 hscaleLF hscaleHF u
      (futureBits (update st c s).1 (emitOps u (update st c s).2).2 rest) hrest.1
    have hfb : futureBits st u ((c, s) :: rest)
        = (emitOps u (update st c s).2).1
          ++ futureBits (update st c s).1 (emitOps u (update st c s).2).2 rest := rfl
    rw [hfb]
    have hlowle : ((st.low : ℚ)) ≤ ((scaleState st c s).low : ℚ) := by
      exact_mod_cast hstep.2.2.1
    have hhighle : ((scaleState st c s).high : ℚ) ≤ (st.high : ℚ) := by
      exact_mod_cast hstep.2.2.2.2
    refine ⟨⟨le_trans hlowle hval.1, lt_of_lt_of_le hval.2 (by linarith)⟩, ?_⟩
    intro c' s' rest' heq
    rw [List.cons.injEq, Prod.mk.injEq] at heq
    obtain ⟨⟨rfl, rfl⟩, rfl⟩ := heq
    exact hval

theorem opsRel_sim : ∀ {st st' : CoderState} {ops : List RenormOp}, OpsRel st ops st' →
    st.high < FULL_RANGE →
    ∀ (d : Decoder) (u : ℕ) (F : List ℕ),
      st.low ≤ d.code → d.code ≤ st.high →
      (∀ j, readStream d j = ((emitOps u ops).1 ++ F).getD (64 + u + j) 0) →
      ((d.code : ℚ) + bitsVal (((emitOps u ops).1 ++ F).drop (64 + u))
        = 2 ^ 64 * hmap u (bitsVal ((emitOps u ops).1 ++ F))) →
      st'.low ≤ (ops.foldl decApplyOp d).code ∧
        (ops.foldl decApplyOp d).code ≤ st'.high ∧
        st'.high < FULL_RANGE ∧
        (∀ j, readStream (ops.foldl decApplyOp d) j
          = F.getD (64 + (emitOps u ops).2 + j) 0) ∧
        (((ops.foldl decApplyOp d).code : ℚ)
            + bitsVal (F.drop (64 + (emitOps u ops).2))
          = 2 ^ 64 * hmap (emitOps u ops).2 (bitsVal F)) := by
  intro st st' ops h
  induction h with
  | nil =>
    intro hF d u F h1 h2 hstream hval
    have he1 : (emitOps u ([] : List RenormOp)).1 ++ F = F := rfl
    have he2 : (emitOps u ([] : List RenormOp)).2 = u := rfl
    rw [he1] at hstream hval
    rw [he2]
    exact ⟨h1, h2, hF, hstream, hval⟩
  | shift st0 st1 ops hg h ih =>
    intro hF d u F h1 h2 hstream hval
    have hlF : st0.low < FULL_RANGE := lt_of_le_of_lt (le_trans h1 h2) hF
    obtain ⟨hb1, hlow, hhigh, hiff1, hiff2⟩ := shift_op_facts st0 hlF hF hg
    have hbit := readCodeBit_le_one d
    have hbF : shiftBit st0 * FULL_RANGE ≤ 2 * st0.low := by
      rcases Nat.le_one_iff_eq_zero_or_eq_one.mp hb1 with h0 | hone
      · rw [h0]; omega
      · have hlge := hiff1.mp hone
        rw [hone, one_mul, FULL_RANGE_eq]
        rw [HALF_RANGE_eq] at hlge
        omega
    have hcode : (decShift d).code
        = 2 * d.code - shiftBit st0 * FULL_RANGE + (readCodeBit d).1 := by
      show 2 * d.code % FULL_RANGE + (readCodeBit d).1 = _
      rcases Nat.le_one_iff_eq_zero_or_eq_one.mp hb1 with h0 | hone
      · have hnh : st0.high < HALF_RANGE := by
          by_contra hcon
          push_neg at hcon
          have := hiff2.mpr hcon
          omega
        have h2c : 2 * d.code < FULL_RANGE := by
          rw [HALF_RANGE_eq] at hnh
          rw [FULL_RANGE_eq]
          omega
        rw [h0, Nat.mod_eq_of_lt h2c]
        omega
      · have hlge := hiff1.mp hone
        have h2c : FULL_RANGE ≤ 2 * d.code := by
          rw [HALF_RANGE_eq] at hlge
          rw [FULL_RANGE_eq]
          omega
        have h2c2 : 2 * d.code < 2 * FULL_RANGE := by
          have hcF : d.code < FULL_RANGE := lt_of_le_of_lt h2 hF
          omega
        rw [hone, one_mul]
        rw [FULL_RANGE_eq] at h2c h2c2 ⊢
        omega
    have hbF2 : shiftBit st0 * FULL_RANGE ≤ 2 * d.code :=
      le_trans hbF (by omega)
    have hstep1 : (e12Step st0).low ≤ (decShift d).code := by
      rw [hcode, hlow]
      omega
    have hstep2 : (decShift d).code ≤ (e12Step st0).high := by
      rw [hcode, hhigh]
      omega
    have hF2 : (e12Step st0).high < FULL_RANGE := by
      rcases Nat.le_one_iff_eq_zero_or_eq_one.mp hb1 with h0 | hone
      · have hnh : st0.high < HALF_RANGE := by
          by_contra hcon
          push_neg at hcon
          have := hiff2.mpr hcon
          omega
        rw [hhigh, h0]
        rw [HALF_RANGE_eq] at hnh
        rw [FULL_RANGE_eq]
        omega
      · rw [hhigh, hone, one_mul]
        rw [FULL_RANGE_eq] at hF ⊢
        omega
    -- list structure of the emitted bits
    have hG : (emitOps u (RenormOp.shift (shiftBit st0) :: ops)).1 ++ F
        = (shiftBit st0 :: List.replicate u (shiftBit st0 ^^^ 1))
          ++ ((emitOps 0 ops).1 ++ F) := by
      show (shiftBit st0 :: (List.replicate u (shiftBit st0 ^^^ 1) ++ (emitOps 0 ops).1)) ++ F
        = _
      rw [List.cons_append, List.cons_append, List.append_assoc]
    have hplen : (shiftBit st0 :: List.replicate u (shiftBit st0 ^^^ 1)).length = u + 1 := by
      rw [List.length_cons, List.length_replicate]
    -- new stream relation
    have hstream2 : ∀ j, readStream (decShift d) j
        = ((emitOps 0 ops).1 ++ F).getD (64 + 0 + j) 0 := by
      intro j
      rw [readStream_decShift, hstream (j + 1), hG]
      rw [show 64 + u + (j + 1)
          = (shiftBit st0 :: List.replicate u (shiftBit st0 ^^^ 1)).length + (64 + j) by
        rw [hplen]; omega]
      rw [getD_append_len]
    -- new value relation
    have hr : (readCodeBit d).1 = ((emitOps 0 ops).1 ++ F).getD 63 0 := by
      have h0 := hstream 0
      rw [show readStream d 0 = (readCodeBit d).1 from rfl] at h0
      rw [h0, hG]
      rw [show 64 + u + 0
          = (shiftBit st0 :: List.replicate u (shiftBit st0 ^^^ 1)).length + 63 by
        rw [hplen]; omega]
      rw [getD_append_len]
    have hdropG : ((emitOps u (RenormOp.shift (shiftBit st0) :: ops)).1 ++ F).drop (64 + u)
        = ((emitOps 0 ops).1 ++ F).drop 63 := by
      rw [hG]
      rw [show 64 + u
          = (shiftBit st0 :: List.replicate u (shiftBit st0 ^^^ 1)).length + 63 by
        rw [hplen]; omega]
      rw [drop_append_len]
    have hmapG : hmap u (bitsVal ((emitOps u (RenormOp.shift (shiftBit st0) :: ops)).1 ++ F))
        = ((shiftBit st0 : ℚ) + bitsVal ((emitOps 0 ops).1 ++ F)) / 2 := by
      rw [hG, List.cons_append]
      exact hmap_shift_stream u (shiftBit st0) ((emitOps 0 ops).1 ++ F) hb1
    have hcodeN : (decShift d).code + shiftBit st0 * FULL_RANGE
        = 2 * d.code + (readCodeBit d).1 := by
      omega
    rw [FULL_RANGE_eq] at hcodeN
    have hcodeQ : ((decShift d).code : ℚ) + (shiftBit st0 : ℚ) * 2 ^ 64
        = 2 * (d.code : ℚ) + ((readCodeBit d).1 : ℚ) := by
      exact_mod_cast hcodeN
    have hval2 : ((decShift d).code : ℚ)
        + bitsVal (((emitOps 0 ops).1 ++ F).drop (64 + 0))
        = 2 ^ 64 * hmap 0 (bitsVal ((emitOps 0 ops).1 ++ F)) := by
      rw [hdropG, hmapG] at hval
      rw [bitsVal_drop_succ _ 63] at hval
      rw [hmap_zero]
      rw [show 64 + 0 = 63 + 1 by omega]
      have hrQ : (((emitOps 0 ops).1 ++ F).getD 63 0 : ℚ) = ((readCodeBit d).1 : ℚ) := by
        rw [hr]
      linarith [hval]
    have hrec := ih hF2 (decShift d) 0 F hstep1 hstep2 hstream2 hval2
    have hfold : (RenormOp.shift (shiftBit st0) :: ops).foldl decApplyOp d
        = ops.foldl decApplyOp (decShift d) := rfl
    have he2 : (emitOps u (RenormOp.shift (shiftBit st0) :: ops)).2 = (emitOps 0 ops).2 := rfl
    rw [hfold, he2]
    exact hrec
  | underflow st0 st1 ops hl63 hh63 hl62 hh62 h ih =>
    intro hF d u F h1 h2 hstream hval
    have hlF : st0.low < FULL_RANGE := lt_of_le_of_lt (le_trans h1 h2) hF
    obtain ⟨hQ, hlH, hhH, hh3Q, hlow, hhigh⟩ :=
      underflow_op_facts st0 hlF hF hl63 hh63 hl62 hh62
    have hbit := readCodeBit_le_one d
    rw [QUARTER_RANGE_eq] at hQ hh3Q
    rw [HALF_RANGE_eq] at hlH hhH
    have hcode : (decUnderflow d).code
        = 2 * d.code - HALF_RANGE + (readCodeBit d).1 := by
      show HALF_RANGE * (d.code / HALF_RANGE % 2) + 2 * d.code % HALF_RANGE
          + (readCodeBit d).1 = _
      rw [HALF_RANGE_eq]
      omega
    have hstep1 : (e3Step st0).low ≤ (decUnderflow d).code := by
      rw [hcode, hlow]
      rw [HALF_RANGE_eq]
      omega
    have hstep2 : (decUnderflow d).code ≤ (e3Step st0).high := by
      rw [hcode, hhigh]
      rw [HALF_RANGE_eq]
      omega
    have hF2 : (e3Step st0).high < FULL_RANGE := by
      rw [hhigh]
      rw [HALF_RANGE_eq]
      rw [FULL_RANGE_eq]
      omega
    have he1 : (emitOps u (RenormOp.underflow :: ops)).1 = (emitOps (u + 1) ops).1 := rfl
    rw [he1] at hstream hval
    have hstream2 : ∀ j, readStream (decUnderflow d) j
        = ((emitOps (u + 1) ops).1 ++ F).getD (64 + (u + 1) + j) 0 := by
      intro j
      rw [readStream_decUnderflow, hstream (j + 1)]
      rw [show 64 + u + (j + 1) = 64 + (u + 1) + j by omega]
    have hr : (readCodeBit d).1 = ((emitOps (u + 1) ops).1 ++ F).getD (64 + u) 0 := by
      have h0 := hstream 0
      rw [show readStream d 0 = (readCodeBit d).1 from rfl] at h0
      exact h0
    have hcodeN : (decUnderflow d).code + HALF_RANGE
        = 2 * d.code + (readCodeBit d).1 := by
      have hcl : 2 ^ 62 ≤ d.code := le_trans hQ h1
      rw [HALF_RANGE_eq] at hcode ⊢
      omega
    rw [HALF_RANGE_eq] at hcodeN
    have hcodeQ : ((decUnderflow d).code : ℚ) + 2 ^ 63
        = 2 * (d.code : ℚ) + ((readCodeBit d).1 : ℚ) := by
      exact_mod_cast hcodeN
    have hval2 : ((decUnderflow d).code : ℚ)
        + bitsVal (((emitOps (u + 1) ops).1 ++ F).drop (64 + (u + 1)))
        = 2 ^ 64 * hmap (u + 1) (bitsVal ((emitOps (u + 1) ops).1 ++ F)) := by
      rw [bitsVal_drop_succ _ (64 + u)] at hval
      rw [hmap_succ]
      rw [show 64 + (u + 1) = (64 + u) + 1 by omega]
      have hrQ : (((emitOps (u + 1) ops).1 ++ F).getD (64 + u) 0 : ℚ)
          = ((readCodeBit d).1 : ℚ) := by
        rw [hr]
      linarith [hval]
    have hrec := ih hF2 (decUnderflow d) (u + 1) F hstep1 hstep2 hstream2 hval2
    have hfold : (RenormOp.underflow :: ops).foldl decApplyOp d
        = ops.foldl decApplyOp (decUnderflow d) := rfl
    have he2 : (emitOps u (RenormOp.underflow :: ops)).2 = (emitOps (u + 1) ops).2 := rfl
    rw [hfold, he2]
    exact hrec

theorem decode_symbol_eq (d : Decoder) (c : List ℕ) (s : ℕ)
    (hwf : Cdf.Wf c) (hsup : InSupport c s)
    (hrange : cdfTotal c ≤ d.st.high - d.st.low + 1)
    (h1 : d.st.low ≤ d.code) (h2 : d.code ≤ d.st.high)
    (hlo : (scaleState d.st c s).low ≤ d.code)
    (hhi : d.code ≤ (scaleState d.st c s).high) :
    (decodeSymbol d c).1 = s := by
  obtain ⟨hne, hchain, htot⟩ := hwf
  obtain ⟨hslen, hsuplt⟩ := hsup
  have hsf := scaleState_facts d.st c s ⟨hne, hchain, htot⟩ ⟨hslen, hsuplt⟩ hrange
    (le_trans h1 h2)
  obtain ⟨-, -, -, hsl, hsh, hm2, hm3⟩ := hsf
  have hmain := decode_symbol_least_upper d c hchain hne htot h1 h2
  obtain ⟨hslt, hvlt, hvle⟩ := hmain
  set s' := (decodeSymbol d c).1 with hs'
  set T := cdfTotal c with hT
  set R := d.st.high - d.st.low + 1 with hR
  set o := d.code - d.st.low with ho
  set v := ((o + 1) * T - 1) / R with hv
  have hRpos : 0 < R := by omega
  have hA : v < cdfHigh c s := by
    have hup : d.code + 1 ≤ d.st.low + cdfHigh c s * R / T := by
      rw [hsh] at hhi
      omega
    have hoq : o + 1 ≤ cdfHigh c s * R / T := by omega
    have hmul : (o + 1) * T ≤ cdfHigh c s * R := by
      calc (o + 1) * T ≤ (cdfHigh c s * R / T) * T := Nat.mul_le_mul_right _ hoq
        _ ≤ cdfHigh c s * R := Nat.div_mul_le_self _ _
    rw [hv, Nat.div_lt_iff_lt_mul hRpos]
    have hone : 0 < (o + 1) * T := Nat.mul_pos (by omega) htot
    omega
  have hB : cdfLow c s ≤ v := by
    have hlow2 : d.st.low + cdfLow c s * R / T ≤ d.code := by
      rw [hsl] at hlo
      exact hlo
    have hoq : cdfLow c s * R / T ≤ o := by omega
    have hstep : cdfLow c s * R < (o + 1) * T :=
      (Nat.div_lt_iff_lt_mul htot).mp (by omega)
    have hone : 0 < (o + 1) * T := Nat.mul_pos (by omega) htot
    rw [hv, Nat.le_div_iff_mul_le hRpos]
    omega
  by_contra hne2
  rcases Nat.lt_or_ge s' s with hlt | hge
  · have hcls : cdfLow c s = c.getD (s - 1) 0 := by
      unfold cdfLow
      rw [if_pos (by omega)]
    have hmono : c.getD s' 0 ≤ c.getD (s - 1) 0 :=
      chain_le_getD_mono c hchain s' (s - 1) (by omega) (by omega)
    omega
  · have hlt : s < s' := by omega
    have hle := hvle s hlt
    unfold cdfHigh at hA
    omega

/-! ## C1: the concrete encoder run appends exactly the recorded future bits -/

theorem appendBit_setnu2 (e : Encoder) (b y : ℕ) :
    appendBit { e with numUnderflow := y } b
      = { appendBit e b with numUnderflow := y } := rfl

theorem appendBits_setnu2 : ∀ (bs : List ℕ) (e : Encoder) (y : ℕ),
    appendBits { e with numUnderflow := y } bs
      = { appendBits e bs with numUnderflow := y } := by
  intro bs
  induction bs with
  | nil => intro e y; rfl
  | cons b rest ih =>
    intro e y
    show appendBits (appendBit { e with numUnderflow := y } b) rest = _
    rw [appendBit_setnu2]
    exact ih (appendBit e b) y

theorem appendBit_setnu (e : Encoder) (b y : ℕ) (z : CoderState) :
    appendBit { e with st := z, numUnderflow := y } b
      = { appendBit e b with st := z, numUnderflow := y } := rfl

theorem appendBits_setnu : ∀ (bs : List ℕ) (e : Encoder) (y : ℕ) (z : CoderState),
    appendBits { e with st := z, numUnderflow := y } bs
      = { appendBits e bs with st := z, numUnderflow := y } := by
  intro bs
  induction bs with
  | nil => intro e y z; rfl
  | cons b rest ih =>
    intro e y z
    show appendBits (appendBit { e with st := z, numUnderflow := y } b) rest = _
    rw [appendBit_setnu]
    exact ih (appendBit e b) y z

theorem appendCopies_eq : ∀ (n : ℕ) (e : Encoder) (bit : ℕ),
    appendCopies n e bit = appendBits e (List.replicate n bit) := by
  intro n
  induction n with
  | zero => intro e bit; rfl
  | succ n ih =>
    intro e bit
    show appendCopies n (appendBit e bit) bit = _
    rw [List.replicate_succ]
    exact ih (appendBit e bit) bit

theorem appendBits_append (e : Encoder) (l1 l2 : List ℕ) :
    appendBits e (l1 ++ l2) = appendBits (appendBits e l1) l2 := by
  unfold appendBits
  rw [List.foldl_append]

theorem encShift_eq (e : Encoder) (b : ℕ) :
    encShift e b
      = { appendBits e (b :: List.replicate e.numUnderflow (b ^^^ 1)) with
          numUnderflow := 0 } := by
  show { appendCopies (appendBit e b).numUnderflow (appendBit e b) (b ^^^ 1) with
      numUnderflow := 0 } = _
  rw [appendCopies_eq]
  rfl

theorem encApplyOps_eq : ∀ (ops : List RenormOp) (e : Encoder),
    ops.foldl encApplyOp e
      = { appendBits e (emitOps e.numUnderflow ops).1 with
          numUnderflow := (emitOps e.numUnderflow ops).2 } := by
  intro ops
  induction ops with
  | nil => intro e; rfl
  | cons op rest ih =>
    intro e
    cases op with
    | shift b =>
      show rest.foldl encApplyOp (encShift e b) = _
      rw [ih (encShift e b)]
      rw [encShift_eq]
      have hnu : ({ appendBits e (b :: List.replicate e.numUnderflow (b ^^^ 1)) with
          numUnderflow := 0 } : Encoder).numUnderflow = 0 := rfl
      rw [hnu]
      rw [appendBits_setnu2]
      rw [← appendBits_append]
      rfl
    | underflow =>
      show rest.foldl encApplyOp { e with numUnderflow := e.numUnderflow + 1 } = _
      rw [ih { e with numUnderflow := e.numUnderflow + 1 }]
      show { appendBits { e with numUnderflow := e.numUnderflow + 1 }
            (emitOps (e.numUnderflow + 1) rest).1 with
          numUnderflow := (emitOps (e.numUnderflow + 1) rest).2 } = _
      rw [appendBits_setnu2]
      rfl

theorem encoder_run_data : ∀ (pairs : List (List ℕ × ℕ)) (e : Encoder),
    (Encoder.finish (pairs.foldl (fun x p => encodeSymbol x p.1 p.2) e)).encodedData
      = (appendBits e (futureBits e.st e.numUnderflow pairs)).encodedData := by
  intro pairs
  induction pairs with
  | nil => intro e; rfl
  | cons p rest ih =>
    intro e
    show (Encoder.finish (rest.foldl (fun x q => encodeSymbol x q.1 q.2)
        (encodeSymbol e p.1 p.2))).encodedData = _
    rw [ih (encodeSymbol e p.1 p.2)]
    have henc : encodeSymbol e p.1 p.2
        = { appendBits e (emitOps e.numUnderflow (update e.st p.1 p.2).2).1 with
            st := (update e.st p.1 p.2).1
            numUnderflow := (emitOps e.numUnderflow (update e.st p.1 p.2).2).2 } := by
      show { (update e.st p.1 p.2).2.foldl encApplyOp e with
          st := (update e.st p.1 p.2).1 } = _
      rw [encApplyOps_eq]
    rw [henc]
    have hst : ({ appendBits e (emitOps e.numUnderflow (update e.st p.1 p.2).2).1 with
        st := (update e.st p.1 p.2).1
        numUnderflow := (emitOps e.numUnderflow (update e.st p.1 p.2).2).2 } : Encoder).st
        = (update e.st p.1 p.2).1 := rfl
    have hnu : ({ appendBits e (emitOps e.numUnderflow (update e.st p.1 p.2).2).1 with
        st := (update e.st p.1 p.2).1
        numUnderflow := (emitOps e.numUnderflow (update e.st p.1 p.2).2).2 } : Encoder).numUnderflow
        = (emitOps e.numUnderflow (update e.st p.1 p.2).2).2 := rfl
    rw [hst, hnu]
    rw [appendBits_setnu]
    show (appendBits (appendBits e (emitOps e.numUnderflow (update e.st p.1 p.2).2).1)
        (futureBits (update e.st p.1 p.2).1
          (emitOps e.numUnderflow (update e.st p.1 p.2).2).2 rest)).encodedData = _
    rw [← appendBits_append]
    rfl

theorem decode_sim : ∀ (pairs : List (List ℕ × ℕ)) (st : CoderState) (u : ℕ) (d : Decoder),
    Stable st →
    (∀ p ∈ pairs, Cdf.Wf p.1 ∧ InSupport p.1 p.2 ∧ cdfTotal p.1 ≤ QUARTER_RANGE) →
    d.st = st →
    IsBits (futureBits st u pairs) →
    (∀ j, readStream d j = (futureBits st u pairs).getD (64 + u + j) 0) →
    ((d.code : ℚ) + bitsVal ((futureBits st u pairs).drop (64 + u))
      = 2 ^ 64 * hmap u (bitsVal (futureBits st u pairs))) →
    decodeSymbols d (pairs.map Prod.fst) = pairs.map Prod.snd := by
  intro pairs
  induction pairs with
  | nil => intro st u d _ _ _ _ _ _; rfl
  | cons p rest ih =>
    intro st u d hst hwf hdst hbits hstream hval
    obtain ⟨c, s⟩ := p
    have hp := hwf (c, s) (List.mem_cons_self _ _)
    have hstep := update_stable st c s hst hp.1 hp.2.1 hp.2.2
    have hfv := (futureBits_val ((c, s) :: rest) st u hst hwf).2 c s rest rfl
    have hbits_drop : IsBits ((futureBits st u ((c, s) :: rest)).drop (64 + u)) := by
      intro x hx
      exact hbits x (List.mem_of_mem_drop hx)
    have hbv0 := bitsVal_nonneg ((futureBits st u ((c, s) :: rest)).drop (64 + u))
    have hbv1 := bitsVal_lt_one _ hbits_drop
    have hcode_ge : (scaleState st c s).low ≤ d.code := by
      have h1 := hfv.1
      rw [← hval] at h1
      have h2 : ((scaleState st c s).low : ℚ) < (d.code : ℚ) + 1 := by linarith
      have h3 : (scaleState st c s).low < d.code + 1 := by exact_mod_cast h2
      omega
    have hcode_le : d.code ≤ (scaleState st c s).high := by
      have h1 := hfv.2
      rw [← hval] at h1
      have h2 : (d.code : ℚ) < ((scaleState st c s).high : ℚ) + 1 := by linarith
      have h3 : d.code < (scaleState st c s).high + 1 := by exact_mod_cast h2
      omega
    have hrange : cdfTotal c ≤ d.st.high - d.st.low + 1 := by
      rw [hdst]
      obtain ⟨hl, hh, hhF, hq⟩ := hst
      rw [HALF_RANGE_eq] at hl hh
      rw [FULL_RANGE_eq] at hhF
      have htq : cdfTotal c ≤ QUARTER_RANGE := hp.2.2
      rw [QUARTER_RANGE_eq] at htq hq
      omega
    have h1d : d.st.low ≤ d.code := by
      rw [hdst]
      exact le_trans hstep.2.2.1 hcode_ge
    have h2d : d.code ≤ d.st.high := by
      rw [hdst]
      exact le_trans hcode_le hstep.2.2.2.2
    have hsymb : (decodeSymbol d c).1 = s := by
      apply decode_symbol_eq d c s hp.1 hp.2.1 hrange h1d h2d
      · rw [hdst]
        exact hcode_ge
      · rw [hdst]
        exact hcode_le
    have hF : futureBits st u ((c, s) :: rest)
        = (emitOps u (update st c s).2).1
          ++ futureBits (update st c s).1 (emitOps u (update st c s).2).2 rest := rfl
    have hscaleHF : (scaleState st c s).high < FULL_RANGE :=
      lt_of_le_of_lt hstep.2.2.2.2 hst.2.2.1
    have hsim := opsRel_sim hstep.1 hscaleHF d u
      (futureBits (update st c s).1 (emitOps u (update st c s).2).2 rest)
      hcode_ge hcode_le
      (fun j => by rw [← hF]; exact hstream j)
      (by rw [← hF]; exact hval)
    have hfold_eq : (update d.st c (decodeSymbol d c).1).2.foldl decApplyOp d
        = (update st c s).2.foldl decApplyOp d := by
      rw [hdst, hsymb]
    have hd2st : (decodeSymbol d c).2.st = (update st c s).1 := by
      show (update d.st c (decodeSymbol d c).1).1 = _
      rw [hdst, hsymb]
    have hd2code : (decodeSymbol d c).2.code
        = ((update st c s).2.foldl decApplyOp d).code := by
      show ((update d.st c (decodeSymbol d c).1).2.foldl decApplyOp d).code = _
      rw [hfold_eq]
    have hd2stream : ∀ j, readStream (decodeSymbol d c).2 j
        = readStream ((update st c s).2.foldl decApplyOp d) j := by
      intro j
      have h1 : readStream (decodeSymbol d c).2 j
          = readStream ((update d.st c (decodeSymbol d c).1).2.foldl decApplyOp d) j :=
        readStream_congr j _ _ rfl rfl rfl
      rw [h1, hfold_eq]
    show (decodeSymbol d c).1 :: decodeSymbols (decodeSymbol d c).2 (rest.map Prod.fst)
        = s :: rest.map Prod.snd
    rw [hsymb]
    congr 1
    exact ih (update st c s).1 (emitOps u (update st c s).2).2 (decodeSymbol d c).2
      hstep.2.1 (fun q hq => hwf q (List.mem_cons_of_mem _ hq)) hd2st
      (fun x hx => hbits x (by rw [hF]; exact List.mem_append_right _ hx))
      (fun j => by rw [hd2stream j]; exact hsim.2.2.2.1 j)
      (by rw [show ((decodeSymbol d c).2.code : ℚ)
            = (((update st c s).2.foldl decApplyOp d).code : ℚ) by rw [hd2code]]
          exact hsim.2.2.2.2)

theorem encodeData_eq (pairs : List (List ℕ × ℕ)) :
    encodeData pairs = packBits (futureBits initState 0 pairs) := by
  unfold encodeData
  rw [encoder_run_data pairs Encoder.init]
  have h1 : futureBits Encoder.init.st Encoder.init.numUnderflow pairs
      = futureBits initState 0 pairs := rfl
  rw [h1]
  have hinv := appendBits_packInv (futureBits initState 0 pairs) [] Encoder.init
    encoder_init_packInv
  rw [List.nil_append] at hinv
  exact hinv.1

theorem readStream_setcode (d : Decoder) (c : ℕ) (j : ℕ) :
    readStream { d with code := c } j = readStream d j :=
  readStream_congr j _ _ rfl rfl rfl

theorem decoder_init_stream (data : List ℕ) (j : ℕ) :
    readStream (Decoder.init data) j = byteBitAt data (64 + j) := by
  show readStream { (readCode 64 0 (⟨data, 0, 0, initState, 0⟩ : Decoder)).2 with
      code := (readCode 64 0 (⟨data, 0, 0, initState, 0⟩ : Decoder)).1 } j = _
  rw [readStream_setcode, readStream_readCode]
  have h2 := readStream_pos (64 + j) (⟨data, 0, 0, initState, 0⟩ : Decoder) (by norm_num)
  rw [h2]
  show byteBitAt data (8 * 0 + 0 + (64 + j)) = byteBitAt data (64 + j)
  congr 1
  omega

theorem decoder_init_val (B : List ℕ)
    (hbytes : ∀ n, byteBitAt (packBits B) n = B.getD n 0) :
    ((Decoder.init (packBits B)).code : ℚ) + bitsVal (B.drop 64) = 2 ^ 64 * bitsVal B := by
  have hstream0 : ∀ j,
      readStream (⟨packBits B, 0, 0, initState, 0⟩ : Decoder) j = B.getD (0 + j) 0 := by
    intro j
    have h1 := readStream_pos j (⟨packBits B, 0, 0, initState, 0⟩ : Decoder) (by norm_num)
    rw [h1]
    show byteBitAt (packBits B) (8 * 0 + 0 + j) = B.getD (0 + j) 0
    rw [show 8 * 0 + 0 + j = 0 + j by omega, hbytes (0 + j)]
  have hrc := readCode_bitsVal 64 0 (⟨packBits B, 0, 0, initState, 0⟩ : Decoder) B 0 hstream0
  rw [show (0 : ℕ) + 64 = 64 by omega, List.drop_zero] at hrc
  have hcode : (Decoder.init (packBits B)).code
      = (readCode 64 0 (⟨packBits B, 0, 0, initState, 0⟩ : Decoder)).1 := rfl
  rw [hcode]
  rw [hrc]
  push_cast
  ring

set_option maxRecDepth 10000 in
/-- **C1 counterexample.** The CDF `[2, 3, 4, 2^65]` is non-decreasing with
positive last entry and symbol 1 is in its support (the claim's only
premises), yet encoding symbol 1 and decoding with the same CDF yields
symbol 2, not 1: the round trip fails because the CDF total `2^65` exceeds
the coder's range. -/
theorem coder_round_trip_not_universal :
    Cdf.Wf [2, 3, 4, 2 ^ 65] ∧ InSupport [2, 3, 4, 2 ^ 65] 1 ∧
      decodeSymbols (Decoder.init (encodeData [([2, 3, 4, 2 ^ 65], 1)]))
        [[2, 3, 4, 2 ^ 65]] = [2] := by
  refine ⟨⟨by simp, by norm_num [List.chain'_cons], by decide⟩, ⟨by decide, by decide⟩, ?_⟩
  decide

/-- **C1 (amended).** Coder round trip with bounded totals: for every finite
sequence of (CDF, symbol) pairs in which each CDF is well formed
(non-decreasing, positive last entry), each symbol is in the support of its
CDF, and each CDF total is at most `2^62` (as every CDF built by
`compute_cdf` is), encoding all symbols with `Encoder.encode_symbol`,
calling `finish`, then decoding the resulting bytes with the same CDF
sequence (reads past end supplying zero bits) returns exactly the original
symbols. -/
theorem coder_round_trip (pairs : List (List ℕ × ℕ))
    (hwf : ∀ p ∈ pairs, Cdf.Wf p.1 ∧ InSupport p.1 p.2 ∧ cdfTotal p.1 ≤ QUARTER_RANGE) :
    decodeSymbols (Decoder.init (encodeData pairs)) (pairs.map Prod.fst)
      = pairs.map Prod.snd := by
  have hbitsB : IsBits (futureBits initState 0 pairs) :=
    futureBits_isBits pairs initState 0 stable_initState hwf
  have hdata : encodeData pairs = packBits (futureBits initState 0 pairs) :=
    encodeData_eq pairs
  have hbytes : ∀ n, byteBitAt (packBits (futureBits initState 0 pairs)) n
      = (futureBits initState 0 pairs).getD n 0 :=
    byteBitAt_packBits (futureBits initState 0 pairs) hbitsB
  rw [hdata]
  apply decode_sim pairs initState 0
    (Decoder.init (packBits (futureBits initState 0 pairs))) stable_initState hwf
  · show (Decoder.init (packBits (futureBits initState 0 pairs))).st = initState
    simp only [Decoder.init]
    rw [readCode_st]
  · exact hbitsB
  · intro j
    rw [decoder_init_stream, hbytes]
  · have hv := decoder_init_val (futureBits initState 0 pairs) hbytes
    rw [hmap_zero]
    exact hv

/-- Witness for `coder_round_trip`: the pairs `[([1,1,2], 2), ([2,4], 0)]`
(the first CDF has a tie) round-trip. -/
theorem coder_round_trip_witness :
    decodeSymbols (Decoder.init (encodeData [([1, 1, 2], 2), ([2, 4], 0)]))
        ([([1, 1, 2], 2), ([2, 4], 0)].map Prod.fst)
      = [([1, 1, 2], 2), ([2, 4], 0)].map Prod.snd :=
  coder_round_trip [([1, 1, 2], 2), ([2, 4], 0)] (by
    intro p hp
    simp only [List.mem_cons, List.not_mem_nil, or_false] at hp
    rcases hp with rfl | rfl
    · exact ⟨⟨by simp, by norm_num [List.chain'_cons], by decide⟩, ⟨by decide, by decide⟩,
        by decide⟩
    · exact ⟨⟨by simp, by norm_num [List.chain'_cons], by decide⟩, ⟨by decide, by decide⟩,
        by decide⟩)

end LlamaZip
